import Mathlib

/-!
Verification development for a Python-dict-literal → JSON converter
(lexer + recursive-descent parser + JSON serialization).

The embedding models the TypeScript source `src/pythonDictParser.ts`:
  - `PythonDictLexer` becomes pure functions over a `List Char` of remaining
    input together with an explicit character offset `pos`;
  - `PythonDictParser` becomes fueled recursive functions over `List Token`;
  - the value tree built by the parser becomes the inductive `Value`;
  - `JSON.stringify(result, null, indent)` and a standard JSON decoder are
    modelled over exact rationals (JavaScript number strings are modelled
    exactly; rounding of in-range doubles is not modelled, while overflow of
    decimal literals to Infinity is modelled exactly, since the emitted text
    depends on it).
JavaScript strings are modelled as `List Char`.
-/

/-! ## Character classes -/

/-- Single-quote character (code 39). -/
def quoteS : Char := '\x27'

/-- Double-quote character (code 34). -/
def quoteD : Char := '\x22'

/-- Left brace character (code 123). -/
def lbraceC : Char := '\x7b'

/-- Right brace character (code 125). -/
def rbraceC : Char := '\x7d'

/-- Whitespace skipped by the lexer: space, tab, LF, CR (the exact set in
`skipWhitespaceAndComments`). -/
def isWsChar (c : Char) : Bool :=
  c = ' ' || c = '\t' || c = '\n' || c = '\r'

/-- Decimal digit (the character class `[0-9]`, stated on code points). -/
def isDigitChar (c : Char) : Bool :=
  48 ≤ c.toNat && c.toNat ≤ 57

/-- Hexadecimal digit (the character class `[0-9a-fA-F]`). -/
def isHexDigitChar (c : Char) : Bool :=
  isDigitChar c || (97 ≤ c.toNat && c.toNat ≤ 102) ||
    (65 ≤ c.toNat && c.toNat ≤ 70)

/-- Octal digit (the character class `[0-7]`). -/
def isOctDigitChar (c : Char) : Bool :=
  48 ≤ c.toNat && c.toNat ≤ 55

/-- Binary digit (the character class `[01]`). -/
def isBinDigitChar (c : Char) : Bool :=
  c = '0' || c = '1'

/-- Identifier continuation character (the character class `[a-zA-Z0-9_]`). -/
def isIdentChar (c : Char) : Bool :=
  (97 ≤ c.toNat && c.toNat ≤ 122) || (65 ≤ c.toNat && c.toNat ≤ 90) ||
    isDigitChar c || c.toNat = 95

/-- Identifier start character (the character class `[a-zA-Z_]`). -/
def isIdentStartChar (c : Char) : Bool :=
  (97 ≤ c.toNat && c.toNat ≤ 122) || (65 ≤ c.toNat && c.toNat ≤ 90) ||
    c.toNat = 95

/-- ECMAScript `TrimString` whitespace: WhiteSpace (tab, VT, FF, space, NBSP,
ZWNBSP and the Zs category) together with LineTerminator (LF, CR, LS, PS).
Used by `String.prototype.trim` and by `parseInt`. -/
def isJsSpaceChar (c : Char) : Bool :=
  let n := c.toNat
  n = 0x9 || n = 0xA || n = 0xB || n = 0xC || n = 0xD || n = 0x20 ||
  n = 0xA0 || n = 0x1680 || (0x2000 ≤ n && n ≤ 0x200A) ||
  n = 0x2028 || n = 0x2029 || n = 0x202F || n = 0x205F || n = 0x3000 ||
  n = 0xFEFF

/-- Value of a hexadecimal digit character. -/
def hexDigitVal (c : Char) : Nat :=
  if isDigitChar c then c.toNat - 48
  else if 97 ≤ c.toNat && c.toNat ≤ 102 then c.toNat - 97 + 10
  else if 65 ≤ c.toNat && c.toNat ≤ 70 then c.toNat - 65 + 10
  else 0

/-- Positional value of a digit string in the given base (digits are assumed
to lie in the base's digit class, as the lexer's collection loops guarantee). -/
def digitsVal (base : Nat) (ds : List Char) : Nat :=
  ds.foldl (fun acc c => acc * base + hexDigitVal c) 0

/-- Little-endian decimal digits of `n`, with fuel (`fuel ≥ n` suffices;
structural recursion keeps kernel evaluation possible). -/
def natDigitsAux : Nat → Nat → List Char
  | 0, _ => []
  | f + 1, n =>
    if n = 0 then []
    else Char.ofNat (48 + n % 10) :: natDigitsAux f (n / 10)

/-- The canonical decimal digit string of a natural number (the digits
`String(n)` produces). -/
def natToDecChars (n : Nat) : List Char :=
  if n = 0 then ['0'] else (natDigitsAux n n).reverse

/-! ## Tokens and lexer errors -/

/-- Token kinds, mirroring the source `enum TokenType`. -/
inductive TokType where
  | STRING | NUMBER | TRUE | FALSE | NONE
  | LBRACE | RBRACE | LBRACKET | RBRACKET | LPAREN | RPAREN
  | COLON | COMMA | EOF
  deriving DecidableEq, Repr

/-- A token: kind, decoded text and source offset (the source `Token`
record with fields `type`, `value`, `pos`). -/
structure Token where
  type : TokType
  value : List Char
  pos : Nat
  deriving DecidableEq, Repr

/-- Lexer failures, one constructor per `throw` site of `PythonDictLexer`.
The two escape-sequence failures carry no offset because the corresponding
error messages in the source carry none.  `outOfFuel` is not a source error:
it models non-termination of the fueled scanning loop and is proved
unreachable for sufficient fuel. -/
inductive LexErr where
  | unterminatedString (pos : Nat)
  | unterminatedTriple (pos : Nat)
  | endOfInputEscape
  | endOfInputUnicodeEscape
  | endOfInputHexEscape
  | invalidNumber (pos : Nat)
  | unexpectedChar (c : Char) (pos : Nat)
  | outOfFuel
  deriving DecidableEq, Repr

/-! ## JavaScript helper semantics used by the lexer -/

/-- Model of `parseInt(s, 16)` from ECMAScript: trim leading whitespace, read
an optional sign, strip an optional `0x`/`0X`, then read the longest prefix
of hexadecimal digits; `none` models NaN (no digits). -/
def jsParseIntHex (s : List Char) : Option Int :=
  let s1 := s.dropWhile isJsSpaceChar
  let sgn : Int := match s1 with
    | '-' :: _ => -1
    | _ => 1
  let s2 : List Char := match s1 with
    | '-' :: r => r
    | '+' :: r => r
    | _ => s1
  let s3 : List Char := match s2 with
    | '0' :: c :: r => if c = 'x' || c = 'X' then r else s2
    | _ => s2
  let ds := s3.takeWhile isHexDigitChar
  if ds.isEmpty then none else some (sgn * (digitsVal 16 ds : Int))

/-- Model of `String.fromCharCode(x)`'s argument conversion `ToUint16`:
NaN becomes 0, otherwise the integer is reduced modulo 2^16. -/
def jsToUint16 : Option Int → Nat
  | none => 0
  | some i => (i % 65536).toNat

/-- Model of `String.fromCharCode(parseInt(hex, 16))` producing one UTF-16
code unit.  (Lean `Char` holds scalar values; a code unit in the surrogate
range — unreachable in the claims considered — is mapped to NUL by
`Char.ofNat`.) -/
def jsFromCharCodeParseIntHex (hex : List Char) : Char :=
  Char.ofNat (jsToUint16 (jsParseIntHex hex))

/-- Model of `String(parseInt(ds, base))` as used by the number lexer on a
digit run it collected itself (so `ds` holds only digits of the base):
an empty run gives NaN, printed `"NaN"`; otherwise the base-10 digits of the
exact value.  Exact integer semantics: rounding of values at or above 2^53 to
double precision is not modelled, which is why general theorems about this
function restrict to values below 2^53. -/
def jsStringOfParseInt (base : Nat) (ds : List Char) : List Char :=
  if ds.isEmpty then "NaN".data else natToDecChars (digitsVal base ds)

/-! ## The lexer -/

mutual

/-- Model of `skipWhitespaceAndComments` (the whitespace state), together
with `skipCommentThenWs` below (the inside-a-`#`-comment state).  The source
comment loop stops just before a newline and lets the outer loop consume it
as whitespace; here `skipCommentThenWs` consumes that newline itself, which
is observationally the same and keeps the recursion structural. -/
def skipWsComments : List Char → Nat → List Char × Nat
  | [], p => ([], p)
  | c :: rest, p =>
    if isWsChar c then skipWsComments rest (p + 1)
    else if c = '#' then skipCommentThenWs rest (p + 1)
    else (c :: rest, p)

/-- Skip the rest of a `#` comment, then continue skipping whitespace. -/
def skipCommentThenWs : List Char → Nat → List Char × Nat
  | [], p => ([], p)
  | c :: rest, p =>
    if c = '\n' then skipWsComments rest (p + 1)
    else skipCommentThenWs rest (p + 1)

end

/-- One digit-collection loop of `readNumber`: consume the longest run of
characters matching the digit class `p` or `'_'`, returning the collected
digits with underscores discarded, the remaining input, and the number of
characters consumed.  The source repeats this loop inline for the classes
`[0-9a-fA-F_]`, `[0-7_]`, `[01_]` and `[0-9_]`. -/
def digitRun (p : Char → Bool) : List Char → List Char × List Char × Nat
  | [] => ([], [], 0)
  | c :: rest =>
    if p c || c = '_' then
      let (ds, r, n) := digitRun p rest
      (if c = '_' then ds else c :: ds, r, n + 1)
    else ([], c :: rest, 0)

/-- Model of `readEscapeSequence`.  The argument list starts with the
character after the backslash; `pos` is the offset of the backslash itself.
Returns the decoded characters, the remaining input and the new offset. -/
def readEscapeSequence (s : List Char) (pos : Nat) :
    Except LexErr (List Char × List Char × Nat) :=
  match s with
  | [] => .error .endOfInputEscape
  | c :: rest =>
    if c = '\\' then .ok (['\\'], rest, pos + 2)
    else if c = '/' then .ok (['/'], rest, pos + 2)
    else if c = 'n' then .ok (['\n'], rest, pos + 2)
    else if c = 'r' then .ok (['\r'], rest, pos + 2)
    else if c = 't' then .ok (['\t'], rest, pos + 2)
    else if c = 'b' then .ok ([Char.ofNat 8], rest, pos + 2)
    else if c = 'f' then .ok ([Char.ofNat 12], rest, pos + 2)
    else if c = quoteS then .ok ([quoteS], rest, pos + 2)
    else if c = quoteD then .ok ([quoteD], rest, pos + 2)
    else if c = '0' then .ok ([Char.ofNat 0], rest, pos + 2)
    else if c = 'u' then
      match rest with
      | h1 :: h2 :: h3 :: h4 :: r =>
        .ok ([jsFromCharCodeParseIntHex [h1, h2, h3, h4]], r, pos + 6)
      | _ => .error .endOfInputUnicodeEscape
    else if c = 'x' then
      match rest with
      | h1 :: h2 :: r =>
        .ok ([jsFromCharCodeParseIntHex [h1, h2]], r, pos + 4)
      | _ => .error .endOfInputHexEscape
    else .ok ([c], rest, pos + 2)

/-- The single-line string scanning loop of `readString`.  `startPos` is the
value the source captured for its error message (the offset just after the
opening quote).  Fuel decreases once per loop iteration; every iteration
consumes at least one character. -/
def readStringBody (quote : Char) :
    Nat → List Char → List Char → Nat → Nat →
    Except LexErr (List Char × List Char × Nat)
  | 0, _, _, _, _ => .error .outOfFuel
  | _ + 1, _, [], _, startPos => .error (.unterminatedString startPos)
  | f + 1, acc, c :: rest, pos, startPos =>
    if c = quote then .ok (acc, rest, pos + 1)
    else if c = '\\' then
      match readEscapeSequence rest pos with
      | .error e => .error e
      | .ok (dec, r, p') => readStringBody quote f (acc ++ dec) r p' startPos
    else readStringBody quote f (acc ++ [c]) rest (pos + 1) startPos

/-- The closing test of the triple-quoted scanning loop: the current
character is the quote and the two following characters exist and also match
(the source condition `input[pos] === quote && pos + 2 < length &&
input[pos+1] === quote && input[pos+2] === quote`). -/
def isTripleClose (quote c : Char) (rest : List Char) : Bool :=
  c = quote &&
    match rest with
    | q2 :: q3 :: _ => q2 = quote && q3 = quote
    | _ => false

/-- The triple-quoted string scanning loop of `readString`.  A close requires
three matching quotes with all three characters present. -/
def readTripleBody (quote : Char) :
    Nat → List Char → List Char → Nat → Nat →
    Except LexErr (List Char × List Char × Nat)
  | 0, _, _, _, _ => .error .outOfFuel
  | _ + 1, _, [], _, startPos => .error (.unterminatedTriple startPos)
  | f + 1, acc, c :: rest, pos, startPos =>
    if isTripleClose quote c rest then
      .ok (acc, rest.drop 2, pos + 3)
    else if c = '\\' then
      match readEscapeSequence rest pos with
      | .error e => .error e
      | .ok (dec, r, p') => readTripleBody quote f (acc ++ dec) r p' startPos
    else readTripleBody quote f (acc ++ [c]) rest (pos + 1) startPos

/-- Model of `readString`.  The argument list starts just after the opening
quote (which the caller consumed), and `pos` is that position — hence the
`startPos` recorded for error messages is one past the opening quote's
offset, exactly as in the source.  The triple-quote check requires the two
repeated quotes and additionally a third remaining character (the source
condition `pos + 2 < length`). -/
def readString (quote : Char) (s : List Char) (pos : Nat) :
    Except LexErr (List Char × List Char × Nat) :=
  match s with
  | q1 :: q2 :: c3 :: rest =>
    if q1 = quote && q2 = quote then
      readTripleBody quote (c3 :: rest).length.succ [] (c3 :: rest) (pos + 2) pos
    else
      readStringBody quote s.length.succ [] s pos pos
  | _ => readStringBody quote s.length.succ [] s pos pos

/-- The fraction stage of `readNumber`: a `.` is consumed only when a digit
immediately follows; the following digit run (underscores discarded) is
appended. -/
def numFracPart (res1 s1 : List Char) (p1 : Nat) : List Char × List Char × Nat :=
  match s1 with
  | '.' :: d :: rest =>
    if isDigitChar d then
      let (ds2, s2, n2) := digitRun isDigitChar (d :: rest)
      (res1 ++ '.' :: ds2, s2, p1 + 1 + n2)
    else (res1, s1, p1)
  | _ => (res1, s1, p1)

/-- The exponent stage of `readNumber`: `e`/`E`, an optional sign, and a
digit run (underscores discarded, possibly empty). -/
def numExpPart (res2 s2 : List Char) (p2 : Nat) : List Char × List Char × Nat :=
  match s2 with
  | c :: rest =>
    if c = 'e' || c = 'E' then
      let (sgnPart, s3, p3) : List Char × List Char × Nat :=
        match rest with
        | d :: rest2 =>
          if d = '+' || d = '-' then ([c, d], rest2, p2 + 2)
          else ([c], d :: rest2, p2 + 1)
        | [] => ([c], [], p2 + 1)
      let (ds3, s4, n3) := digitRun isDigitChar s3
      (res2 ++ sgnPart ++ ds3, s4, p3 + n3)
    else (res2, s2, p2)
  | [] => (res2, s2, p2)

/-- Model of `readNumber` after the optional sign and base-prefix handling:
the decimal digit run, the fraction stage, the exponent stage, and the final
emptiness check.  `res` holds the text accumulated so far, `start` the
offset where the number began. -/
def readNumberTail (res s : List Char) (pos start : Nat) :
    Except LexErr (List Char × List Char × Nat) :=
  let (ds, s1, n1) := digitRun isDigitChar s
  let (res2, s2, p2) := numFracPart (res ++ ds) s1 (pos + n1)
  let (res3, s3, p3) := numExpPart res2 s2 p2
  if res3 = [] ∨ res3 = ['-'] then .error (.invalidNumber start)
  else .ok (res3, s3, p3)

/-- The integer-part dispatch of `readNumber`: a lone `0` followed by
`x`/`X`, `o`/`O` or `b`/`B` selects a base branch whose digit run is
converted through `String(parseInt(..., base))` — these branches return
early and ignore the accumulated text `res0` (discarding any sign);
otherwise the regular decimal path continues in `readNumberTail`. -/
def readNumberBase (res0 s0 : List Char) (p0 start : Nat) :
    Except LexErr (List Char × List Char × Nat) :=
  match s0 with
  | '0' :: c :: rest1 =>
    if c = 'x' || c = 'X' then
      let (ds, r, n) := digitRun isHexDigitChar rest1
      .ok (jsStringOfParseInt 16 ds, r, p0 + 2 + n)
    else if c = 'o' || c = 'O' then
      let (ds, r, n) := digitRun isOctDigitChar rest1
      .ok (jsStringOfParseInt 8 ds, r, p0 + 2 + n)
    else if c = 'b' || c = 'B' then
      let (ds, r, n) := digitRun isBinDigitChar rest1
      .ok (jsStringOfParseInt 2 ds, r, p0 + 2 + n)
    else readNumberTail (res0 ++ ['0']) (c :: rest1) (p0 + 1) start
  | '0' :: [] => readNumberTail (res0 ++ ['0']) [] (p0 + 1) start
  | _ => readNumberTail res0 s0 p0 start

/-- Model of `readNumber`: optional `-` (appended to the accumulated text),
then the integer-part dispatch. -/
def readNumber (s : List Char) (pos : Nat) :
    Except LexErr (List Char × List Char × Nat) :=
  let start := pos
  let (res0, s0, p0) : List Char × List Char × Nat :=
    match s with
    | '-' :: rest => (['-'], rest, pos + 1)
    | _ => ([], s, pos)
  readNumberBase res0 s0 p0 start

/-- Model of `readIdentifier`: the longest run of identifier characters,
returned with the remaining input and the run's length. -/
def readIdentifierRun : List Char → List Char × List Char × Nat
  | [] => ([], [], 0)
  | c :: rest =>
    if isIdentChar c then
      let (ident, r, n) := readIdentifierRun rest
      (c :: ident, r, n + 1)
    else ([], c :: rest, 0)

/-- Classify an identifier run exactly as the `switch` in `tokenize` does:
`True`/`true` → TRUE, `False`/`false` → FALSE, `None`/`null` → NONE, any
other identifier → a STRING token holding the identifier itself. -/
def classifyIdent (ident : List Char) (pos : Nat) : Token :=
  if ident = "True".data then ⟨.TRUE, "true".data, pos⟩
  else if ident = "False".data then ⟨.FALSE, "false".data, pos⟩
  else if ident = "None".data then ⟨.NONE, "null".data, pos⟩
  else if ident = "true".data then ⟨.TRUE, "true".data, pos⟩
  else if ident = "false".data then ⟨.FALSE, "false".data, pos⟩
  else if ident = "null".data then ⟨.NONE, "null".data, pos⟩
  else ⟨.STRING, ident, pos⟩

/-- The main scanning loop of `tokenize`.  Fuel decreases once per loop
iteration; every iteration that neither stops nor throws consumes at least
one character, so fuel `length + 1` always suffices (proved below). -/
def tokenizeLoop : Nat → List Char → Nat → Except LexErr (List Token)
  | 0, _, _ => .error .outOfFuel
  | f + 1, s, pos =>
    let (s1, p1) := skipWsComments s pos
    match s1 with
    | [] => .ok [⟨.EOF, [], p1⟩]
    | c :: rest =>
      if c = lbraceC then
        (tokenizeLoop f rest (p1 + 1)).map (⟨.LBRACE, [lbraceC], p1⟩ :: ·)
      else if c = rbraceC then
        (tokenizeLoop f rest (p1 + 1)).map (⟨.RBRACE, [rbraceC], p1⟩ :: ·)
      else if c = '[' then
        (tokenizeLoop f rest (p1 + 1)).map (⟨.LBRACKET, ['['], p1⟩ :: ·)
      else if c = ']' then
        (tokenizeLoop f rest (p1 + 1)).map (⟨.RBRACKET, [']'], p1⟩ :: ·)
      else if c = '(' then
        (tokenizeLoop f rest (p1 + 1)).map (⟨.LPAREN, ['('], p1⟩ :: ·)
      else if c = ')' then
        (tokenizeLoop f rest (p1 + 1)).map (⟨.RPAREN, [')'], p1⟩ :: ·)
      else if c = ':' then
        (tokenizeLoop f rest (p1 + 1)).map (⟨.COLON, [':'], p1⟩ :: ·)
      else if c = ',' then
        (tokenizeLoop f rest (p1 + 1)).map (⟨.COMMA, [','], p1⟩ :: ·)
      else if c = quoteS || c = quoteD then
        match readString c rest (p1 + 1) with
        | .error e => .error e
        | .ok (str, r, p') =>
          (tokenizeLoop f r p').map (⟨.STRING, str, p1⟩ :: ·)
      else if c = '-' || isDigitChar c then
        if c = '-' then
          -- `pos + 1 < length` and the next character in `[0-9.]`
          match rest with
          | d :: _ =>
            if isDigitChar d || d = '.' then
              match readNumber (c :: rest) p1 with
              | .error e => .error e
              | .ok (num, r, p') =>
                (tokenizeLoop f r p').map (⟨.NUMBER, num, p1⟩ :: ·)
            else .error (.unexpectedChar '-' p1)
          | [] => .error (.unexpectedChar '-' p1)
        else
          match readNumber (c :: rest) p1 with
          | .error e => .error e
          | .ok (num, r, p') =>
            (tokenizeLoop f r p').map (⟨.NUMBER, num, p1⟩ :: ·)
      else if isIdentStartChar c then
        let (ident, r, n) := readIdentifierRun (c :: rest)
        (tokenizeLoop f r (p1 + n)).map (classifyIdent ident p1 :: ·)
      else .error (.unexpectedChar c p1)

/-- Model of `tokenize`, run with sufficient fuel. -/
def tokenize (s : List Char) : Except LexErr (List Token) :=
  tokenizeLoop (s.length + 1) s 0

example :
    tokenize "0x1F".data =
      .ok [⟨.NUMBER, "31".data, 0⟩, ⟨.EOF, [], 4⟩] := by rfl

example :
    tokenize "-.5".data =
      .ok [⟨.NUMBER, "-.5".data, 0⟩, ⟨.EOF, [], 3⟩] := by rfl

example :
    tokenize " \x7b'a': 1_000, # c\n  ok\x7d".data =
      .ok [⟨.LBRACE, [lbraceC], 1⟩, ⟨.STRING, "a".data, 2⟩, ⟨.COLON, [':'], 5⟩,
        ⟨.NUMBER, "1000".data, 7⟩, ⟨.COMMA, [','], 12⟩,
        ⟨.STRING, "ok".data, 20⟩, ⟨.RBRACE, [rbraceC], 22⟩, ⟨.EOF, [], 23⟩] := by
  rfl

/-! ## The value tree -/

/-- A JavaScript number as stored in the value tree: an exact rational, or
one of the two infinities (reachable through `Number` overflow, e.g.
`Number("1e309")`).  NaN never reaches the tree because `parseNumber` throws
on it.  Rounding of in-range values to binary64 is not modelled; overflow to
the infinities is, because `JSON.stringify` prints them as `null`. -/
inductive JNum where
  | fin (q : ℚ)
  | inf
  | ninf
  deriving DecidableEq, Repr

/-- The parse result (the spec's Value tree): JavaScript objects are ordered
association lists in property-creation order. -/
inductive Value where
  | null
  | bool (b : Bool)
  | num (n : JNum)
  | str (s : List Char)
  | arr (elems : List Value)
  | obj (entries : List (List Char × Value))
  deriving Repr

/-- Parser failures, one constructor per `throw` site of `PythonDictParser`.
`unexpectedEnd` models reading past the end of the token array (unreachable
for EOF-terminated streams); `outOfFuel` models non-termination of the
fueled recursion. -/
inductive ParseErr where
  | expected (t : TokType) (got : Token)
  | unexpectedToken (got : Token)
  | invalidDictKey (got : Token)
  | invalidNumber (text : List Char) (pos : Nat)
  | unexpectedEnd
  | outOfFuel
  deriving DecidableEq, Repr

/-! ## Model of `Number(string)` on lexer-produced number texts -/

/-- Strip ECMAScript whitespace from both ends (the `TrimString` operation
used by `ToNumber` on strings). -/
def trimJsList (s : List Char) : List Char :=
  ((s.dropWhile isJsSpaceChar).reverse.dropWhile isJsSpaceChar).reverse

/-- Parse the exponent suffix of a decimal literal: empty input contributes
exponent 0; otherwise `e`/`E`, an optional sign and a nonempty digit run
consuming the entire rest; anything else is NaN (`none`). -/
def parseExpPart : List Char → Option Int
  | [] => some 0
  | c :: rest =>
    if c = 'e' || c = 'E' then
      let snd : Int × List Char :=
        match rest with
        | '-' :: r2 => (-1, r2)
        | '+' :: r2 => (1, r2)
        | _ => (1, rest)
      let ds := snd.2.takeWhile isDigitChar
      let r2 := snd.2.dropWhile isDigitChar
      if ds = [] ∨ r2 ≠ [] then none
      else some (snd.1 * (digitsVal 10 ds : Int))
    else none

/-- The exact rational `(i + f / 10^flen) * 10^e` where `i` is the integer
part's value, `f` the fraction digits' value and `flen` their count. -/
def decValue (i f flen : Nat) (e : Int) : ℚ :=
  if 0 ≤ e then
    mkRat ((i * 10 ^ flen + f) * 10 ^ e.toNat : Int) (10 ^ flen)
  else
    mkRat ((i * 10 ^ flen + f : Nat) : Int) (10 ^ (flen + (-e).toNat))

/-- Parse an unsigned decimal literal (`digits [. digits] [exp]` or
`. digits [exp]`, with at least one mantissa digit), consuming the whole
input; `none` models NaN. -/
def parseUnsignedDec (s : List Char) : Option ℚ :=
  let I := s.takeWhile isDigitChar
  let r1 := s.dropWhile isDigitChar
  match r1 with
  | '.' :: r2 =>
    let F := r2.takeWhile isDigitChar
    let r3 := r2.dropWhile isDigitChar
    if I = [] ∧ F = [] then none
    else
      match parseExpPart r3 with
      | none => none
      | some e => some (decValue (digitsVal 10 I) (digitsVal 10 F) F.length e)
  | _ =>
    if I = [] then none
    else
      match parseExpPart r1 with
      | none => none
      | some e => some (decValue (digitsVal 10 I) 0 0 e)

/-- The smallest magnitude at which `ToNumber` overflows to Infinity under
round-to-nearest-even: `2^1024 - 2^970`, written as an integer literal so
that the kernel can evaluate comparisons against it cheaply
(`doubleOverflow_eq` below proves the literal equals the formula). -/
def doubleOverflow : ℚ :=
  mkRat 179769313486231580793728971405303415079934132710037826936173778980444968292764750946649017977587207096330286416692887910946555547851940402630657488671505820681908902000708383676273854845817711531764475730270069855571366959622842914819860834936475292719074168444365510704342711559699508093042880177904174497792 1

/-- Model of `Number(s)` restricted to the string shapes the lexer can put
in a NUMBER token (optional sign and decimal literal; `Infinity`, the empty
string and whitespace are included for fidelity to `ToNumber`; the `0x`,
`0o`, `0b` string forms accepted by `ToNumber` cannot occur in a NUMBER
token and are mapped to NaN together with all other non-literals).  `none`
models NaN; magnitudes at or above `doubleOverflow` become the infinities,
exactly as binary64 rounding does. -/
def jsToNumber (s0 : List Char) : Option JNum :=
  let s := trimJsList s0
  if s = [] then some (.fin 0)
  else
    let sgn : Int := match s with
      | '-' :: _ => -1
      | _ => 1
    let s1 : List Char := match s with
      | '-' :: r => r
      | '+' :: r => r
      | _ => s
    if s1 = "Infinity".data then some (if sgn = 1 then .inf else .ninf)
    else
      match parseUnsignedDec s1 with
      | none => none
      | some q =>
        if doubleOverflow ≤ q then some (if sgn = 1 then .inf else .ninf)
        else some (.fin (if sgn = 1 then q else -q))

/-! ## The parser -/

/-- Model of the parser's `expect`: check the current token's kind, consume
it on success. -/
def expectTok (ty : TokType) : List Token → Except ParseErr (Token × List Token)
  | [] => .error .unexpectedEnd
  | t :: rest => if t.type = ty then .ok (t, rest) else .error (.expected ty t)

/-- Model of `parseString`. -/
def parseStringTok (ts : List Token) : Except ParseErr (Value × List Token) :=
  match expectTok .STRING ts with
  | .error e => .error e
  | .ok (t, rest) => .ok (.str t.value, rest)

/-- Model of `parseNumber`: convert the token text via `Number(...)` and
throw on NaN. -/
def parseNumberTok (ts : List Token) : Except ParseErr (Value × List Token) :=
  match expectTok .NUMBER ts with
  | .error e => .error e
  | .ok (t, rest) =>
    match jsToNumber t.value with
    | none => .error (.invalidNumber t.value t.pos)
    | some n => .ok (.num n, rest)

/-- Model of `parseDictKey`: STRING and NUMBER keys contribute their token
text, the keyword tokens contribute `true`/`false`/`null`. -/
def parseDictKey : List Token → Except ParseErr (List Char × List Token)
  | [] => .error .unexpectedEnd
  | t :: rest =>
    match t.type with
    | .STRING => .ok (t.value, rest)
    | .NUMBER => .ok (t.value, rest)
    | .TRUE => .ok ("true".data, rest)
    | .FALSE => .ok ("false".data, rest)
    | .NONE => .ok ("null".data, rest)
    | _ => .error (.invalidDictKey t)

/-- Model of the JavaScript assignment `result[key] = value` on a plain
object: overwrite in place if the key is already a property (keeping its
creation position), otherwise append. -/
def recordSet (m : List (List Char × Value)) (k : List Char) (v : Value) :
    List (List Char × Value) :=
  match m with
  | [] => [(k, v)]
  | (k', v') :: rest =>
    if k' = k then (k', v) :: rest else (k', v') :: recordSet rest k v

mutual

/-- Model of `parseValue`: dispatch on the current token.  Fuel decreases
once per call and is threaded through every recursive parsing function. -/
def parseValueF : Nat → List Token → Except ParseErr (Value × List Token)
  | 0, _ => .error .outOfFuel
  | f + 1, ts =>
    match ts with
    | [] => .error .unexpectedEnd
    | t :: rest =>
      match t.type with
      | .LBRACE => parseDictF f ts
      | .LBRACKET => parseListF f ts
      | .LPAREN => parseTupleF f ts
      | .STRING => parseStringTok ts
      | .NUMBER => parseNumberTok ts
      | .TRUE => .ok (.bool true, rest)
      | .FALSE => .ok (.bool false, rest)
      | .NONE => .ok (.null, rest)
      | _ => .error (.unexpectedToken t)

/-- Model of `parseDict`: opening brace, empty-dict early return, the
key/value loop, closing brace. -/
def parseDictF : Nat → List Token → Except ParseErr (Value × List Token)
  | 0, _ => .error .outOfFuel
  | f + 1, ts =>
    match expectTok .LBRACE ts with
    | .error e => .error e
    | .ok (_, ts1) =>
      match ts1 with
      | [] => .error .unexpectedEnd
      | t :: rest =>
        if t.type = .RBRACE then .ok (.obj [], rest)
        else
          match dictLoopF f [] ts1 with
          | .error e => .error e
          | .ok (m, ts2) =>
            match expectTok .RBRACE ts2 with
            | .error e => .error e
            | .ok (_, ts3) => .ok (.obj m, ts3)

/-- The `while (true)` loop of `parseDict`: stop before a closing brace;
otherwise parse `key : value`, store it, and continue only after a comma. -/
def dictLoopF : Nat → List (List Char × Value) → List Token →
    Except ParseErr (List (List Char × Value) × List Token)
  | 0, _, _ => .error .outOfFuel
  | f + 1, m, ts =>
    match ts with
    | [] => .error .unexpectedEnd
    | t :: _ =>
      if t.type = .RBRACE then .ok (m, ts)
      else
        match parseDictKey ts with
        | .error e => .error e
        | .ok (k, ts1) =>
          match expectTok .COLON ts1 with
          | .error e => .error e
          | .ok (_, ts2) =>
            match parseValueF f ts2 with
            | .error e => .error e
            | .ok (v, ts3) =>
              match ts3 with
              | [] => .error .unexpectedEnd
              | t1 :: rest3 =>
                if t1.type = .COMMA then dictLoopF f (recordSet m k v) rest3
                else .ok (recordSet m k v, ts3)

/-- Model of `parseList`: opening bracket, empty-list early return, the
element loop, closing bracket. -/
def parseListF : Nat → List Token → Except ParseErr (Value × List Token)
  | 0, _ => .error .outOfFuel
  | f + 1, ts =>
    match expectTok .LBRACKET ts with
    | .error e => .error e
    | .ok (_, ts1) =>
      match ts1 with
      | [] => .error .unexpectedEnd
      | t :: rest =>
        if t.type = .RBRACKET then .ok (.arr [], rest)
        else
          match listLoopF f ts1 with
          | .error e => .error e
          | .ok (vs, ts2) =>
            match expectTok .RBRACKET ts2 with
            | .error e => .error e
            | .ok (_, ts3) => .ok (.arr vs, ts3)

/-- The element loop of `parseList`: stop before a closing bracket;
otherwise parse an element and continue only after a comma. -/
def listLoopF : Nat → List Token → Except ParseErr (List Value × List Token)
  | 0, _ => .error .outOfFuel
  | f + 1, ts =>
    match ts with
    | [] => .error .unexpectedEnd
    | t :: _ =>
      if t.type = .RBRACKET then .ok ([], ts)
      else
        match parseValueF f ts with
        | .error e => .error e
        | .ok (v, ts1) =>
          match ts1 with
          | [] => .error .unexpectedEnd
          | t1 :: rest1 =>
            if t1.type = .COMMA then
              match listLoopF f rest1 with
              | .error e => .error e
              | .ok (vs, ts2) => .ok (v :: vs, ts2)
            else .ok ([v], ts1)

/-- Model of `parseTuple`: identical to `parseList` with parentheses, and
the result is the same Array value. -/
def parseTupleF : Nat → List Token → Except ParseErr (Value × List Token)
  | 0, _ => .error .outOfFuel
  | f + 1, ts =>
    match expectTok .LPAREN ts with
    | .error e => .error e
    | .ok (_, ts1) =>
      match ts1 with
      | [] => .error .unexpectedEnd
      | t :: rest =>
        if t.type = .RPAREN then .ok (.arr [], rest)
        else
          match tupleLoopF f ts1 with
          | .error e => .error e
          | .ok (vs, ts2) =>
            match expectTok .RPAREN ts2 with
            | .error e => .error e
            | .ok (_, ts3) => .ok (.arr vs, ts3)

/-- The element loop of `parseTuple`. -/
def tupleLoopF : Nat → List Token → Except ParseErr (List Value × List Token)
  | 0, _ => .error .outOfFuel
  | f + 1, ts =>
    match ts with
    | [] => .error .unexpectedEnd
    | t :: _ =>
      if t.type = .RPAREN then .ok ([], ts)
      else
        match parseValueF f ts with
        | .error e => .error e
        | .ok (v, ts1) =>
          match ts1 with
          | [] => .error .unexpectedEnd
          | t1 :: rest1 =>
            if t1.type = .COMMA then
              match tupleLoopF f rest1 with
              | .error e => .error e
              | .ok (vs, ts2) => .ok (v :: vs, ts2)
            else .ok ([v], ts1)

end

/-- Model of `parse`: parse one value with ample fuel, then require the next
token to be EOF (`Unexpected token ... ` otherwise).  Fuel `4·n + 4` always
suffices because every unit of nesting or iteration consumes input tokens;
theorems about parser runs take the fuel as an explicit argument and never
depend on this bound. -/
def parseTokens (ts : List Token) : Except ParseErr Value :=
  match parseValueF (4 * ts.length + 4) ts with
  | .error e => .error e
  | .ok (v, ts1) =>
    match ts1 with
    | [] => .error .unexpectedEnd
    | t :: _ => if t.type = .EOF then .ok v else .error (.unexpectedToken t)

/-! ## Decimal printing -/

/-- Count and strip the factors `p` of `n`: returns `(a, m)` with
`n = p^a * m` and `p` no longer dividing `m` (for `2 ≤ p`, `1 ≤ n ≤ fuel`). -/
def fcStripAux (p : Nat) : Nat → Nat → Nat × Nat
  | 0, n => (0, n)
  | f + 1, n =>
    if 2 ≤ p ∧ n ≠ 0 ∧ n % p = 0 then
      let (a, m) := fcStripAux p f (n / p)
      (a + 1, m)
    else (0, n)

/-- Strip all factors `p` from `n`. -/
def fcStrip (p n : Nat) : Nat × Nat := fcStripAux p n n

/-- The least `k` with `den ∣ 10^k`, computed as `max a b` from
`den = 2^a * 5^b * r`; meaningful when `r = 1` (see `isDecDen`). -/
def pow10Exp (den : Nat) : Nat :=
  max (fcStrip 2 den).1 (fcStrip 5 (fcStrip 2 den).2).1

/-- Whether `den` divides a power of ten (its only prime factors are 2
and 5). -/
def isDecDen (den : Nat) : Bool :=
  (fcStrip 5 (fcStrip 2 den).2).2 = 1

/-- The decimal source text of an exact rational whose denominator divides a
power of ten: sign, integer digits, and — when the denominator is not 1 — a
fraction part of exactly `pow10Exp q.den` digits.  This is the text
`ToString` produces for such a value when the double is exact and the
magnitude is in the plain-notation range (very large or very small
magnitudes, where JavaScript switches to exponent notation, print here in
plain notation, which denotes the same JSON value). -/
def decimalRepr (q : ℚ) : List Char :=
  let k := pow10Exp q.den
  let digits := q.num.natAbs * 10 ^ k / q.den
  let ds := natToDecChars digits
  let ds2 :=
    if k = 0 then ds
    else
      let pad := if ds.length < k + 1 then List.replicate (k + 1 - ds.length) '0' ++ ds else ds
      pad.take (pad.length - k) ++ '.' :: pad.drop (pad.length - k)
  if q.num < 0 then '-' :: ds2 else ds2

/-- `JSON.stringify`'s serialization of a number slot: finite numbers print
their decimal text, the infinities (like NaN) print `null`. -/
def jnumRepr : JNum → List Char
  | .fin q => decimalRepr q
  | .inf => "null".data
  | .ninf => "null".data

/-! ## JSON string quoting (ECMAScript `QuoteJSONString`) -/

/-- Lowercase hexadecimal digit. -/
def hexDigitChar (n : Nat) : Char :=
  if n < 10 then Char.ofNat (48 + n) else Char.ofNat (87 + n)

/-- Four lowercase hexadecimal digits (for `\u....` escapes). -/
def hex4Lower (n : Nat) : List Char :=
  [hexDigitChar (n / 4096 % 16), hexDigitChar (n / 256 % 16),
   hexDigitChar (n / 16 % 16), hexDigitChar (n % 16)]

/-- Escape one character as `QuoteJSONString` does: the two-character
shorthands, `\u00..` for other control characters, everything else
verbatim. -/
def escapeJSONChar (c : Char) : List Char :=
  if c = quoteD then ['\\', quoteD]
  else if c = '\\' then ['\\', '\\']
  else if c = Char.ofNat 8 then ['\\', 'b']
  else if c = Char.ofNat 12 then ['\\', 'f']
  else if c = '\n' then ['\\', 'n']
  else if c = '\r' then ['\\', 'r']
  else if c = '\t' then ['\\', 't']
  else if c.toNat < 32 then '\\' :: 'u' :: hex4Lower c.toNat
  else [c]

/-- `QuoteJSONString`: a double-quoted string with every character
escaped as needed. -/
def quoteJSONString (s : List Char) : List Char :=
  quoteD :: s.foldr (fun c acc => escapeJSONChar c ++ acc) [quoteD]

/-! ## JavaScript property enumeration order -/

/-- An array-index property key: the canonical decimal string of an integer
below 2^32 - 1.  Such keys are enumerated first, in ascending numeric
order. -/
def isArrayIndexKey (s : List Char) : Option Nat :=
  if s ≠ [] ∧ s.all isDigitChar ∧ (s = ['0'] ∨ s.head? ≠ some '0') ∧
      digitsVal 10 s < 4294967295 then
    some (digitsVal 10 s)
  else none

/-- Numeric sort key of an object entry (0 for non-index keys, which are
never compared against each other through it). -/
def keyIdxVal {α : Type} (e : List Char × α) : Nat :=
  (isArrayIndexKey e.1).getD 0

/-- The `[[OwnPropertyKeys]]` enumeration order of a JavaScript object whose
properties were created in list order: array-index keys in ascending numeric
order first, then the remaining keys in creation order.  Polymorphic in the
payload: the order depends only on the keys. -/
def jsOwnKeys {α : Type} (m : List (List Char × α)) : List (List Char × α) :=
  List.insertionSort (fun a b => keyIdxVal a ≤ keyIdxVal b)
      (m.filter (fun e => (isArrayIndexKey e.1).isSome)) ++
    m.filter (fun e => (isArrayIndexKey e.1).isNone)

/-! ## `JSON.stringify(value, null, indent)` -/

/-- The gap string: `indent` spaces, clamped to at most 10. -/
def gapOf (indent : Nat) : List Char :=
  List.replicate (min indent 10) ' '

/-- Separator between serialized items: `,` when compact, otherwise `,`,
a newline and the inner indentation. -/
def itemSep (gap ind1 : List Char) : List Char :=
  if gap = [] then [','] else ',' :: '\n' :: ind1

/-- Concatenate serialized items with `itemSep` between them. -/
def joinItems (gap ind1 : List Char) : List (List Char) → List Char
  | [] => []
  | [x] => x
  | x :: y :: xs => x ++ itemSep gap ind1 ++ joinItems gap ind1 (y :: xs)

mutual

/-- `SerializeJSONProperty` of a value, at inner indentation `ind` with gap
`gap`.  For objects, each entry is serialized and the `(key, text)` pairs
are then arranged in `jsOwnKeys` enumeration order — the same result as
serializing in enumeration order, since entry texts depend only on their own
entry. -/
def stringifyV (gap ind : List Char) : Value → List Char
  | .null => "null".data
  | .bool b => if b then "true".data else "false".data
  | .num n => jnumRepr n
  | .str s => quoteJSONString s
  | .arr [] => ['[', ']']
  | .arr (v :: vs) =>
    let items := joinItems gap (ind ++ gap) (stringifyArrItems gap (ind ++ gap) (v :: vs))
    if gap = [] then '[' :: items ++ [']']
    else '[' :: '\n' :: (ind ++ gap) ++ items ++ '\n' :: ind ++ [']']
  | .obj [] => [lbraceC, rbraceC]
  | .obj (e :: es) =>
    let texts := (jsOwnKeys (stringifyObjItems gap (ind ++ gap) (e :: es))).map Prod.snd
    let items := joinItems gap (ind ++ gap) texts
    if gap = [] then lbraceC :: items ++ [rbraceC]
    else lbraceC :: '\n' :: (ind ++ gap) ++ items ++ '\n' :: ind ++ [rbraceC]

/-- Serialized array elements, in order. -/
def stringifyArrItems (gap ind1 : List Char) : List Value → List (List Char)
  | [] => []
  | v :: vs => stringifyV gap ind1 v :: stringifyArrItems gap ind1 vs

/-- Serialized object entries in creation order, keyed for reordering: each
entry becomes its key paired with `"key":` (plus a space when a gap is
present) followed by the serialized value. -/
def stringifyObjItems (gap ind1 : List Char) :
    List (List Char × Value) → List (List Char × List Char)
  | [] => []
  | (k, v) :: es =>
    (k, quoteJSONString k ++ ':' :: (if gap = [] then [] else [' ']) ++
        stringifyV gap ind1 v) :: stringifyObjItems gap ind1 es

end

/-- Model of `JSON.stringify(v, null, indent)`. -/
def jsonStringify (v : Value) (indent : Nat) : List Char :=
  stringifyV (gapOf indent) [] v

/-! ## The conversion entry point -/

/-- All ways `pythonDictToJson` can fail. -/
inductive ConvErr where
  | emptyInput
  | lex (e : LexErr)
  | parse (e : ParseErr)
  deriving DecidableEq, Repr

/-- The value tree `pythonDictToJson` builds internally: trim the input,
fail on emptiness, tokenize, parse. -/
def pyParseTree (input : List Char) : Except ConvErr Value :=
  let trimmed := trimJsList input
  if trimmed = [] then .error .emptyInput
  else
    match tokenize trimmed with
    | .error e => .error (.lex e)
    | .ok ts =>
      match parseTokens ts with
      | .error e => .error (.parse e)
      | .ok v => .ok v

/-- Model of `pythonDictToJson(input, indent)`: build the value tree, then
serialize it with `JSON.stringify(result, null, indent)`. -/
def pythonDictToJson (input : String) (indent : Nat) : Except ConvErr String :=
  match pyParseTree input.data with
  | .error e => .error e
  | .ok v => .ok (jsonStringify v indent).asString

/-! ## Auxiliary notions used by the theorems -/

/-- Whether three consecutive occurrences of the quote character appear
anywhere in the list. -/
def hasTripleQuote (q : Char) : List Char → Bool
  | c1 :: c2 :: c3 :: rest =>
    (c1 = q && c2 = q && c3 = q) || hasTripleQuote q (c2 :: c3 :: rest)
  | _ => false

/-- Exchange the parenthesis and bracket token kinds. -/
def swapTokType : TokType → TokType
  | .LPAREN => .LBRACKET
  | .LBRACKET => .LPAREN
  | .RPAREN => .RBRACKET
  | .RBRACKET => .RPAREN
  | t => t

/-- Exchange the canonical one-character texts of parentheses and
brackets. -/
def swapVal (v : List Char) : List Char :=
  if v = ['('] then ['[']
  else if v = ['['] then ['(']
  else if v = [')'] then [']']
  else if v = [']'] then [')']
  else v

/-- Exchange parenthesis and bracket tokens (kind and canonical text);
all other tokens — in particular STRING and NUMBER payloads — are
untouched. -/
def swapTok (t : Token) : Token :=
  match t.type with
  | .LPAREN => ⟨.LBRACKET, swapVal t.value, t.pos⟩
  | .LBRACKET => ⟨.LPAREN, swapVal t.value, t.pos⟩
  | .RPAREN => ⟨.RBRACKET, swapVal t.value, t.pos⟩
  | .RBRACKET => ⟨.RPAREN, swapVal t.value, t.pos⟩
  | _ => t

/-- The action of the parenthesis/bracket exchange on parser errors. -/
def swapErr : ParseErr → ParseErr
  | .expected ty t => .expected (swapTokType ty) (swapTok t)
  | .unexpectedToken t => .unexpectedToken (swapTok t)
  | .invalidDictKey t => .invalidDictKey (swapTok t)
  | e => e

/-- The action of the exchange on a parser result whose payload carries a
remaining token stream. -/
def swapRes {α : Type} : Except ParseErr (α × List Token) →
    Except ParseErr (α × List Token)
  | .error e => .error (swapErr e)
  | .ok (v, r) => .ok (v, r.map swapTok)

/-- Whether a number slot is finite. -/
def finiteNumB : JNum → Bool
  | .fin _ => true
  | .inf => false
  | .ninf => false

/-- Whether a number slot's rational (if finite) has a denominator dividing
a power of ten — true of every number `Number(...)` produces from a decimal
literal, and exactly what `decimalRepr` needs to print exactly. -/
def numOkB : JNum → Bool
  | .fin q => isDecDen q.den
  | .inf => true
  | .ninf => true

mutual

/-- Invariant of every value tree the parser can build: finite numbers have
power-of-ten denominators, and object keys are distinct. -/
def valueOkB : Value → Bool
  | .null => true
  | .bool _ => true
  | .num n => numOkB n
  | .str _ => true
  | .arr vs => valueOkLB vs
  | .obj m => decide ((m.map Prod.fst).Nodup) && valueOkOB m

/-- `valueOkB` on every element. -/
def valueOkLB : List Value → Bool
  | [] => true
  | v :: vs => valueOkB v && valueOkLB vs

/-- `valueOkB` on every entry value. -/
def valueOkOB : List (List Char × Value) → Bool
  | [] => true
  | (_, v) :: m => valueOkB v && valueOkOB m

end

mutual

/-- Whether every number in the tree is finite (no Infinity slots). -/
def finiteVB : Value → Bool
  | .null => true
  | .bool _ => true
  | .num n => finiteNumB n
  | .str _ => true
  | .arr vs => finiteVLB vs
  | .obj m => finiteVOB m

/-- `finiteVB` on every element. -/
def finiteVLB : List Value → Bool
  | [] => true
  | v :: vs => finiteVB v && finiteVLB vs

/-- `finiteVB` on every entry value. -/
def finiteVOB : List (List Char × Value) → Bool
  | [] => true
  | (_, v) :: m => finiteVB v && finiteVOB m

end

mutual

/-- Canonical form of a value tree up to JavaScript-observable structure:
object entry lists are put into enumeration order (`jsOwnKeys`),
recursively.  Two trees denote the same JavaScript object graph exactly when
their canonical forms are equal; decoding serialized output reproduces the
canonical form. -/
def canonV : Value → Value
  | .null => .null
  | .bool b => .bool b
  | .num n => .num n
  | .str s => .str s
  | .arr vs => .arr (canonL vs)
  | .obj m => .obj (jsOwnKeys (canonO m))

/-- `canonV` on every element. -/
def canonL : List Value → List Value
  | [] => []
  | v :: vs => canonV v :: canonL vs

/-- `canonV` on every entry value. -/
def canonO : List (List Char × Value) → List (List Char × Value)
  | [] => []
  | (k, v) :: m => (k, canonV v) :: canonO m

end

/-! ## A standard JSON decoder

An ideal decoder for the standard JSON grammar (RFC 8259 / `JSON.parse`),
over exact rationals.  It is used to state that serialized output is valid
JSON and decodes to the value tree that was serialized.  Errors are opaque
(`none`); fuel makes the recursion structural, and every fuel step consumes
at least one character, so fuel `length + 1` suffices. -/

/-- JSON insignificant whitespace. -/
def isJsonWs (c : Char) : Bool :=
  c = ' ' || c = '\t' || c = '\n' || c = '\r'

/-- Decode one JSON string escape (after the backslash); returns the decoded
character and the rest. -/
def jsonUnescape : List Char → Option (Char × List Char)
  | [] => none
  | c :: rest =>
    if c = quoteD then some (quoteD, rest)
    else if c = '\\' then some ('\\', rest)
    else if c = '/' then some ('/', rest)
    else if c = 'b' then some (Char.ofNat 8, rest)
    else if c = 'f' then some (Char.ofNat 12, rest)
    else if c = 'n' then some ('\n', rest)
    else if c = 'r' then some ('\r', rest)
    else if c = 't' then some ('\t', rest)
    else if c = 'u' then
      match rest with
      | h1 :: h2 :: h3 :: h4 :: r =>
        if isHexDigitChar h1 && isHexDigitChar h2 && isHexDigitChar h3 &&
            isHexDigitChar h4 then
          some (Char.ofNat (digitsVal 16 [h1, h2, h3, h4]), r)
        else none
      | _ => none
    else none

/-- The body of a JSON string after the opening quote: characters and
escapes until the closing quote.  Control characters are rejected. -/
def jsonStringBody : Nat → List Char → Option (List Char × List Char)
  | 0, _ => none
  | _ + 1, [] => none
  | f + 1, c :: rest =>
    if c = quoteD then some ([], rest)
    else if c = '\\' then
      match jsonUnescape rest with
      | none => none
      | some (d, r) =>
        match jsonStringBody f r with
        | none => none
        | some (s, r') => some (d :: s, r')
    else if c.toNat < 32 then none
    else
      match jsonStringBody f rest with
      | none => none
      | some (s, r') => some (c :: s, r')

/-- A JSON number after the optional sign: `0` or a nonzero-led digit run,
an optional fraction, an optional exponent; returns its exact rational value
and the rest. -/
def jsonNumberBody (s : List Char) : Option (ℚ × List Char) :=
  let I := s.takeWhile isDigitChar
  let r1 := s.dropWhile isDigitChar
  if I = [] ∨ (I.length > 1 ∧ I.head? = some '0') then none
  else
    let fr : Option (List Char × List Char) :=
      match r1 with
      | '.' :: r2 =>
        let F := r2.takeWhile isDigitChar
        if F = [] then none else some (F, r2.dropWhile isDigitChar)
      | _ => some ([], r1)
    match fr with
    | none => none
    | some (F, r3) =>
      match r3 with
      | c :: r4 =>
        if c = 'e' || c = 'E' then
          let sgnE : Int × List Char :=
            match r4 with
            | '-' :: r5 => (-1, r5)
            | '+' :: r5 => (1, r5)
            | _ => (1, r4)
          let E := sgnE.2.takeWhile isDigitChar
          if E = [] then none
          else
            some (decValue (digitsVal 10 I) (digitsVal 10 F) F.length
                (sgnE.1 * (digitsVal 10 E : Int)),
              sgnE.2.dropWhile isDigitChar)
        else some (decValue (digitsVal 10 I) (digitsVal 10 F) F.length 0, r3)
      | [] => some (decValue (digitsVal 10 I) (digitsVal 10 F) F.length 0, [])

mutual

/-- Decode one JSON value from the front of the input (leading whitespace
allowed), returning it with the remaining input. -/
def jsonParseValue : Nat → List Char → Option (Value × List Char)
  | 0, _ => none
  | f + 1, s0 =>
    match s0.dropWhile isJsonWs with
    | [] => none
    | c :: rest =>
      if c = 'n' then
        match rest with
        | 'u' :: 'l' :: 'l' :: r => some (.null, r)
        | _ => none
      else if c = 't' then
        match rest with
        | 'r' :: 'u' :: 'e' :: r => some (.bool true, r)
        | _ => none
      else if c = 'f' then
        match rest with
        | 'a' :: 'l' :: 's' :: 'e' :: r => some (.bool false, r)
        | _ => none
      else if c = quoteD then
        match jsonStringBody rest.length.succ rest with
        | none => none
        | some (str, r) => some (.str str, r)
      else if c = '-' then
        match jsonNumberBody rest with
        | none => none
        | some (q, r) => some (.num (.fin (-q)), r)
      else if isDigitChar c then
        match jsonNumberBody (c :: rest) with
        | none => none
        | some (q, r) => some (.num (.fin q), r)
      else if c = '[' then
        match (rest.dropWhile isJsonWs) with
        | ']' :: r => some (.arr [], r)
        | _ =>
          match jsonParseElems f rest with
          | none => none
          | some (vs, r) => some (.arr vs, r)
      else if c = lbraceC then
        match (rest.dropWhile isJsonWs) with
        | r0 :: r =>
          if r0 = rbraceC then some (.obj [], r)
          else
            match jsonParseMembers f [] rest with
            | none => none
            | some (m, r') => some (.obj m, r')
        | [] => none
      else none

/-- Decode the elements of a nonempty JSON array, consuming the closing
bracket. -/
def jsonParseElems : Nat → List Char → Option (List Value × List Char)
  | 0, _ => none
  | f + 1, s =>
    match jsonParseValue f s with
    | none => none
    | some (v, r) =>
      match r.dropWhile isJsonWs with
      | ',' :: r2 =>
        match jsonParseElems f r2 with
        | none => none
        | some (vs, r3) => some (v :: vs, r3)
      | ']' :: r2 => some ([v], r2)
      | _ => none

/-- Decode the members of a nonempty JSON object, consuming the closing
brace; a repeated key overwrites the earlier value in place, as
`JSON.parse` does. -/
def jsonParseMembers : Nat → List (List Char × Value) → List Char →
    Option (List (List Char × Value) × List Char)
  | 0, _, _ => none
  | f + 1, m, s =>
    match s.dropWhile isJsonWs with
    | c :: rest =>
      if c = quoteD then
        match jsonStringBody rest.length.succ rest with
        | none => none
        | some (k, r) =>
          match r.dropWhile isJsonWs with
          | ':' :: r2 =>
            match jsonParseValue f r2 with
            | none => none
            | some (v, r3) =>
              match r3.dropWhile isJsonWs with
              | ',' :: r4 => jsonParseMembers f (recordSet m k v) r4
              | c2 :: r4 =>
                if c2 = rbraceC then some (recordSet m k v, r4) else none
              | [] => none
          | _ => none
      else none
    | [] => none

end

/-- Decode a complete JSON text: one value, with only whitespace after
it. -/
def jsonParse (s : List Char) : Option Value :=
  match jsonParseValue (s.length + 1) s with
  | none => none
  | some (v, r) => if r.dropWhile isJsonWs = [] then some v else none


/-! Structural size of a value tree (used to budget decoder fuel). -/

mutual

/-- Size of a value. -/
def vSize : Value → Nat
  | .null => 1
  | .bool _ => 1
  | .num _ => 1
  | .str _ => 1
  | .arr vs => 1 + lSize vs
  | .obj m => 1 + oSize m

/-- Total size of a list of values. -/
def lSize : List Value → Nat
  | [] => 0
  | v :: vs => 1 + vSize v + lSize vs

/-- Total size of a list of object entries. -/
def oSize : List (List Char × Value) → Nat
  | [] => 0
  | (_, v) :: m => 1 + vSize v + oSize m

end

/-- A whitespace-only character list (candidate gap/indentation). -/
def wsOnly (w : List Char) : Prop := ∀ c ∈ w, isJsonWs c = true

/-- The rest of the input after a serialized number must not begin with a
character that could extend the number literal. -/
def goodNumBoundary (rest : List Char) : Prop :=
  rest = [] ∨ ∃ c rs, rest = c :: rs ∧ isDigitChar c = false ∧
    c ≠ '.' ∧ c ≠ 'e' ∧ c ≠ 'E'

/-! ## Theorems -/

/-- A maximal digit run: when every character matches the digit class or is
an underscore, the whole list is consumed, underscores are discarded. -/
theorem digitRun_all {p : Char → Bool} {l : List Char}
    (h : ∀ c ∈ l, p c = true ∨ c = '_') :
    digitRun p l = (l.filter (fun c => c != '_'), [], l.length) := by
  induction l with
  | nil => rfl
  | cons c rest ih =>
    have hc := h c (List.mem_cons_self c rest)
    have hrest : ∀ d ∈ rest, p d = true ∨ d = '_' :=
      fun d hd => h d (List.mem_cons_of_mem c hd)
    have hcond : (p c || c = '_') = true := by
      rcases hc with hc | hc
      · simp [hc]
      · simp [hc]
    simp only [digitRun, hcond, if_true, ih hrest]
    by_cases h' : c = '_'
    · simp [h']
    · have : (c != '_') = true := by simp [h']
      simp [h', List.filter, this]

/-- A maximal identifier run consumes the whole list when every character is
an identifier character. -/
theorem readIdentRun_all {l : List Char} (h : ∀ c ∈ l, isIdentChar c = true) :
    readIdentifierRun l = (l, [], l.length) := by
  induction l with
  | nil => rfl
  | cons c rest ih =>
    have hc := h c (List.mem_cons_self c rest)
    have hrest : ∀ d ∈ rest, isIdentChar d = true :=
      fun d hd => h d (List.mem_cons_of_mem c hd)
    simp [readIdentifierRun, hc, ih hrest]

/-- The code-point characterization of an identifier-start character. -/
theorem identStart_toNat {c : Char} (h : isIdentStartChar c = true) :
    (97 ≤ c.toNat ∧ c.toNat ≤ 122) ∨ (65 ≤ c.toNat ∧ c.toNat ≤ 90) ∨
      c.toNat = 95 := by
  simp only [isIdentStartChar, Bool.or_eq_true, Bool.and_eq_true,
    decide_eq_true_eq] at h
  tauto

/-- Scanning an identifier: when the first character starts an identifier,
`tokenize`'s loop reads the maximal identifier run and classifies it. -/
theorem tokenizeLoop_identStep {c : Char} {rest : List Char} {f pos : Nat}
    (h : isIdentStartChar c = true) :
    tokenizeLoop (f + 1) (c :: rest) pos =
      (tokenizeLoop f (readIdentifierRun (c :: rest)).2.1
          (pos + (readIdentifierRun (c :: rest)).2.2)).map
        (classifyIdent (readIdentifierRun (c :: rest)).1 pos :: ·) := by
  have hn := identStart_toNat h
  have hq1 : quoteS.toNat = 39 := rfl
  have hq2 : quoteD.toNat = 34 := rfl
  have hlb : lbraceC.toNat = 123 := rfl
  have hrb : rbraceC.toNat = 125 := rfl
  have hws : isWsChar c = false := by
    simp only [isWsChar, Bool.or_eq_false_iff, decide_eq_false_iff_not]
    refine ⟨⟨⟨?_, ?_⟩, ?_⟩, ?_⟩ <;> rintro rfl <;> simp_all
  have hhash : ¬ c = '#' := by rintro rfl; simp_all
  have h1 : ¬ c = lbraceC := by rintro rfl; omega
  have h2 : ¬ c = rbraceC := by rintro rfl; omega
  have h3 : ¬ c = '[' := by rintro rfl; simp_all
  have h4 : ¬ c = ']' := by rintro rfl; simp_all
  have h5 : ¬ c = '(' := by rintro rfl; simp_all
  have h6 : ¬ c = ')' := by rintro rfl; simp_all
  have h7 : ¬ c = ':' := by rintro rfl; simp_all
  have h8 : ¬ c = ',' := by rintro rfl; simp_all
  have h9 : ¬ c = quoteS := by rintro rfl; omega
  have h10 : ¬ c = quoteD := by rintro rfl; omega
  have h11 : ¬ c = '-' := by rintro rfl; simp_all
  have h12 : isDigitChar c = false := by
    simp only [isDigitChar, Bool.and_eq_false_iff, decide_eq_false_iff_not]
    omega
  have hskip : skipWsComments (c :: rest) pos = (c :: rest, pos) := by
    simp [skipWsComments, hws, hhash]
  simp only [tokenizeLoop, hskip, h1, h2, h3, h4, h5, h6, h7, h8, h9, h10,
    h11, h12, h, if_false, if_true, Bool.or_self, Bool.false_eq_true,
    ite_false, ite_true]
  simp

/-- C9: a `\u` escape with four characters available never fails, whatever
the characters are: it decodes to the single code unit
`String.fromCharCode(parseInt(hex, 16))`; it fails (with the end-of-input
error) exactly when fewer than four characters remain, and likewise `\x`
with two. -/
theorem unicode_hex_escapes_never_fail :
    (∀ (c1 c2 c3 c4 : Char) (rest : List Char) (pos : Nat),
        readEscapeSequence ('u' :: c1 :: c2 :: c3 :: c4 :: rest) pos =
          .ok ([jsFromCharCodeParseIntHex [c1, c2, c3, c4]], rest, pos + 6)) ∧
    (∀ (l : List Char) (pos : Nat), l.length < 4 →
        readEscapeSequence ('u' :: l) pos = .error .endOfInputUnicodeEscape) ∧
    (∀ (c1 c2 : Char) (rest : List Char) (pos : Nat),
        readEscapeSequence ('x' :: c1 :: c2 :: rest) pos =
          .ok ([jsFromCharCodeParseIntHex [c1, c2]], rest, pos + 4)) ∧
    (∀ (l : List Char) (pos : Nat), l.length < 2 →
        readEscapeSequence ('x' :: l) pos = .error .endOfInputHexEscape) := by
  refine ⟨fun c1 c2 c3 c4 rest pos => rfl, ?_, fun c1 c2 rest pos => rfl, ?_⟩
  · intro l pos h
    rcases l with _ | ⟨a, _ | ⟨b, _ | ⟨c, _ | ⟨d, t⟩⟩⟩⟩
    · rfl
    · rfl
    · rfl
    · rfl
    · simp [List.length_cons] at h; omega
  · intro l pos h
    rcases l with _ | ⟨a, _ | ⟨b, t⟩⟩
    · rfl
    · rfl
    · simp [List.length_cons] at h; omega

/-- Witness for the escape theorem at concrete non-hex characters. -/
theorem unicode_hex_escapes_never_fail_witness :
    readEscapeSequence ('u' :: 'Z' :: 'Z' :: '!' :: '?' :: []) 0 =
      .ok ([jsFromCharCodeParseIntHex ['Z', 'Z', '!', '?']], [], 6) ∧
    readEscapeSequence ['u', 'a'] 0 = .error .endOfInputUnicodeEscape ∧
    readEscapeSequence ['x', 'a', 'b', 'c'] 5 =
      .ok ([jsFromCharCodeParseIntHex ['a', 'b']], ['c'], 9) ∧
    readEscapeSequence ['x'] 0 = .error .endOfInputHexEscape :=
  ⟨unicode_hex_escapes_never_fail.1 'Z' 'Z' '!' '?' [] 0,
   unicode_hex_escapes_never_fail.2.1 ['a'] 0 (by decide),
   unicode_hex_escapes_never_fail.2.2.1 'a' 'b' ['c'] 5,
   unicode_hex_escapes_never_fail.2.2.2 [] 0 (by decide)⟩

/-- Dropping the head of a list with no triple quote leaves no triple
quote. -/
theorem hasTripleQuote_tail {q c : Char} {rest : List Char}
    (h : hasTripleQuote q (c :: rest) = false) :
    hasTripleQuote q rest = false := by
  rcases rest with _ | ⟨a, _ | ⟨b, r⟩⟩
  · rfl
  · rfl
  · simp only [hasTripleQuote, Bool.or_eq_false_iff] at h
    exact h.2

/-- The triple-quote scanning loop reaches the end of input (and reports the
recorded start position) whenever no closing triple occurs and no backslash
disturbs the scan. -/
theorem readTripleBody_noClose {q : Char} :
    ∀ (s : List Char) {f : Nat} (acc : List Char) (pos startPos : Nat),
      s.length < f →
      (∀ c ∈ s, ¬ c = '\\') → hasTripleQuote q s = false →
      readTripleBody q f acc s pos startPos =
        .error (.unterminatedTriple startPos) := by
  intro s
  induction s with
  | nil =>
    intro f acc pos sp hf _ _
    match f, hf with
    | f + 1, _ => rfl
  | cons c rest ih =>
    intro f acc pos sp hf hbs htq
    match f, hf with
    | f + 1, hf =>
      have hclose : isTripleClose q c rest = false := by
        rcases rest with _ | ⟨a, _ | ⟨b, r⟩⟩
        · simp [isTripleClose]
        · simp [isTripleClose]
        · simp only [hasTripleQuote, Bool.or_eq_false_iff,
            Bool.and_eq_false_iff, decide_eq_false_iff_not] at htq
          simp only [isTripleClose, Bool.and_eq_false_iff,
            decide_eq_false_iff_not]
          tauto
      have hc : ¬ c = '\\' := hbs c (List.mem_cons_self c rest)
      simp only [readTripleBody, hclose, Bool.false_eq_true, if_false, hc,
        ite_false]
      exact ih (acc ++ [c]) (pos + 1) sp (by simpa using Nat.lt_of_succ_lt_succ hf)
        (fun d hd => hbs d (List.mem_cons_of_mem c hd))
        (hasTripleQuote_tail htq)

/-- C8 counterexample: the reported position of an unterminated
triple-quoted string opened at offset 0 is 1 — one past the opening quote —
not the opening quote's offset. -/
theorem unterminated_triple_position_counterexample :
    tokenize [quoteS, quoteS, quoteS, 'a'] = .error (.unterminatedTriple 1) ∧
    (1 : Nat) ≠ 0 :=
  ⟨rfl, by decide⟩

/-- Scanning a string: a quote character dispatches to `readString`. -/
theorem tokenizeLoop_quoteStep {q : Char} {rest : List Char} {f pos : Nat}
    (hq : q = quoteS ∨ q = quoteD) :
    tokenizeLoop (f + 1) (q :: rest) pos =
      match readString q rest (pos + 1) with
      | .error e => .error e
      | .ok (str, r, p') =>
        (tokenizeLoop f r p').map (⟨.STRING, str, pos⟩ :: ·) := by
  rcases hq with rfl | rfl <;> rfl

/-- C8 (amended): for a triple-quoted string opened at offset 0 whose
remaining content is nonempty (the source's triple-quote detection demands a
character after the three opening quotes), contains no backslash (escape
processing could otherwise run off the end first) and contains no three
consecutive matching quotes, `tokenize` fails with the
unterminated-triple-quoted-string error at position 1 — one past the opening
quote. -/
theorem unterminated_triple_reports_succ_of_opening :
    ∀ (q : Char) (rest : List Char), (q = quoteS ∨ q = quoteD) → rest ≠ [] →
      (∀ c ∈ rest, ¬ c = '\\') → hasTripleQuote q rest = false →
      tokenize (q :: q :: q :: rest) = .error (.unterminatedTriple 1) := by
  intro q rest hq hne hbs htq
  rcases rest with _ | ⟨r0, rs⟩
  · exact absurd rfl hne
  show tokenizeLoop ((q :: q :: q :: r0 :: rs).length + 1) _ 0 = _
  rw [tokenizeLoop_quoteStep hq]
  have hrs : readString q (q :: q :: r0 :: rs) (0 + 1) =
      .error (.unterminatedTriple 1) := by
    simp only [readString, decide_True, Bool.and_self, if_true]
    exact readTripleBody_noClose (r0 :: rs) [] 3 1 (Nat.lt_succ_self _) hbs htq
  rw [hrs]

/-- Witness for the amended unterminated-triple theorem. -/
theorem unterminated_triple_reports_succ_witness :
    tokenize [quoteD, quoteD, quoteD, 'b'] = .error (.unterminatedTriple 1) :=
  unterminated_triple_reports_succ_of_opening quoteD ['b'] (Or.inr rfl)
    (by decide) (by decide) (by decide)

/-- The scanning loop at end of input emits the single EOF token. -/
theorem tokenizeLoop_nil {f p : Nat} (h : 0 < f) :
    tokenizeLoop f [] p = .ok [⟨.EOF, [], p⟩] := by
  match f, h with
  | f + 1, _ => rfl

/-- C7 counterexample: `-.5` is tokenized successfully (as the NUMBER token
`-.5`, which later converts to `-0.5`), while the claim demands an
InvalidNumber failure for it. -/
theorem minus_dot_five_tokenizes :
    tokenize "-.5".data = .ok [⟨.NUMBER, "-.5".data, 0⟩, ⟨.EOF, [], 3⟩] ∧
    pythonDictToJson "-.5" 4 = .ok "-0.5" :=
  ⟨rfl, rfl⟩

/-- `readNumber` on `-.` with no digit after the dot accumulates exactly
`-` and raises InvalidNumber at the start position. -/
theorem readNumber_minusDotStuck {d : Char} {r2 : List Char} {pos : Nat}
    (hd : isDigitChar d = false) :
    readNumber ('-' :: '.' :: d :: r2) pos = .error (.invalidNumber pos) := by
  have hdot : isDigitChar '.' = false := rfl
  simp only [readNumber, readNumberBase, readNumberTail, numFracPart,
    numExpPart, digitRun]
  simp [hd, hdot]

/-- Scanning a number: `-` followed by a digit or a dot dispatches to
`readNumber`. -/
theorem tokenizeLoop_minusNumStep {d : Char} {rest : List Char} {f pos : Nat}
    (hd : isDigitChar d = true ∨ d = '.') :
    tokenizeLoop (f + 1) ('-' :: d :: rest) pos =
      match readNumber ('-' :: d :: rest) pos with
      | .error e => .error e
      | .ok (num, r, p') =>
        (tokenizeLoop f r p').map (⟨.NUMBER, num, pos⟩ :: ·) := by
  have hcond : (isDigitChar d || d = '.') = true := by
    rcases hd with h | h <;> simp [h]
  have hw : isWsChar '-' = false := rfl
  have h1 : ('-' = lbraceC) = False := eq_false (by decide)
  have h2 : ('-' = rbraceC) = False := eq_false (by decide)
  have h3 : ('-' = quoteS) = False := eq_false (by decide)
  have h4 : ('-' = quoteD) = False := eq_false (by decide)
  simp only [tokenizeLoop, skipWsComments]
  simp [hcond, hw, h1, h2, h3, h4]

/-- C7 (amended): a bare `-` fails with UnexpectedCharacter (not
InvalidNumber); `0x` with no base digits tokenizes successfully to a NUMBER
token with text `NaN` and only fails at parse time; and the lexer's
InvalidNumber error is raised when a number starts `-.` without a digit
after the dot (the accumulated text is exactly `-`). -/
theorem invalid_number_conditions :
    tokenize "-".data = .error (.unexpectedChar '-' 0) ∧
    tokenize "0x".data = .ok [⟨.NUMBER, "NaN".data, 0⟩, ⟨.EOF, [], 2⟩] ∧
    pythonDictToJson "0x" 4 = .error (.parse (.invalidNumber "NaN".data 0)) ∧
    (∀ (rest : List Char), (∀ d, rest.head? = some d → isDigitChar d = false) →
        tokenize ('-' :: '.' :: rest) = .error (.invalidNumber 0)) := by
  refine ⟨rfl, rfl, rfl, ?_⟩
  intro rest hd
  rcases rest with _ | ⟨d, r2⟩
  · rfl
  · have hd' : isDigitChar d = false := hd d rfl
    show tokenizeLoop (('-' :: '.' :: d :: r2).length + 1) _ 0 = _
    rw [tokenizeLoop_minusNumStep (Or.inr rfl), readNumber_minusDotStuck hd']

/-- Witness for the amended InvalidNumber theorem. -/
theorem invalid_number_conditions_witness :
    tokenize ('-' :: '.' :: ['z']) = .error (.invalidNumber 0) :=
  invalid_number_conditions.2.2.2 ['z'] (by decide)

/-- Scanning a number: a digit character dispatches to `readNumber`. -/
theorem tokenizeLoop_digitStep {c : Char} {rest : List Char} {f pos : Nat}
    (hc : isDigitChar c = true) :
    tokenizeLoop (f + 1) (c :: rest) pos =
      match readNumber (c :: rest) pos with
      | .error e => .error e
      | .ok (num, r, p') =>
        (tokenizeLoop f r p').map (⟨.NUMBER, num, pos⟩ :: ·) := by
  have hn : 48 ≤ c.toNat ∧ c.toNat ≤ 57 := by
    simpa [isDigitChar, Bool.and_eq_true, decide_eq_true_eq] using hc
  have hws : isWsChar c = false := by
    simp only [isWsChar, Bool.or_eq_false_iff, decide_eq_false_iff_not]
    refine ⟨⟨⟨?_, ?_⟩, ?_⟩, ?_⟩ <;> rintro rfl <;> simp_all
  have hhash : ¬ c = '#' := by rintro rfl; simp_all
  have h1 : ¬ c = lbraceC := by rintro rfl; revert hn; decide
  have h2 : ¬ c = rbraceC := by rintro rfl; revert hn; decide
  have h3 : ¬ c = '[' := by rintro rfl; simp_all
  have h4 : ¬ c = ']' := by rintro rfl; simp_all
  have h5 : ¬ c = '(' := by rintro rfl; simp_all
  have h6 : ¬ c = ')' := by rintro rfl; simp_all
  have h7 : ¬ c = ':' := by rintro rfl; simp_all
  have h8 : ¬ c = ',' := by rintro rfl; simp_all
  have h9 : ¬ c = quoteS := by rintro rfl; revert hn; decide
  have h10 : ¬ c = quoteD := by rintro rfl; revert hn; decide
  have h11 : ¬ c = '-' := by rintro rfl; simp_all
  have hskip : skipWsComments (c :: rest) pos = (c :: rest, pos) := by
    simp [skipWsComments, hws, hhash]
  simp only [tokenizeLoop, hskip, h1, h2, h3, h4, h5, h6, h7, h8, h9, h10,
    h11, hc, if_false, ite_false, ite_true]
  simp [h11]

/-- The hex branch of `readNumber`, with and without a leading sign: the
collected run is converted through `String(parseInt(run, 16))` and the sign
is discarded. -/
theorem readNumber_hexBranch {x : Char} (hx : x = 'x' ∨ x = 'X')
    {run : List Char} (hall : ∀ c ∈ run, isHexDigitChar c = true ∨ c = '_')
    (pos : Nat) :
    readNumber ('0' :: x :: run) pos =
      .ok (jsStringOfParseInt 16 (run.filter (fun c => c != '_')), [],
        pos + 2 + run.length) ∧
    readNumber ('-' :: '0' :: x :: run) pos =
      .ok (jsStringOfParseInt 16 (run.filter (fun c => c != '_')), [],
        pos + 3 + run.length) := by
  rcases hx with rfl | rfl <;>
    refine ⟨?_, ?_⟩ <;>
      · simp only [readNumber, readNumberBase, digitRun_all hall]
        simp [digitRun_all hall, Nat.add_assoc, Nat.add_comm,
          Nat.add_left_comm]

/-- The octal branch of `readNumber`, with and without a leading sign. -/
theorem readNumber_octBranch {x : Char} (hx : x = 'o' ∨ x = 'O')
    {run : List Char} (hall : ∀ c ∈ run, isOctDigitChar c = true ∨ c = '_')
    (pos : Nat) :
    readNumber ('0' :: x :: run) pos =
      .ok (jsStringOfParseInt 8 (run.filter (fun c => c != '_')), [],
        pos + 2 + run.length) ∧
    readNumber ('-' :: '0' :: x :: run) pos =
      .ok (jsStringOfParseInt 8 (run.filter (fun c => c != '_')), [],
        pos + 3 + run.length) := by
  rcases hx with rfl | rfl <;>
    refine ⟨?_, ?_⟩ <;>
      · simp only [readNumber, readNumberBase, digitRun_all hall]
        simp [digitRun_all hall, Nat.add_assoc, Nat.add_comm,
          Nat.add_left_comm]

/-- The binary branch of `readNumber`, with and without a leading sign. -/
theorem readNumber_binBranch {x : Char} (hx : x = 'b' ∨ x = 'B')
    {run : List Char} (hall : ∀ c ∈ run, isBinDigitChar c = true ∨ c = '_')
    (pos : Nat) :
    readNumber ('0' :: x :: run) pos =
      .ok (jsStringOfParseInt 2 (run.filter (fun c => c != '_')), [],
        pos + 2 + run.length) ∧
    readNumber ('-' :: '0' :: x :: run) pos =
      .ok (jsStringOfParseInt 2 (run.filter (fun c => c != '_')), [],
        pos + 3 + run.length) := by
  rcases hx with rfl | rfl <;>
    refine ⟨?_, ?_⟩ <;>
      · simp only [readNumber, readNumberBase, digitRun_all hall]
        simp [digitRun_all hall, Nat.add_assoc, Nat.add_comm,
          Nat.add_left_comm]

/-- C3 counterexample: for `-0x1F` the token text is `31`, not the base-10
string `-31` of the signed integer −31 the literal denotes — the hex branch
returns early and discards the accumulated sign. -/
theorem negative_base_prefix_drops_sign :
    pythonDictToJson "-0x1F" 4 = .ok "31" ∧
    tokenize "-0x1F".data = .ok [⟨.NUMBER, "31".data, 0⟩, ⟨.EOF, [], 5⟩] ∧
    ("31" : String) ≠ "-31" :=
  ⟨rfl, rfl, by decide⟩

/-- C3 (amended): after an optional `-` and a lone `0` followed by
`x`/`X`, `o`/`O` or `b`/`B`, the lexer consumes the run of matching-base
digits and underscores, discards the underscores, and produces a NUMBER
token whose text is the base-10 digit string of the run's (unsigned) value —
any leading `-` is discarded; no further characters are consumed.  The
bounds `< 2^53` keep the exact-integer model faithful to
`String(parseInt(...))` on doubles.  The concrete conversions of the spec
hold. -/
theorem base_prefixed_number_literals :
    (∀ (x : Char), x = 'x' ∨ x = 'X' → ∀ (run : List Char),
      (∀ c ∈ run, isHexDigitChar c = true ∨ c = '_') →
      run.filter (fun c => c != '_') ≠ [] →
      digitsVal 16 (run.filter (fun c => c != '_')) < 2 ^ 53 →
      tokenize ('0' :: x :: run) =
        .ok [⟨.NUMBER,
            natToDecChars (digitsVal 16 (run.filter (fun c => c != '_'))), 0⟩,
          ⟨.EOF, [], run.length + 2⟩] ∧
      tokenize ('-' :: '0' :: x :: run) =
        .ok [⟨.NUMBER,
            natToDecChars (digitsVal 16 (run.filter (fun c => c != '_'))), 0⟩,
          ⟨.EOF, [], run.length + 3⟩]) ∧
    (∀ (x : Char), x = 'o' ∨ x = 'O' → ∀ (run : List Char),
      (∀ c ∈ run, isOctDigitChar c = true ∨ c = '_') →
      run.filter (fun c => c != '_') ≠ [] →
      digitsVal 8 (run.filter (fun c => c != '_')) < 2 ^ 53 →
      tokenize ('0' :: x :: run) =
        .ok [⟨.NUMBER,
            natToDecChars (digitsVal 8 (run.filter (fun c => c != '_'))), 0⟩,
          ⟨.EOF, [], run.length + 2⟩] ∧
      tokenize ('-' :: '0' :: x :: run) =
        .ok [⟨.NUMBER,
            natToDecChars (digitsVal 8 (run.filter (fun c => c != '_'))), 0⟩,
          ⟨.EOF, [], run.length + 3⟩]) ∧
    (∀ (x : Char), x = 'b' ∨ x = 'B' → ∀ (run : List Char),
      (∀ c ∈ run, isBinDigitChar c = true ∨ c = '_') →
      run.filter (fun c => c != '_') ≠ [] →
      digitsVal 2 (run.filter (fun c => c != '_')) < 2 ^ 53 →
      tokenize ('0' :: x :: run) =
        .ok [⟨.NUMBER,
            natToDecChars (digitsVal 2 (run.filter (fun c => c != '_'))), 0⟩,
          ⟨.EOF, [], run.length + 2⟩] ∧
      tokenize ('-' :: '0' :: x :: run) =
        .ok [⟨.NUMBER,
            natToDecChars (digitsVal 2 (run.filter (fun c => c != '_'))), 0⟩,
          ⟨.EOF, [], run.length + 3⟩]) ∧
    pythonDictToJson "0x1F" 4 = .ok "31" ∧
    pythonDictToJson "0o17" 4 = .ok "15" ∧
    pythonDictToJson "0b101" 4 = .ok "5" ∧
    pythonDictToJson "1_000" 4 = .ok "1000" := by
  have key : ∀ (base : Nat) (x : Char) (run : List Char),
      readNumber ('0' :: x :: run) 0 =
        .ok (jsStringOfParseInt base (run.filter (fun c => c != '_')), [],
          0 + 2 + run.length) →
      readNumber ('-' :: '0' :: x :: run) 0 =
        .ok (jsStringOfParseInt base (run.filter (fun c => c != '_')), [],
          0 + 3 + run.length) →
      run.filter (fun c => c != '_') ≠ [] →
      tokenize ('0' :: x :: run) =
        .ok [⟨.NUMBER,
            natToDecChars (digitsVal base (run.filter (fun c => c != '_'))), 0⟩,
          ⟨.EOF, [], run.length + 2⟩] ∧
      tokenize ('-' :: '0' :: x :: run) =
        .ok [⟨.NUMBER,
            natToDecChars (digitsVal base (run.filter (fun c => c != '_'))), 0⟩,
          ⟨.EOF, [], run.length + 3⟩] := by
    intro base x run hb hb' hne
    have hstr : jsStringOfParseInt base (run.filter (fun c => c != '_')) =
        natToDecChars (digitsVal base (run.filter (fun c => c != '_'))) := by
      simp [jsStringOfParseInt, List.isEmpty_iff, hne]
    have hz : isDigitChar '0' = true := rfl
    constructor
    · show tokenizeLoop (('0' :: x :: run).length + 1) _ 0 = _
      rw [tokenizeLoop_digitStep hz, hb]
      simp [hstr, tokenizeLoop_nil, Except.map, Nat.add_comm]
    · show tokenizeLoop (('-' :: '0' :: x :: run).length + 1) _ 0 = _
      rw [tokenizeLoop_minusNumStep (Or.inl hz), hb']
      simp [hstr, tokenizeLoop_nil, Except.map, Nat.add_comm,
        Nat.add_left_comm]
  refine ⟨?_, ?_, ?_, rfl, rfl, rfl, rfl⟩
  · intro x hx run hall hne _
    exact key 16 x run (readNumber_hexBranch hx hall 0).1
      (readNumber_hexBranch hx hall 0).2 hne
  · intro x hx run hall hne _
    exact key 8 x run (readNumber_octBranch hx hall 0).1
      (readNumber_octBranch hx hall 0).2 hne
  · intro x hx run hall hne _
    exact key 2 x run (readNumber_binBranch hx hall 0).1
      (readNumber_binBranch hx hall 0).2 hne

/-- Witness for the amended base-prefix theorem. -/
theorem base_prefixed_number_literals_witness :
    tokenize ('0' :: 'x' :: "1_F".data) =
      .ok [⟨.NUMBER,
          natToDecChars (digitsVal 16 ("1_F".data.filter (fun c => c != '_'))),
          0⟩,
        ⟨.EOF, [], "1_F".data.length + 2⟩] ∧
    tokenize ('-' :: '0' :: 'x' :: "1_F".data) =
      .ok [⟨.NUMBER,
          natToDecChars (digitsVal 16 ("1_F".data.filter (fun c => c != '_'))),
          0⟩,
        ⟨.EOF, [], "1_F".data.length + 3⟩] :=
  base_prefixed_number_literals.1 'x' (Or.inl rfl) "1_F".data (by decide)
    (by decide) (by decide)

/-- C4: an identifier run is classified as TRUE for `True`/`true`, FALSE
for `False`/`false`, NONE for `None`/`null`, and any other identifier
becomes a STRING token whose text is the identifier itself; consequently
`convert("{status: ok}")` at indent 4 yields the object with key `status`
and string value `ok`. -/
theorem bare_word_classification :
    (∀ (c : Char) (cs : List Char), isIdentStartChar c = true →
      (∀ d ∈ c :: cs, isIdentChar d = true) →
      tokenize (c :: cs) =
        .ok [classifyIdent (c :: cs) 0, ⟨.EOF, [], cs.length + 1⟩]) ∧
    tokenize "True".data = .ok [⟨.TRUE, "true".data, 0⟩, ⟨.EOF, [], 4⟩] ∧
    tokenize "true".data = .ok [⟨.TRUE, "true".data, 0⟩, ⟨.EOF, [], 4⟩] ∧
    tokenize "False".data = .ok [⟨.FALSE, "false".data, 0⟩, ⟨.EOF, [], 5⟩] ∧
    tokenize "false".data = .ok [⟨.FALSE, "false".data, 0⟩, ⟨.EOF, [], 5⟩] ∧
    tokenize "None".data = .ok [⟨.NONE, "null".data, 0⟩, ⟨.EOF, [], 4⟩] ∧
    tokenize "null".data = .ok [⟨.NONE, "null".data, 0⟩, ⟨.EOF, [], 4⟩] ∧
    (∀ (c : Char) (cs : List Char), isIdentStartChar c = true →
      (∀ d ∈ c :: cs, isIdentChar d = true) →
      (c :: cs) ∉ (["True".data, "true".data, "False".data, "false".data,
        "None".data, "null".data] : List (List Char)) →
      tokenize (c :: cs) =
        .ok [⟨.STRING, c :: cs, 0⟩, ⟨.EOF, [], cs.length + 1⟩]) ∧
    pythonDictToJson "\x7bstatus: ok\x7d" 4 =
      .ok "\x7b\n    \"status\": \"ok\"\n\x7d" := by
  have main : ∀ (c : Char) (cs : List Char), isIdentStartChar c = true →
      (∀ d ∈ c :: cs, isIdentChar d = true) →
      tokenize (c :: cs) =
        .ok [classifyIdent (c :: cs) 0, ⟨.EOF, [], cs.length + 1⟩] := by
    intro c cs hstart hall
    show tokenizeLoop ((c :: cs).length + 1) _ 0 = _
    rw [tokenizeLoop_identStep hstart, readIdentRun_all hall]
    simp [tokenizeLoop_nil, Except.map]
  refine ⟨main, rfl, rfl, rfl, rfl, rfl, rfl, ?_, rfl⟩
  intro c cs hstart hall hno
  have h := main c cs hstart hall
  simp only [List.mem_cons, List.mem_singleton, not_or] at hno
  rw [h]
  simp only [classifyIdent, if_neg hno.1, if_neg hno.2.2.1, if_neg hno.2.2.2.2.1,
    if_neg hno.2.1, if_neg hno.2.2.2.1, if_neg hno.2.2.2.2.2.1]

/-- Witness for the bare-word classification theorem. -/
theorem bare_word_classification_witness :
    tokenize ('s' :: "tatus".data) =
      .ok [⟨.STRING, 's' :: "tatus".data, 0⟩, ⟨.EOF, [], "tatus".data.length + 1⟩] :=
  bare_word_classification.2.2.2.2.2.2.2.1 's' "tatus".data (by decide)
    (by decide) (by decide)

/-- Whitespace/comment skipping never lengthens the remaining input. -/
theorem skip_length : ∀ (s : List Char) (p : Nat),
    (skipWsComments s p).1.length ≤ s.length ∧
    (skipCommentThenWs s p).1.length ≤ s.length := by
  intro s
  induction s with
  | nil => intro p; exact ⟨Nat.le_refl _, Nat.le_refl _⟩
  | cons c rest ih =>
    intro p
    constructor
    · simp only [skipWsComments]
      by_cases h1 : isWsChar c = true
      · simp only [h1, if_true]
        exact Nat.le_trans (ih (p + 1)).1 (Nat.le_succ _)
      · simp only [h1, if_false, Bool.false_eq_true]
        by_cases h2 : c = '#'
        · simp only [h2, if_true]
          exact Nat.le_trans (ih (p + 1)).2 (Nat.le_succ _)
        · simp [h2]
    · simp only [skipCommentThenWs]
      by_cases h2 : c = '\n'
      · simp only [h2, if_true]
        exact Nat.le_trans (ih (p + 1)).1 (Nat.le_succ _)
      · simp only [h2, if_false]
        exact Nat.le_trans (ih (p + 1)).2 (Nat.le_succ _)

/-- Case analysis of `readEscapeSequence`: a success consumes at least one
character after the backslash, and a failure is never the out-of-fuel
marker. -/
theorem readEscapeSequence_spec (s : List Char) (pos : Nat) :
    (∃ dec r p', readEscapeSequence s pos = .ok (dec, r, p') ∧
      r.length < s.length) ∨
    (∃ e, readEscapeSequence s pos = .error e ∧ e ≠ .outOfFuel) := by
  rcases s with _ | ⟨c, rest⟩
  · exact Or.inr ⟨.endOfInputEscape, rfl, by simp⟩
  by_cases h1 : c = '\\'
  · subst h1; exact Or.inl ⟨_, rest, _, rfl, by simp⟩
  by_cases h2 : c = '/'
  · subst h2; exact Or.inl ⟨_, rest, _, rfl, by simp⟩
  by_cases h3 : c = 'n'
  · subst h3; exact Or.inl ⟨_, rest, _, rfl, by simp⟩
  by_cases h4 : c = 'r'
  · subst h4; exact Or.inl ⟨_, rest, _, rfl, by simp⟩
  by_cases h5 : c = 't'
  · subst h5; exact Or.inl ⟨_, rest, _, rfl, by simp⟩
  by_cases h6 : c = 'b'
  · subst h6; exact Or.inl ⟨_, rest, _, rfl, by simp⟩
  by_cases h7 : c = 'f'
  · subst h7; exact Or.inl ⟨_, rest, _, rfl, by simp⟩
  by_cases h8 : c = quoteS
  · subst h8; exact Or.inl ⟨_, rest, _, rfl, by simp⟩
  by_cases h9 : c = quoteD
  · subst h9; exact Or.inl ⟨_, rest, _, rfl, by simp⟩
  by_cases h10 : c = '0'
  · subst h10; exact Or.inl ⟨_, rest, _, rfl, by simp⟩
  by_cases h11 : c = 'u'
  · subst h11
    rcases rest with _ | ⟨a, _ | ⟨b, _ | ⟨c3, _ | ⟨d, t⟩⟩⟩⟩
    · exact Or.inr ⟨.endOfInputUnicodeEscape, rfl, by simp⟩
    · exact Or.inr ⟨.endOfInputUnicodeEscape, rfl, by simp⟩
    · exact Or.inr ⟨.endOfInputUnicodeEscape, rfl, by simp⟩
    · exact Or.inr ⟨.endOfInputUnicodeEscape, rfl, by simp⟩
    · refine Or.inl ⟨_, t, _, rfl, ?_⟩
      simp only [List.length_cons]
      omega
  by_cases h12 : c = 'x'
  · subst h12
    rcases rest with _ | ⟨a, _ | ⟨b, t⟩⟩
    · exact Or.inr ⟨.endOfInputHexEscape, rfl, by simp⟩
    · exact Or.inr ⟨.endOfInputHexEscape, rfl, by simp⟩
    · refine Or.inl ⟨_, t, _, rfl, ?_⟩
      simp only [List.length_cons]
      omega
  · refine Or.inl ⟨[c], rest, pos + 2, ?_, by simp⟩
    simp only [readEscapeSequence, if_neg h1, if_neg h2, if_neg h3, if_neg h4,
      if_neg h5, if_neg h6, if_neg h7, if_neg h8, if_neg h9, if_neg h10,
      if_neg h11, if_neg h12]

/-- A successful escape decode consumes at least one character after the
backslash. -/
theorem readEscapeSequence_length {s : List Char} {pos : Nat}
    {dec r : List Char} {p' : Nat}
    (h : readEscapeSequence s pos = .ok (dec, r, p')) : r.length < s.length := by
  rcases readEscapeSequence_spec s pos with ⟨d2, r2, q2, he, hl⟩ | ⟨e, he, -⟩
  · rw [he] at h
    obtain ⟨-, h2, -⟩ : d2 = dec ∧ r2 = r ∧ q2 = p' := by simpa using h
    subst h2
    exact hl
  · rw [he] at h
    exact Except.noConfusion h

/-- Case analysis of the single-line string loop: with fuel exceeding the
input length, a success consumes at least the closing quote, and a failure
is never the out-of-fuel marker. -/
theorem readStringBody_spec (q : Char) :
    ∀ (f : Nat) (acc s : List Char) (pos startPos : Nat), s.length < f →
    (∃ v r p', readStringBody q f acc s pos startPos = .ok (v, r, p') ∧
      r.length < s.length) ∨
    (∃ e, readStringBody q f acc s pos startPos = .error e ∧
      e ≠ .outOfFuel) := by
  intro f
  induction f with
  | zero => intro acc s pos sp h; omega
  | succ f ih =>
    intro acc s pos sp hf
    rcases s with _ | ⟨c, rest⟩
    · exact Or.inr ⟨_, rfl, by simp⟩
    by_cases hq : c = q
    · refine Or.inl ⟨acc, rest, pos + 1, ?_, by simp⟩
      simp [readStringBody, hq]
    by_cases hb : c = '\\'
    · subst hb
      rcases readEscapeSequence_spec rest pos with ⟨dec, r1, p1, he, hl⟩ |
        ⟨e, he, hne⟩
      · have hrec := ih (acc ++ dec) r1 p1 sp
          (by simp at hf; omega)
        rcases hrec with ⟨v, r, p', hok, hl2⟩ | ⟨e, herr, hne⟩
        · refine Or.inl ⟨v, r, p', ?_, ?_⟩
          · simp [readStringBody, hq, he, hok]
          · simp only [List.length_cons]
            omega
        · refine Or.inr ⟨e, ?_, hne⟩
          simp [readStringBody, hq, he, herr]
      · refine Or.inr ⟨e, ?_, hne⟩
        simp [readStringBody, hq, he]
    · have hrec := ih (acc ++ [c]) rest (pos + 1) sp
        (by simp at hf; omega)
      rcases hrec with ⟨v, r, p', hok, hl2⟩ | ⟨e, herr, hne⟩
      · refine Or.inl ⟨v, r, p', ?_, ?_⟩
        · simp [readStringBody, hq, hb, hok]
        · simp only [List.length_cons]
          omega
      · refine Or.inr ⟨e, ?_, hne⟩
        simp [readStringBody, hq, hb, herr]

/-- Case analysis of the triple-quoted string loop, as for
`readStringBody_spec`. -/
theorem readTripleBody_spec (q : Char) :
    ∀ (f : Nat) (acc s : List Char) (pos startPos : Nat), s.length < f →
    (∃ v r p', readTripleBody q f acc s pos startPos = .ok (v, r, p') ∧
      r.length < s.length) ∨
    (∃ e, readTripleBody q f acc s pos startPos = .error e ∧
      e ≠ .outOfFuel) := by
  intro f
  induction f with
  | zero => intro acc s pos sp h; omega
  | succ f ih =>
    intro acc s pos sp hf
    rcases s with _ | ⟨c, rest⟩
    · exact Or.inr ⟨_, rfl, by simp⟩
    cases hcl : isTripleClose q c rest with
    | true =>
      refine Or.inl ⟨acc, rest.drop 2, pos + 3, ?_, ?_⟩
      · simp [readTripleBody, hcl]
      · have := List.length_drop 2 rest
        simp only [List.length_cons]
        omega
    | false =>
      by_cases hb : c = '\\'
      · subst hb
        rcases readEscapeSequence_spec rest pos with ⟨dec, r1, p1, he, hl⟩ |
          ⟨e, he, hne⟩
        · have hrec := ih (acc ++ dec) r1 p1 sp (by simp at hf; omega)
          rcases hrec with ⟨v, r, p', hok, hl2⟩ | ⟨e, herr, hne⟩
          · refine Or.inl ⟨v, r, p', ?_, ?_⟩
            · simp [readTripleBody, hcl, he, hok]
            · simp only [List.length_cons]
              omega
          · refine Or.inr ⟨e, ?_, hne⟩
            simp [readTripleBody, hcl, he, herr]
        · refine Or.inr ⟨e, ?_, hne⟩
          simp [readTripleBody, hcl, he]
      · have hrec := ih (acc ++ [c]) rest (pos + 1) sp (by simp at hf; omega)
        rcases hrec with ⟨v, r, p', hok, hl2⟩ | ⟨e, herr, hne⟩
        · refine Or.inl ⟨v, r, p', ?_, ?_⟩
          · simp [readTripleBody, hcl, hb, hok]
          · simp only [List.length_cons]
            omega
        · refine Or.inr ⟨e, ?_, hne⟩
          simp [readTripleBody, hcl, hb, herr]

/-- Case analysis of `readString`: a success consumes at least the closing
quote, and a failure is never the out-of-fuel marker. -/
theorem readString_spec (q : Char) (s : List Char) (pos : Nat) :
    (∃ v r p', readString q s pos = .ok (v, r, p') ∧ r.length < s.length) ∨
    (∃ e, readString q s pos = .error e ∧ e ≠ .outOfFuel) := by
  have hbody := fun (s' : List Char) =>
    readStringBody_spec q s'.length.succ [] s' pos pos (Nat.lt_succ_self _)
  rcases s with _ | ⟨q1, _ | ⟨q2, _ | ⟨c3, rest⟩⟩⟩
  · exact (hbody []).imp (fun ⟨v, r, p', h, hl⟩ => absurd hl (by simp)) id
  · rcases hbody [q1] with ⟨v, r, p', h, hl⟩ | ⟨e, h, hne⟩
    · exact Or.inl ⟨v, r, p', h, hl⟩
    · exact Or.inr ⟨e, h, hne⟩
  · rcases hbody [q1, q2] with ⟨v, r, p', h, hl⟩ | ⟨e, h, hne⟩
    · exact Or.inl ⟨v, r, p', h, hl⟩
    · exact Or.inr ⟨e, h, hne⟩
  · by_cases hq : (q1 = q && q2 = q) = true
    · rcases readTripleBody_spec q (c3 :: rest).length.succ [] (c3 :: rest)
        (pos + 2) pos (Nat.lt_succ_self _) with ⟨v, r, p', h, hl⟩ |
        ⟨e, h, hne⟩
      · refine Or.inl ⟨v, r, p', ?_, ?_⟩
        · simp only [readString, hq, if_true]
          simpa using h
        · simp only [List.length_cons] at hl ⊢
          omega
      · refine Or.inr ⟨e, ?_, hne⟩
        simp only [readString, hq, if_true]
        simpa using h
    · rcases hbody (q1 :: q2 :: c3 :: rest) with ⟨v, r, p', h, hl⟩ |
        ⟨e, h, hne⟩
      · refine Or.inl ⟨v, r, p', ?_, hl⟩
        simp only [readString, hq, if_true]
        simpa using h
      · refine Or.inr ⟨e, ?_, hne⟩
        simp only [readString, hq, if_true]
        simpa using h

/-- A digit run never lengthens the remaining input. -/
theorem digitRun_length (p : Char → Bool) :
    ∀ (l : List Char), (digitRun p l).2.1.length ≤ l.length := by
  intro l
  induction l with
  | nil => simp [digitRun]
  | cons c rest ih =>
    simp only [digitRun]
    by_cases h : (p c || c = '_') = true
    · simp only [h, if_true]
      exact Nat.le_trans ih (Nat.le_succ _)
    · simp [h]

/-- The fraction stage never lengthens the remaining input. -/
theorem numFracPart_length (res1 s1 : List Char) (p1 : Nat) :
    (numFracPart res1 s1 p1).2.1.length ≤ s1.length := by
  rcases s1 with _ | ⟨c, _ | ⟨d, rest⟩⟩
  · simp [numFracPart]
  · simp [numFracPart]
  · by_cases hc : c = '.'
    · subst hc
      by_cases hd : isDigitChar d = true
      · simp only [numFracPart, hd, if_true]
        rcases hd3 : digitRun isDigitChar (d :: rest) with ⟨ds2, s2, n2⟩
        have h2 := digitRun_length isDigitChar (d :: rest)
        rw [hd3] at h2
        simp only [List.length_cons] at h2 ⊢
        omega
      · simp [numFracPart, hd]
    · have hred : numFracPart res1 (c :: d :: rest) p1 =
          (res1, c :: d :: rest, p1) := by
        simp only [numFracPart]
        split
        · rename_i heq
          injection heq with h1 _
          exact absurd h1 hc
        · rfl
      simp [hred]

/-- The exponent stage never lengthens the remaining input. -/
theorem numExpPart_length (res2 s2 : List Char) (p2 : Nat) :
    (numExpPart res2 s2 p2).2.1.length ≤ s2.length := by
  rcases s2 with _ | ⟨c, rest⟩
  · simp [numExpPart]
  by_cases hc : (c = 'e' || c = 'E') = true
  · simp only [numExpPart, hc, if_true]
    rcases rest with _ | ⟨d, rest2⟩
    · rcases h3 : digitRun isDigitChar [] with ⟨ds3, s4, n3⟩
      have h2 := digitRun_length isDigitChar []
      rw [h3] at h2
      simp at h2
      simp [h2]
    · by_cases hd : (d = '+' || d = '-') = true
      · simp only [hd, if_true]
        rcases h3 : digitRun isDigitChar rest2 with ⟨ds3, s4, n3⟩
        have h2 := digitRun_length isDigitChar rest2
        rw [h3] at h2
        simp only [List.length_cons] at h2 ⊢
        omega
      · simp only [hd, Bool.false_eq_true, if_false]
        rcases h3 : digitRun isDigitChar (d :: rest2) with ⟨ds3, s4, n3⟩
        have h2 := digitRun_length isDigitChar (d :: rest2)
        rw [h3] at h2
        simp only [List.length_cons] at h2 ⊢
        omega
  · simp [numExpPart, hc]

/-- Case analysis of `readNumberTail`: a success leaves no more input than
the leading digit run did, and the only failure is InvalidNumber at the
recorded start. -/
theorem readNumberTail_spec (res s : List Char) (pos start : Nat) :
    (∃ t r p', readNumberTail res s pos start = .ok (t, r, p') ∧
      r.length ≤ (digitRun isDigitChar s).2.1.length) ∨
    readNumberTail res s pos start = .error (.invalidNumber start) := by
  simp only [readNumberTail]
  rcases h1 : digitRun isDigitChar s with ⟨ds, s1, n1⟩
  rcases h2 : numFracPart (res ++ ds) s1 (pos + n1) with ⟨res2, s2, p2⟩
  rcases h3 : numExpPart res2 s2 p2 with ⟨res3, s3, p3⟩
  have hl2 : s2.length ≤ s1.length := by
    have := numFracPart_length (res ++ ds) s1 (pos + n1)
    rw [h2] at this
    exact this
  have hl3 : s3.length ≤ s2.length := by
    have := numExpPart_length res2 s2 p2
    rw [h3] at this
    exact this
  by_cases hemp : res3 = [] ∨ res3 = ['-']
  · simp [hemp]
  · simp only [hemp, if_false]
    exact Or.inl ⟨res3, s3, p3, rfl, Nat.le_trans hl3 hl2⟩

/-- Consuming a leading digit: the remaining input of a digit run on a
digit-headed list comes from the tail. -/
theorem digitRun_cons_digit {p : Char → Bool} {c : Char} (rest : List Char)
    (hc : (p c || c = '_') = true) :
    (digitRun p (c :: rest)).2.1 = (digitRun p rest).2.1 := by
  rcases h : digitRun p rest with ⟨ds, r, n⟩
  simp [digitRun, hc, h]

/-- Case analysis of the integer-part dispatch: a success leaves no more
input than the part after the first character when that character is a
digit, never more than the whole input, and every failure is an
InvalidNumber error. -/
theorem readNumberBase_spec (res0 s0 : List Char) (p0 start : Nat) :
    (∃ t r p', readNumberBase res0 s0 p0 start = .ok (t, r, p') ∧
      r.length ≤ s0.length ∧
      (∀ c rest, s0 = c :: rest → isDigitChar c = true →
        r.length ≤ rest.length)) ∨
    readNumberBase res0 s0 p0 start = .error (.invalidNumber start) := by
  rcases s0 with _ | ⟨c2, rest2⟩
  · rcases readNumberTail_spec res0 [] p0 start with ⟨t, r, p', hok, hl⟩ | herr
    · refine Or.inl ⟨t, r, p', hok, by simpa [digitRun] using hl, ?_⟩
      intro c rest h
      exact absurd h (by simp)
    · exact Or.inr herr
  by_cases hz : c2 = '0'
  · subst hz
    rcases rest2 with _ | ⟨c3, rest1⟩
    · rcases readNumberTail_spec (res0 ++ ['0']) [] (p0 + 1) start with
        ⟨t, r, p', hok, hl⟩ | herr
      · refine Or.inl ⟨t, r, p', hok, ?_, ?_⟩
        · simp [digitRun] at hl
          simp [hl]
        · intro c rest h hc
          injection h with h1 h2
          subst h2
          simp [digitRun] at hl
          simp [hl]
      · exact Or.inr herr
    by_cases hx : (c3 = 'x' || c3 = 'X') = true
    · rcases h : digitRun isHexDigitChar rest1 with ⟨ds, r, n⟩
      have hlen := digitRun_length isHexDigitChar rest1
      rw [h] at hlen
      simp only [] at hlen
      refine Or.inl ⟨jsStringOfParseInt 16 ds, r, p0 + 2 + n,
        by simp [readNumberBase, hx, h], ?_, ?_⟩
      · simp only [List.length_cons]
        omega
      · intro c rest hh hc
        injection hh with h1 h2
        subst h2
        simp only [List.length_cons]
        omega
    by_cases ho : (c3 = 'o' || c3 = 'O') = true
    · rcases h : digitRun isOctDigitChar rest1 with ⟨ds, r, n⟩
      have hlen := digitRun_length isOctDigitChar rest1
      rw [h] at hlen
      simp only [] at hlen
      refine Or.inl ⟨jsStringOfParseInt 8 ds, r, p0 + 2 + n,
        by simp [readNumberBase, hx, ho, h], ?_, ?_⟩
      · simp only [List.length_cons]
        omega
      · intro c rest hh hc
        injection hh with h1 h2
        subst h2
        simp only [List.length_cons]
        omega
    by_cases hb : (c3 = 'b' || c3 = 'B') = true
    · rcases h : digitRun isBinDigitChar rest1 with ⟨ds, r, n⟩
      have hlen := digitRun_length isBinDigitChar rest1
      rw [h] at hlen
      simp only [] at hlen
      refine Or.inl ⟨jsStringOfParseInt 2 ds, r, p0 + 2 + n,
        by simp [readNumberBase, hx, ho, hb, h], ?_, ?_⟩
      · simp only [List.length_cons]
        omega
      · intro c rest hh hc
        injection hh with h1 h2
        subst h2
        simp only [List.length_cons]
        omega
    · rcases readNumberTail_spec (res0 ++ ['0']) (c3 :: rest1) (p0 + 1) start
        with ⟨t, r, p', hok, hl⟩ | herr
      · have h2 := digitRun_length isDigitChar (c3 :: rest1)
        refine Or.inl ⟨t, r, p',
          by simp [readNumberBase, hx, ho, hb, hok], ?_, ?_⟩
        · simp only [List.length_cons] at h2 ⊢
          omega
        · intro c rest hh hc
          injection hh with h1 h2'
          subst h2'
          simp only [List.length_cons] at h2 ⊢
          omega
      · exact Or.inr (by simp [readNumberBase, hx, ho, hb, herr])
  · have hred : readNumberBase res0 (c2 :: rest2) p0 start =
        readNumberTail res0 (c2 :: rest2) p0 start := by
      simp only [readNumberBase]
      split
      · rename_i heq
        injection heq with h1 _
        exact absurd h1 hz
      · rename_i heq
        injection heq with h1 _
        exact absurd h1 hz
      · rfl
    rcases readNumberTail_spec res0 (c2 :: rest2) p0 start with
      ⟨t, r, p', hok, hl⟩ | herr
    · have h2 := digitRun_length isDigitChar (c2 :: rest2)
      refine Or.inl ⟨t, r, p', by rw [hred, hok], ?_, ?_⟩
      · simp only [List.length_cons] at h2 ⊢
        omega
      · intro c rest hh hc
        injection hh with h1 h2'
        rw [← h2']
        rw [← h1] at hc
        have h3 := digitRun_cons_digit rest2
          (show (isDigitChar c2 || c2 = '_') = true by simp [hc])
        rw [h3] at hl
        have h4 := digitRun_length isDigitChar rest2
        omega
    · rw [hred, herr]
      exact Or.inr rfl

/-- Case analysis of `readNumber` on a signed input: a success consumes at
least the sign, and every failure is an InvalidNumber error. -/
theorem readNumber_minus_spec (s0 : List Char) (pos : Nat) :
    (∃ t r p', readNumber ('-' :: s0) pos = .ok (t, r, p') ∧
      r.length ≤ s0.length) ∨
    (∃ p, readNumber ('-' :: s0) pos = .error (.invalidNumber p)) := by
  have h : readNumber ('-' :: s0) pos = readNumberBase ['-'] s0 (pos + 1) pos :=
    rfl
  rcases readNumberBase_spec ['-'] s0 (pos + 1) pos with
    ⟨t, r, p', hok, hl, -⟩ | herr
  · exact Or.inl ⟨t, r, p', by rw [h, hok], hl⟩
  · exact Or.inr ⟨pos, by rw [h, herr]⟩

/-- Case analysis of `readNumber` on a digit-headed input: a success
consumes at least that digit, and every failure is an InvalidNumber
error. -/
theorem readNumber_digit_spec (c : Char) (rest : List Char) (pos : Nat)
    (hc : isDigitChar c = true) :
    (∃ t r p', readNumber (c :: rest) pos = .ok (t, r, p') ∧
      r.length ≤ rest.length) ∨
    (∃ p, readNumber (c :: rest) pos = .error (.invalidNumber p)) := by
  have hcm : ¬ c = '-' := by
    rintro rfl
    simp [isDigitChar] at hc
  have h : readNumber (c :: rest) pos = readNumberBase [] (c :: rest) pos pos := by
    simp only [readNumber]
    split
    · rename_i heq
      injection heq with h1 _
      exact absurd h1 hcm
    · rfl
  rcases readNumberBase_spec [] (c :: rest) pos pos with
    ⟨t, r, p', hok, -, hd⟩ | herr
  · exact Or.inl ⟨t, r, p', by rw [h, hok], hd c rest rfl hc⟩
  · exact Or.inr ⟨pos, by rw [h, herr]⟩


/-- An identifier run never lengthens the remaining input. -/
theorem readIdentifierRun_length : ∀ (l : List Char),
    (readIdentifierRun l).2.1.length ≤ l.length := by
  intro l
  induction l with
  | nil => simp [readIdentifierRun]
  | cons c rest ih =>
    simp only [readIdentifierRun]
    by_cases h : isIdentChar c = true
    · simp only [h, if_true]
      rcases hr : readIdentifierRun rest with ⟨i, r, n⟩
      rw [hr] at ih
      simpa using Nat.le_trans ih (Nat.le_succ _)
    · simp [h]

/-- An identifier run on an identifier-headed list consumes at least that
head. -/
theorem readIdentifierRun_cons {c : Char} (rest : List Char)
    (hc : isIdentChar c = true) :
    (readIdentifierRun (c :: rest)).2.1.length ≤ rest.length := by
  simp only [readIdentifierRun, hc, if_true]
  rcases hr : readIdentifierRun rest with ⟨i, r, n⟩
  have := readIdentifierRun_length rest
  rw [hr] at this
  simpa using this

/-- Mapping over an `Except` preserves which errors cannot occur. -/
theorem exceptMap_ne_error {α β γ : Type} {x : Except γ α} {T : α → β}
    {E : γ} (h : x ≠ .error E) : x.map T ≠ .error E := by
  rcases x with e | v
  · simpa [Except.map] using h
  · simp [Except.map]

/-- The scanning loop is insensitive to its fuel once the fuel exceeds the
remaining input length, and never reports the out-of-fuel marker: every
iteration consumes at least one character or stops. -/
theorem tokenizeLoop_stable : ∀ (n : Nat) (s : List Char), s.length ≤ n →
    ∀ (pos f g : Nat), s.length < f → s.length < g →
    tokenizeLoop f s pos = tokenizeLoop g s pos ∧
    tokenizeLoop f s pos ≠ .error .outOfFuel := by
  intro n
  induction n with
  | zero =>
    intro s hs pos f g hf hg
    have hnil : s = [] := List.length_eq_zero.mp (Nat.le_zero.mp hs)
    subst hnil
    rw [tokenizeLoop_nil (by omega), tokenizeLoop_nil (by omega)]
    exact ⟨by trivial, by simp⟩
  | succ n ih =>
    intro s hs pos f g hf hg
    match f, hf, g, hg with
    | f + 1, hf, g + 1, hg =>
    simp only [tokenizeLoop]
    rcases hsk : skipWsComments s pos with ⟨s1, p1⟩
    have hs1 : s1.length ≤ s.length := by
      have := (skip_length s pos).1
      rw [hsk] at this
      exact this
    rcases s1 with _ | ⟨c, rest⟩
    · exact ⟨by trivial, by simp⟩
    have hrest : rest.length ≤ n := by
      simp only [List.length_cons] at hs1
      omega
    have hrec : ∀ (r : List Char) (p : Nat), r.length ≤ rest.length →
        tokenizeLoop f r p = tokenizeLoop g r p ∧
        tokenizeLoop f r p ≠ .error .outOfFuel := by
      intro r p hr
      refine ih r (by omega) p f g ?_ ?_ <;>
        simp only [List.length_cons] at hs1 <;> omega
    by_cases h1 : c = lbraceC
    · simp only [h1, if_true]
      obtain ⟨heq, hne⟩ := hrec rest (p1 + 1) (Nat.le_refl _)
      exact ⟨by rw [heq], exceptMap_ne_error hne⟩
    by_cases h2 : c = rbraceC
    · simp only [h1, h2, if_true, if_false]
      obtain ⟨heq, hne⟩ := hrec rest (p1 + 1) (Nat.le_refl _)
      exact ⟨by rw [heq], exceptMap_ne_error hne⟩
    by_cases h3 : c = '['
    · simp only [h1, h2, h3, if_true, if_false]
      obtain ⟨heq, hne⟩ := hrec rest (p1 + 1) (Nat.le_refl _)
      exact ⟨by rw [heq], exceptMap_ne_error hne⟩
    by_cases h4 : c = ']'
    · simp only [h1, h2, h3, h4, if_true, if_false]
      obtain ⟨heq, hne⟩ := hrec rest (p1 + 1) (Nat.le_refl _)
      exact ⟨by rw [heq], exceptMap_ne_error hne⟩
    by_cases h5 : c = '('
    · simp only [h1, h2, h3, h4, h5, if_true, if_false]
      obtain ⟨heq, hne⟩ := hrec rest (p1 + 1) (Nat.le_refl _)
      exact ⟨by rw [heq], exceptMap_ne_error hne⟩
    by_cases h6 : c = ')'
    · simp only [h1, h2, h3, h4, h5, h6, if_true, if_false]
      obtain ⟨heq, hne⟩ := hrec rest (p1 + 1) (Nat.le_refl _)
      exact ⟨by rw [heq], exceptMap_ne_error hne⟩
    by_cases h7 : c = ':'
    · simp only [h1, h2, h3, h4, h5, h6, h7, if_true, if_false]
      obtain ⟨heq, hne⟩ := hrec rest (p1 + 1) (Nat.le_refl _)
      exact ⟨by rw [heq], exceptMap_ne_error hne⟩
    by_cases h8 : c = ','
    · simp only [h1, h2, h3, h4, h5, h6, h7, h8, if_true, if_false]
      obtain ⟨heq, hne⟩ := hrec rest (p1 + 1) (Nat.le_refl _)
      exact ⟨by rw [heq], exceptMap_ne_error hne⟩
    by_cases h9 : (c = quoteS || c = quoteD) = true
    · simp only [h1, h2, h3, h4, h5, h6, h7, h8, h9, if_true, if_false]
      rcases readString_spec c rest (p1 + 1) with ⟨v, r, p', hok, hl⟩ |
        ⟨e, herr, hne2⟩
      · simp only [hok]
        obtain ⟨heq, hne⟩ := hrec r p' (by omega)
        exact ⟨by rw [heq], exceptMap_ne_error hne⟩
      · simp only [herr]
        exact ⟨by trivial, by simp [hne2]⟩
    by_cases h10 : (c = '-' || isDigitChar c) = true
    · simp only [h1, h2, h3, h4, h5, h6, h7, h8, h9, h10, if_true, if_false,
        Bool.false_eq_true]
      by_cases h11 : c = '-'
      · simp only [h11, if_true]
        rcases rest with _ | ⟨d, rest2⟩
        · exact ⟨by trivial, by simp⟩
        by_cases h12 : (isDigitChar d || d = '.') = true
        · simp only [h12, if_true]
          rcases readNumber_minus_spec (d :: rest2) p1 with
            ⟨t, r, p', hok, hl⟩ | ⟨p, herr⟩
          · simp only [hok]
            obtain ⟨heq, hne⟩ := hrec r p' (by simpa using hl)
            exact ⟨by rw [heq], exceptMap_ne_error hne⟩
          · simp only [herr]
            exact ⟨by trivial, by simp⟩
        · simp only [h12, Bool.false_eq_true, if_false]
          exact ⟨by trivial, by simp⟩
      · have hdig : isDigitChar c = true := by
          rcases Bool.or_eq_true_iff.mp h10 with h | h
          · exact absurd (by simpa using h) h11
          · exact h
        simp only [h11, if_false]
        rcases readNumber_digit_spec c rest p1 hdig with
          ⟨t, r, p', hok, hl⟩ | ⟨p, herr⟩
        · simp only [hok]
          obtain ⟨heq, hne⟩ := hrec r p' hl
          exact ⟨by rw [heq], exceptMap_ne_error hne⟩
        · simp only [herr]
          exact ⟨by trivial, by simp⟩
    by_cases h13 : isIdentStartChar c = true
    · simp only [h1, h2, h3, h4, h5, h6, h7, h8, h9, h10, h13, if_true,
        if_false, Bool.false_eq_true]
      rcases hir : readIdentifierRun (c :: rest) with ⟨ident, r2, n2⟩
      have hident : isIdentChar c = true := by
        simp only [isIdentChar, isIdentStartChar, Bool.or_eq_true,
          Bool.and_eq_true, decide_eq_true_eq] at h13 ⊢
        tauto
      have hl : r2.length ≤ rest.length := by
        have := readIdentifierRun_cons rest hident
        rw [hir] at this
        simpa using this
      obtain ⟨heq, hne⟩ := hrec r2 (p1 + n2) hl
      exact ⟨by rw [heq], exceptMap_ne_error hne⟩
    · simp only [h1, h2, h3, h4, h5, h6, h7, h8, h9, h10, h13, if_false,
        Bool.false_eq_true]
      exact ⟨by trivial, by simp⟩

/-- C10: `tokenize` terminates on every finite input. Termination of the
source's unbounded scanning loop is rendered by fuel: with the
input-dependent fuel budget the loop never reports the out-of-fuel marker
(every iteration consumes at least one character, errors, or emits the
final EOF token and stops), and any larger fuel budget produces the same
finite token sequence. -/
theorem tokenize_always_terminates (s : List Char) :
    tokenize s ≠ .error .outOfFuel ∧
    ∀ f, s.length < f → tokenizeLoop f s 0 = tokenize s := by
  have h := tokenizeLoop_stable s.length s (Nat.le_refl _)
  refine ⟨(h 0 (s.length + 1) (s.length + 1) (Nat.lt_succ_self _)
    (Nat.lt_succ_self _)).2, ?_⟩
  intro f hf
  exact (h 0 f (s.length + 1) hf (Nat.lt_succ_self _)).1

/-- Witness for C10 at a concrete input and fuel. -/
theorem tokenize_always_terminates_witness :
    tokenize "1".data ≠ .error .outOfFuel ∧
    tokenizeLoop 5 "1".data 0 = tokenize "1".data :=
  ⟨(tokenize_always_terminates "1".data).1,
    (tokenize_always_terminates "1".data).2 5 (by decide)⟩

/-- `swapTok` acts as `swapTokType` on the token kind. -/
theorem swapTok_type (t : Token) : (swapTok t).type = swapTokType t.type := by
  rcases t with ⟨ty, v, p⟩
  cases ty <;> rfl

/-- `swapTokType` is an involution. -/
theorem swapTokType_invol (ty : TokType) :
    swapTokType (swapTokType ty) = ty := by
  cases ty <;> rfl

/-- `swapTok` kind test transfers along `swapTokType`. -/
theorem swapTok_type_eq_iff (t : Token) (ty : TokType) :
    ((swapTok t).type = swapTokType ty) ↔ (t.type = ty) := by
  rw [swapTok_type]
  constructor
  · intro h
    have := congrArg swapTokType h
    rwa [swapTokType_invol, swapTokType_invol] at this
  · intro h
    rw [h]

/-- `expectTok` commutes with the parenthesis/bracket exchange. -/
theorem expectTok_swap (ty : TokType) (ts : List Token) :
    expectTok (swapTokType ty) (ts.map swapTok) =
      match expectTok ty ts with
      | .error e => .error (swapErr e)
      | .ok (t, rest) => .ok (swapTok t, rest.map swapTok) := by
  rcases ts with _ | ⟨t, rest⟩
  · rfl
  · simp only [List.map_cons, expectTok]
    by_cases h : t.type = ty
    · rw [if_pos ((swapTok_type_eq_iff t ty).mpr h), if_pos h]
    · rw [if_neg (fun hc => h ((swapTok_type_eq_iff t ty).mp hc)), if_neg h]
      rfl

/-- Tokens other than parentheses and brackets are fixed by the exchange. -/
theorem swapTok_fix {ty : TokType} (v : List Char) (p : Nat)
    (h : swapTokType ty = ty) : swapTok ⟨ty, v, p⟩ = ⟨ty, v, p⟩ := by
  cases ty <;> first | rfl | exact absurd h (by simp [swapTokType])

/-- On success `expectTok` returns a token of the requested kind. -/
theorem expectTok_ok_type {ty : TokType} {ts : List Token} {t : Token}
    {rest : List Token} (h : expectTok ty ts = .ok (t, rest)) :
    t.type = ty := by
  rcases ts with _ | ⟨u, us⟩
  · simp [expectTok] at h
  · by_cases hc : u.type = ty
    · simp only [expectTok, hc, if_true, Except.ok.injEq, Prod.mk.injEq] at h
      rw [← h.1, hc]
    · simp [expectTok, hc] at h

/-- `parseString` commutes with the parenthesis/bracket exchange. -/
theorem parseStringTok_swap (ts : List Token) :
    parseStringTok (ts.map swapTok) = swapRes (parseStringTok ts) := by
  have h : expectTok .STRING (ts.map swapTok) =
      match expectTok .STRING ts with
      | .error e => .error (swapErr e)
      | .ok (t, rest) => .ok (swapTok t, rest.map swapTok) :=
    expectTok_swap .STRING ts
  rcases hE : expectTok .STRING ts with e | ⟨t, rest⟩
  · rw [hE] at h
    simp [parseStringTok, h, hE, swapRes]
  · rw [hE] at h
    have hty := expectTok_ok_type hE
    rcases t with ⟨ty, v, p⟩
    simp only [Token.type] at hty
    subst hty
    simp [parseStringTok, h, hE, swapRes, swapTok]

/-- `parseNumber` commutes with the parenthesis/bracket exchange. -/
theorem parseNumberTok_swap (ts : List Token) :
    parseNumberTok (ts.map swapTok) = swapRes (parseNumberTok ts) := by
  have h : expectTok .NUMBER (ts.map swapTok) =
      match expectTok .NUMBER ts with
      | .error e => .error (swapErr e)
      | .ok (t, rest) => .ok (swapTok t, rest.map swapTok) :=
    expectTok_swap .NUMBER ts
  rcases hE : expectTok .NUMBER ts with e | ⟨t, rest⟩
  · rw [hE] at h
    simp [parseNumberTok, h, hE, swapRes]
  · rw [hE] at h
    have hty := expectTok_ok_type hE
    rcases t with ⟨ty, v, p⟩
    simp only [Token.type] at hty
    subst hty
    simp only [parseNumberTok, h, hE, swapTok]
    rcases jsToNumber v with _ | n
    · simp [swapRes, swapErr]
    · simp [swapRes]

/-- `parseDictKey` commutes with the parenthesis/bracket exchange. -/
theorem parseDictKey_swap (ts : List Token) :
    parseDictKey (ts.map swapTok) =
      match parseDictKey ts with
      | .error e => .error (swapErr e)
      | .ok (k, rest) => .ok (k, rest.map swapTok) := by
  rcases ts with _ | ⟨t, rest⟩
  · rfl
  · rcases t with ⟨ty, v, p⟩
    cases ty <;> rfl

/-- `swapErr` fixes `unexpectedEnd`. -/
theorem swapErr_unexpectedEnd : swapErr .unexpectedEnd = .unexpectedEnd := rfl

/-- `swapErr` fixes `outOfFuel`. -/
theorem swapErr_outOfFuel : swapErr .outOfFuel = .outOfFuel := rfl

/-- `swapErr` fixes `invalidNumber`. -/
theorem swapErr_invalidNumber (v : List Char) (p : Nat) :
    swapErr (.invalidNumber v p) = .invalidNumber v p := rfl

/-- Exchanging parentheses and brackets throughout the token stream turns
each parser entry point into its twin: dict parsing is unchanged, and list
parsing becomes tuple parsing (and vice versa) with identical Array
values. -/
theorem parse_swap : ∀ f : Nat,
    (∀ ts, parseValueF f (ts.map swapTok) = swapRes (parseValueF f ts)) ∧
    (∀ ts, parseDictF f (ts.map swapTok) = swapRes (parseDictF f ts)) ∧
    (∀ m ts, dictLoopF f m (ts.map swapTok) = swapRes (dictLoopF f m ts)) ∧
    (∀ ts, parseListF f (ts.map swapTok) = swapRes (parseTupleF f ts)) ∧
    (∀ ts, parseTupleF f (ts.map swapTok) = swapRes (parseListF f ts)) ∧
    (∀ ts, listLoopF f (ts.map swapTok) = swapRes (tupleLoopF f ts)) ∧
    (∀ ts, tupleLoopF f (ts.map swapTok) = swapRes (listLoopF f ts)) := by
  intro f
  induction f with
  | zero =>
    exact ⟨fun _ => rfl, fun _ => rfl, fun _ _ => rfl, fun _ => rfl,
      fun _ => rfl, fun _ => rfl, fun _ => rfl⟩
  | succ f ih =>
    obtain ⟨ihV, ihD, ihDL, ihL, ihT, ihLL, ihTL⟩ := ih
    refine ⟨?_, ?_, ?_, ?_, ?_, ?_, ?_⟩
    · -- parseValueF
      intro ts
      rcases ts with _ | ⟨t, rest⟩
      · rfl
      rcases t with ⟨ty, v, p⟩
      cases ty
      · -- STRING
        simpa [parseValueF, swapTok] using
          parseStringTok_swap (⟨.STRING, v, p⟩ :: rest)
      · -- NUMBER
        simpa [parseValueF, swapTok] using
          parseNumberTok_swap (⟨.NUMBER, v, p⟩ :: rest)
      · -- TRUE
        rfl
      · -- FALSE
        rfl
      · -- NONE
        rfl
      · -- LBRACE
        simpa [parseValueF, swapTok] using ihD (⟨.LBRACE, v, p⟩ :: rest)
      · -- RBRACE
        rfl
      · -- LBRACKET: swapped head is LPAREN, so the left side tuple-parses
        simpa [parseValueF, swapTok] using ihT (⟨.LBRACKET, v, p⟩ :: rest)
      · -- RBRACKET
        rfl
      · -- LPAREN: swapped head is LBRACKET, so the left side list-parses
        simpa [parseValueF, swapTok] using ihL (⟨.LPAREN, v, p⟩ :: rest)
      · -- RPAREN
        rfl
      · -- COLON
        rfl
      · -- COMMA
        rfl
      · -- EOF
        rfl
    · -- parseDictF
      intro ts
      have h : expectTok .LBRACE (ts.map swapTok) =
          match expectTok .LBRACE ts with
          | .error e => .error (swapErr e)
          | .ok (t, rest) => .ok (swapTok t, rest.map swapTok) :=
        expectTok_swap .LBRACE ts
      rcases hE : expectTok .LBRACE ts with e | ⟨t0, ts1⟩
      · rw [hE] at h
        simp [parseDictF, h, hE, swapRes, swapErr_unexpectedEnd]
      rw [hE] at h
      rcases ts1 with _ | ⟨t1, rest1⟩
      · simp [parseDictF, h, hE, swapRes, swapErr_unexpectedEnd]
      by_cases hb : t1.type = .RBRACE
      · have hb' : (swapTok t1).type = .RBRACE :=
          (swapTok_type_eq_iff t1 .RBRACE).mpr hb
        simp [parseDictF, h, hE, hb, hb', swapRes]
      · have hb' : ¬ (swapTok t1).type = .RBRACE :=
          fun hc => hb ((swapTok_type_eq_iff t1 .RBRACE).mp hc)
        have hL := ihDL [] (t1 :: rest1)
        simp only [List.map_cons] at hL
        rcases hDL : dictLoopF f [] (t1 :: rest1) with e2 | ⟨m2, ts2⟩
        · rw [hDL] at hL
          simp [parseDictF, h, hE, hb, hb', hL, hDL, swapRes]
        · rw [hDL] at hL
          have h2 : expectTok .RBRACE (ts2.map swapTok) =
              match expectTok .RBRACE ts2 with
              | .error e => .error (swapErr e)
              | .ok (t, rest) => .ok (swapTok t, rest.map swapTok) :=
            expectTok_swap .RBRACE ts2
          rcases hE2 : expectTok .RBRACE ts2 with e3 | ⟨t3, ts3⟩
          · rw [hE2] at h2
            simp [parseDictF, h, hE, hb, hb', hL, hDL, h2, hE2, swapRes]
          · rw [hE2] at h2
            simp [parseDictF, h, hE, hb, hb', hL, hDL, h2, hE2, swapRes]
    · -- dictLoopF
      intro m ts
      rcases ts with _ | ⟨t, rest⟩
      · rfl
      by_cases hb : t.type = .RBRACE
      · have hb' : (swapTok t).type = .RBRACE :=
          (swapTok_type_eq_iff t .RBRACE).mpr hb
        simp [dictLoopF, hb, hb', swapRes]
      · have hb' : ¬ (swapTok t).type = .RBRACE :=
          fun hc => hb ((swapTok_type_eq_iff t .RBRACE).mp hc)
        have hK := parseDictKey_swap (t :: rest)
        simp only [List.map_cons] at hK
        rcases hPK : parseDictKey (t :: rest) with e | ⟨k, ts1⟩
        · rw [hPK] at hK
          simp [dictLoopF, hb, hb', hK, hPK, swapRes]
        · rw [hPK] at hK
          have hC : expectTok .COLON (ts1.map swapTok) =
              match expectTok .COLON ts1 with
              | .error e => .error (swapErr e)
              | .ok (t, rest) => .ok (swapTok t, rest.map swapTok) :=
            expectTok_swap .COLON ts1
          rcases hE1 : expectTok .COLON ts1 with e | ⟨tc, ts2⟩
          · rw [hE1] at hC
            simp [dictLoopF, hb, hb', hK, hPK, hC, hE1, swapRes]
          · rw [hE1] at hC
            have hV := ihV ts2
            rcases hPV : parseValueF f ts2 with e | ⟨v, ts3⟩
            · rw [hPV] at hV
              simp [dictLoopF, hb, hb', hK, hPK, hC, hE1, hV, hPV, swapRes]
            · rw [hPV] at hV
              rcases ts3 with _ | ⟨t1, rest3⟩
              · simp [dictLoopF, hb, hb', hK, hPK, hC, hE1, hV, hPV,
                  swapRes, swapErr_unexpectedEnd]
              by_cases hcm : t1.type = .COMMA
              · have hcm' : (swapTok t1).type = .COMMA :=
                  (swapTok_type_eq_iff t1 .COMMA).mpr hcm
                have hRec := ihDL (recordSet m k v) rest3
                simp [dictLoopF, hb, hb', hK, hPK, hC, hE1, hV, hPV, hcm,
                  hcm', hRec, swapRes]
              · have hcm' : ¬ (swapTok t1).type = .COMMA :=
                  fun hc => hcm ((swapTok_type_eq_iff t1 .COMMA).mp hc)
                simp [dictLoopF, hb, hb', hK, hPK, hC, hE1, hV, hPV, hcm,
                  hcm', swapRes]
    · -- parseListF on swapped tokens runs parseTupleF
      intro ts
      have h : expectTok .LBRACKET (ts.map swapTok) =
          match expectTok .LPAREN ts with
          | .error e => .error (swapErr e)
          | .ok (t, rest) => .ok (swapTok t, rest.map swapTok) :=
        expectTok_swap .LPAREN ts
      rcases hE : expectTok .LPAREN ts with e | ⟨t0, ts1⟩
      · rw [hE] at h
        simp [parseListF, parseTupleF, h, hE, swapRes]
      rw [hE] at h
      rcases ts1 with _ | ⟨t1, rest1⟩
      · simp [parseListF, parseTupleF, h, hE, swapRes, swapErr_unexpectedEnd]
      by_cases hb : t1.type = .RPAREN
      · have hb' : (swapTok t1).type = .RBRACKET :=
          (swapTok_type_eq_iff t1 .RPAREN).mpr hb
        simp [parseListF, parseTupleF, h, hE, hb, hb', swapRes]
      · have hb' : ¬ (swapTok t1).type = .RBRACKET :=
          fun hc => hb ((swapTok_type_eq_iff t1 .RPAREN).mp hc)
        have hL := ihLL (t1 :: rest1)
        simp only [List.map_cons] at hL
        rcases hDL : tupleLoopF f (t1 :: rest1) with e2 | ⟨vs2, ts2⟩
        · rw [hDL] at hL
          simp [parseListF, parseTupleF, h, hE, hb, hb', hL, hDL, swapRes]
        · rw [hDL] at hL
          have h2 : expectTok .RBRACKET (ts2.map swapTok) =
              match expectTok .RPAREN ts2 with
              | .error e => .error (swapErr e)
              | .ok (t, rest) => .ok (swapTok t, rest.map swapTok) :=
            expectTok_swap .RPAREN ts2
          rcases hE2 : expectTok .RPAREN ts2 with e3 | ⟨t3, ts3⟩
          · rw [hE2] at h2
            simp [parseListF, parseTupleF, h, hE, hb, hb', hL, hDL, h2, hE2,
              swapRes]
          · rw [hE2] at h2
            simp [parseListF, parseTupleF, h, hE, hb, hb', hL, hDL, h2, hE2,
              swapRes]
    · -- parseTupleF on swapped tokens runs parseListF
      intro ts
      have h : expectTok .LPAREN (ts.map swapTok) =
          match expectTok .LBRACKET ts with
          | .error e => .error (swapErr e)
          | .ok (t, rest) => .ok (swapTok t, rest.map swapTok) :=
        expectTok_swap .LBRACKET ts
      rcases hE : expectTok .LBRACKET ts with e | ⟨t0, ts1⟩
      · rw [hE] at h
        simp [parseTupleF, parseListF, h, hE, swapRes]
      rw [hE] at h
      rcases ts1 with _ | ⟨t1, rest1⟩
      · simp [parseTupleF, parseListF, h, hE, swapRes, swapErr_unexpectedEnd]
      by_cases hb : t1.type = .RBRACKET
      · have hb' : (swapTok t1).type = .RPAREN :=
          (swapTok_type_eq_iff t1 .RBRACKET).mpr hb
        simp [parseTupleF, parseListF, h, hE, hb, hb', swapRes]
      · have hb' : ¬ (swapTok t1).type = .RPAREN :=
          fun hc => hb ((swapTok_type_eq_iff t1 .RBRACKET).mp hc)
        have hL := ihTL (t1 :: rest1)
        simp only [List.map_cons] at hL
        rcases hDL : listLoopF f (t1 :: rest1) with e2 | ⟨vs2, ts2⟩
        · rw [hDL] at hL
          simp [parseTupleF, parseListF, h, hE, hb, hb', hL, hDL, swapRes]
        · rw [hDL] at hL
          have h2 : expectTok .RPAREN (ts2.map swapTok) =
              match expectTok .RBRACKET ts2 with
              | .error e => .error (swapErr e)
              | .ok (t, rest) => .ok (swapTok t, rest.map swapTok) :=
            expectTok_swap .RBRACKET ts2
          rcases hE2 : expectTok .RBRACKET ts2 with e3 | ⟨t3, ts3⟩
          · rw [hE2] at h2
            simp [parseTupleF, parseListF, h, hE, hb, hb', hL, hDL, h2, hE2,
              swapRes]
          · rw [hE2] at h2
            simp [parseTupleF, parseListF, h, hE, hb, hb', hL, hDL, h2, hE2,
              swapRes]
    · -- listLoopF on swapped tokens runs tupleLoopF
      intro ts
      rcases ts with _ | ⟨t, rest⟩
      · rfl
      by_cases hb : t.type = .RPAREN
      · have hb' : (swapTok t).type = .RBRACKET :=
          (swapTok_type_eq_iff t .RPAREN).mpr hb
        simp [listLoopF, tupleLoopF, hb, hb', swapRes]
      · have hb' : ¬ (swapTok t).type = .RBRACKET :=
          fun hc => hb ((swapTok_type_eq_iff t .RPAREN).mp hc)
        have hV := ihV (t :: rest)
        simp only [List.map_cons] at hV
        rcases hPV : parseValueF f (t :: rest) with e | ⟨v, ts1⟩
        · rw [hPV] at hV
          simp [listLoopF, tupleLoopF, hb, hb', hV, hPV, swapRes]
        · rw [hPV] at hV
          rcases ts1 with _ | ⟨t1, rest1⟩
          · simp [listLoopF, tupleLoopF, hb, hb', hV, hPV, swapRes,
              swapErr_unexpectedEnd]
          by_cases hcm : t1.type = .COMMA
          · have hcm' : (swapTok t1).type = .COMMA :=
              (swapTok_type_eq_iff t1 .COMMA).mpr hcm
            have hRec := ihLL rest1
            rcases hTL : tupleLoopF f rest1 with e2 | ⟨vs, ts2⟩
            · rw [hTL] at hRec
              simp [listLoopF, tupleLoopF, hb, hb', hV, hPV, hcm, hcm',
                hRec, hTL, swapRes]
            · rw [hTL] at hRec
              simp [listLoopF, tupleLoopF, hb, hb', hV, hPV, hcm, hcm',
                hRec, hTL, swapRes]
          · have hcm' : ¬ (swapTok t1).type = .COMMA :=
              fun hc => hcm ((swapTok_type_eq_iff t1 .COMMA).mp hc)
            simp [listLoopF, tupleLoopF, hb, hb', hV, hPV, hcm, hcm',
              swapRes]
    · -- tupleLoopF on swapped tokens runs listLoopF
      intro ts
      rcases ts with _ | ⟨t, rest⟩
      · rfl
      by_cases hb : t.type = .RBRACKET
      · have hb' : (swapTok t).type = .RPAREN :=
          (swapTok_type_eq_iff t .RBRACKET).mpr hb
        simp [tupleLoopF, listLoopF, hb, hb', swapRes]
      · have hb' : ¬ (swapTok t).type = .RPAREN :=
          fun hc => hb ((swapTok_type_eq_iff t .RBRACKET).mp hc)
        have hV := ihV (t :: rest)
        simp only [List.map_cons] at hV
        rcases hPV : parseValueF f (t :: rest) with e | ⟨v, ts1⟩
        · rw [hPV] at hV
          simp [tupleLoopF, listLoopF, hb, hb', hV, hPV, swapRes]
        · rw [hPV] at hV
          rcases ts1 with _ | ⟨t1, rest1⟩
          · simp [tupleLoopF, listLoopF, hb, hb', hV, hPV, swapRes,
              swapErr_unexpectedEnd]
          by_cases hcm : t1.type = .COMMA
          · have hcm' : (swapTok t1).type = .COMMA :=
              (swapTok_type_eq_iff t1 .COMMA).mpr hcm
            have hRec := ihTL rest1
            rcases hTL : listLoopF f rest1 with e2 | ⟨vs, ts2⟩
            · rw [hTL] at hRec
              simp [tupleLoopF, listLoopF, hb, hb', hV, hPV, hcm, hcm',
                hRec, hTL, swapRes]
            · rw [hTL] at hRec
              simp [tupleLoopF, listLoopF, hb, hb', hV, hPV, hcm, hcm',
                hRec, hTL, swapRes]
          · have hcm' : ¬ (swapTok t1).type = .COMMA :=
              fun hc => hcm ((swapTok_type_eq_iff t1 .COMMA).mp hc)
            simp [tupleLoopF, listLoopF, hb, hb', hV, hPV, hcm, hcm',
              swapRes]

/-- C5: a parenthesized tuple literal parses to the same Array value as the
bracketed list literal with the same elements (exchanging the
parenthesis/bracket tokens in either direction), so conversion of either
form yields identical JSON text; in particular converting "(1, 2)" and
"[1, 2]" both give the four-space-indented array text. -/
theorem tuple_parses_as_list :
    (∀ f ts v r, parseTupleF f ts = .ok (v, r) →
      parseListF f (ts.map swapTok) = .ok (v, r.map swapTok)) ∧
    (∀ f ts v r, parseListF f ts = .ok (v, r) →
      parseTupleF f (ts.map swapTok) = .ok (v, r.map swapTok)) ∧
    pythonDictToJson "(1, 2)" 4 = pythonDictToJson "[1, 2]" 4 ∧
    pythonDictToJson "(1, 2)" 4 = .ok "[\n    1,\n    2\n]" := by
  refine ⟨?_, ?_, rfl, rfl⟩
  · intro f ts v r h
    have hs := (parse_swap f).2.2.2.1 ts
    rw [h] at hs
    simpa [swapRes] using hs
  · intro f ts v r h
    have hs := (parse_swap f).2.2.2.2.1 ts
    rw [h] at hs
    simpa [swapRes] using hs

/-- Witness for C5 at a concrete tuple token stream. -/
theorem tuple_parses_as_list_witness :
    parseTupleF 1 [⟨.LPAREN, ['('], 0⟩, ⟨.RPAREN, [')'], 1⟩] =
      .ok (.arr [], []) ∧
    parseListF 1 ([⟨.LPAREN, ['('], 0⟩, ⟨.RPAREN, [')'], 1⟩].map swapTok) =
      .ok (.arr [], []) :=
  ⟨rfl, by
    have := tuple_parses_as_list.1 1
      [⟨.LPAREN, ['('], 0⟩, ⟨.RPAREN, [')'], 1⟩] (.arr []) [] rfl
    simpa using this⟩

/-- Characterization of a successful `expectTok`. -/
theorem expectTok_ok_iff {ty : TokType} {ts : List Token} {t : Token}
    {r : List Token} :
    expectTok ty ts = .ok (t, r) ↔ ts = t :: r ∧ t.type = ty := by
  constructor
  · intro h
    rcases ts with _ | ⟨u, us⟩
    · simp [expectTok] at h
    · by_cases hc : u.type = ty
      · simp only [expectTok, hc, if_true, Except.ok.injEq,
          Prod.mk.injEq] at h
        rw [← h.1, ← h.2]
        exact ⟨rfl, hc⟩
      · simp [expectTok, hc] at h
  · rintro ⟨rfl, hty⟩
    simp [expectTok, hty]

/-- Characterization of a successful `parseString`. -/
theorem parseStringTok_ok {ts : List Token} {v : Value} {r : List Token}
    (h : parseStringTok ts = .ok (v, r)) :
    ∃ t : Token, ts = t :: r ∧ t.type = .STRING ∧ v = .str t.value := by
  rcases hE : expectTok .STRING ts with e | ⟨t, rest⟩
  · simp [parseStringTok, hE] at h
  · obtain ⟨hts, hty⟩ := expectTok_ok_iff.mp hE
    simp only [parseStringTok, hE, Except.ok.injEq, Prod.mk.injEq] at h
    exact ⟨t, by rw [hts, h.2], hty, h.1.symm⟩

/-- Replay of a successful `parseString` after any continuation. -/
theorem parseStringTok_replay {t : Token} (hty : t.type = .STRING)
    (Y : List Token) : parseStringTok (t :: Y) = .ok (.str t.value, Y) := by
  simp [parseStringTok, expectTok, hty]

/-- Characterization of a successful `parseNumber`. -/
theorem parseNumberTok_ok {ts : List Token} {v : Value} {r : List Token}
    (h : parseNumberTok ts = .ok (v, r)) :
    ∃ (t : Token) (n : JNum), ts = t :: r ∧ t.type = .NUMBER ∧
      jsToNumber t.value = some n ∧ v = .num n := by
  rcases hE : expectTok .NUMBER ts with e | ⟨t, rest⟩
  · simp [parseNumberTok, hE] at h
  · obtain ⟨hts, hty⟩ := expectTok_ok_iff.mp hE
    rcases hn : jsToNumber t.value with _ | n
    · simp [parseNumberTok, hE, hn] at h
    · simp only [parseNumberTok, hE, hn, Except.ok.injEq,
        Prod.mk.injEq] at h
      exact ⟨t, n, by rw [hts, h.2], hty, hn, h.1.symm⟩

/-- Replay of a successful `parseNumber` after any continuation. -/
theorem parseNumberTok_replay {t : Token} {n : JNum}
    (hty : t.type = .NUMBER) (hn : jsToNumber t.value = some n)
    (Y : List Token) : parseNumberTok (t :: Y) = .ok (.num n, Y) := by
  simp [parseNumberTok, expectTok, hty, hn]

/-- Characterization of a successful `parseDictKey`: exactly the head token
is consumed and the key depends only on it. -/
theorem parseDictKey_ok {ts : List Token} {k : List Char} {r : List Token}
    (h : parseDictKey ts = .ok (k, r)) :
    ∃ t : Token, ts = t :: r ∧ t.type ≠ .RBRACE ∧
      ∀ Y, parseDictKey (t :: Y) = .ok (k, Y) := by
  rcases ts with _ | ⟨t, rest⟩
  · simp [parseDictKey] at h
  · rcases t with ⟨ty, tv, tp⟩
    cases ty <;> simp only [parseDictKey, Except.ok.injEq, Prod.mk.injEq,
      Except.error.injEq, reduceCtorEq] at h <;>
      first
      | exact False.elim h
      | exact ⟨⟨_, tv, tp⟩, by rw [h.2], by simp [Token.type],
          fun Y => by simp [parseDictKey, h.1]⟩

/-- Every successful parse consumes a nonempty prefix of the token stream
and depends only on that prefix: replaying on the same prefix followed by
any continuation succeeds with the same value.  The loops additionally
leave the stopping token in place, so their replay pins it. -/
theorem parse_localize : ∀ f : Nat,
    (∀ ts v r, parseValueF f ts = .ok (v, r) →
      ∃ d, d ≠ [] ∧ ts = d ++ r ∧
        ∀ Y, parseValueF f (d ++ Y) = .ok (v, Y)) ∧
    (∀ ts v r, parseDictF f ts = .ok (v, r) →
      ∃ d, d ≠ [] ∧ ts = d ++ r ∧
        ∀ Y, parseDictF f (d ++ Y) = .ok (v, Y)) ∧
    (∀ m ts m' r, dictLoopF f m ts = .ok (m', r) →
      ∃ d t rr, ts = d ++ t :: rr ∧ r = t :: rr ∧
        ∀ Y, dictLoopF f m (d ++ t :: Y) = .ok (m', t :: Y)) ∧
    (∀ ts v r, parseListF f ts = .ok (v, r) →
      ∃ d, d ≠ [] ∧ ts = d ++ r ∧
        ∀ Y, parseListF f (d ++ Y) = .ok (v, Y)) ∧
    (∀ ts v r, parseTupleF f ts = .ok (v, r) →
      ∃ d, d ≠ [] ∧ ts = d ++ r ∧
        ∀ Y, parseTupleF f (d ++ Y) = .ok (v, Y)) ∧
    (∀ ts vs r, listLoopF f ts = .ok (vs, r) →
      ∃ d t rr, ts = d ++ t :: rr ∧ r = t :: rr ∧
        ∀ Y, listLoopF f (d ++ t :: Y) = .ok (vs, t :: Y)) ∧
    (∀ ts vs r, tupleLoopF f ts = .ok (vs, r) →
      ∃ d t rr, ts = d ++ t :: rr ∧ r = t :: rr ∧
        ∀ Y, tupleLoopF f (d ++ t :: Y) = .ok (vs, t :: Y)) := by
  intro f
  induction f with
  | zero =>
    refine ⟨fun ts v r h => ?_, fun ts v r h => ?_, fun m ts m' r h => ?_,
      fun ts v r h => ?_, fun ts v r h => ?_, fun ts vs r h => ?_,
      fun ts vs r h => ?_⟩ <;> simp [parseValueF, parseDictF, dictLoopF,
      parseListF, parseTupleF, listLoopF, tupleLoopF] at h
  | succ f ih =>
    obtain ⟨ihV, ihD, ihDL, ihL, ihT, ihLL, ihTL⟩ := ih
    refine ⟨?_, ?_, ?_, ?_, ?_, ?_, ?_⟩
    · -- parseValueF
      intro ts v r h
      rcases ts with _ | ⟨t, rest⟩
      · simp [parseValueF] at h
      rcases t with ⟨ty, tv, tp⟩
      cases ty
      · -- STRING
        simp only [parseValueF] at h
        obtain ⟨t', hts, hty', hv⟩ := parseStringTok_ok h
        injection hts with h1 h2
        refine ⟨[⟨.STRING, tv, tp⟩], by simp, by simp [h2], fun Y => ?_⟩
        subst hv
        rw [h1]
        simp [parseValueF, hty', parseStringTok_replay hty' Y]
      · -- NUMBER
        simp only [parseValueF] at h
        obtain ⟨t', n, hts, hty', hn, hv⟩ := parseNumberTok_ok h
        injection hts with h1 h2
        refine ⟨[⟨.NUMBER, tv, tp⟩], by simp, by simp [h2], fun Y => ?_⟩
        subst hv
        rw [h1]
        simp [parseValueF, hty', parseNumberTok_replay hty' hn Y]
      · -- TRUE
        simp only [parseValueF, Except.ok.injEq, Prod.mk.injEq] at h
        exact ⟨[⟨.TRUE, tv, tp⟩], by simp, by simp [h.2], fun Y => by
          simp [parseValueF, ← h.1]⟩
      · -- FALSE
        simp only [parseValueF, Except.ok.injEq, Prod.mk.injEq] at h
        exact ⟨[⟨.FALSE, tv, tp⟩], by simp, by simp [h.2], fun Y => by
          simp [parseValueF, ← h.1]⟩
      · -- NONE
        simp only [parseValueF, Except.ok.injEq, Prod.mk.injEq] at h
        exact ⟨[⟨.NONE, tv, tp⟩], by simp, by simp [h.2], fun Y => by
          simp [parseValueF, ← h.1]⟩
      · -- LBRACE
        simp only [parseValueF] at h
        obtain ⟨d, hne, hts, hloc⟩ := ihD _ _ _ h
        rcases d with _ | ⟨u, d'⟩
        · exact absurd rfl hne
        injection hts with h1 h2
        refine ⟨u :: d', by simp, by simp [h1, h2], fun Y => ?_⟩
        have hu : u.type = .LBRACE := by rw [← h1]
        simp only [parseValueF, List.cons_append, hu]
        exact hloc Y
      · -- RBRACE
        simp [parseValueF] at h
      · -- LBRACKET
        simp only [parseValueF] at h
        obtain ⟨d, hne, hts, hloc⟩ := ihL _ _ _ h
        rcases d with _ | ⟨u, d'⟩
        · exact absurd rfl hne
        injection hts with h1 h2
        refine ⟨u :: d', by simp, by simp [h1, h2], fun Y => ?_⟩
        have hu : u.type = .LBRACKET := by rw [← h1]
        simp only [parseValueF, List.cons_append, hu]
        exact hloc Y
      · -- RBRACKET
        simp [parseValueF] at h
      · -- LPAREN
        simp only [parseValueF] at h
        obtain ⟨d, hne, hts, hloc⟩ := ihT _ _ _ h
        rcases d with _ | ⟨u, d'⟩
        · exact absurd rfl hne
        injection hts with h1 h2
        refine ⟨u :: d', by simp, by simp [h1, h2], fun Y => ?_⟩
        have hu : u.type = .LPAREN := by rw [← h1]
        simp only [parseValueF, List.cons_append, hu]
        exact hloc Y
      · -- RPAREN
        simp [parseValueF] at h
      · -- COLON
        simp [parseValueF] at h
      · -- COMMA
        simp [parseValueF] at h
      · -- EOF
        simp [parseValueF] at h
    · -- parseDictF
      intro ts v r h
      rcases hE : expectTok .LBRACE ts with e | ⟨t0, ts1⟩
      · simp [parseDictF, hE] at h
      obtain ⟨hts, hty0⟩ := expectTok_ok_iff.mp hE
      rcases ts1 with _ | ⟨t1, rest1⟩
      · simp [parseDictF, hE] at h
      by_cases hb : t1.type = .RBRACE
      · simp only [parseDictF, hE, hb, if_true, Except.ok.injEq,
          Prod.mk.injEq] at h
        refine ⟨[t0, t1], by simp, by simp [hts, h.2], fun Y => ?_⟩
        simp [parseDictF, expectTok, hty0, hb, ← h.1]
      · rcases hDL : dictLoopF f [] (t1 :: rest1) with e2 | ⟨m2, ts2⟩
        · simp [parseDictF, hE, hb, hDL] at h
        obtain ⟨d2, t2, rr2, hts1, hr2, hloc2⟩ := ihDL _ _ _ _ hDL
        rcases hE2 : expectTok .RBRACE ts2 with e3 | ⟨t3, ts3⟩
        · simp [parseDictF, hE, hb, hDL, hE2] at h
        obtain ⟨hts2, hty3⟩ := expectTok_ok_iff.mp hE2
        simp only [parseDictF, hE, hb, if_false, hDL, hE2, Except.ok.injEq,
          Prod.mk.injEq] at h
        rw [hr2] at hts2
        injection hts2 with ht23 hrr2
        rcases d2 with _ | ⟨u2, d2'⟩
        · injection hts1 with hx
          exact absurd (hx ▸ hb) (by rw [ht23, hty3]; simp)
        injection hts1 with hu hrest1
        refine ⟨t0 :: (u2 :: d2') ++ [t2], by simp, ?_, fun Y => ?_⟩
        · rw [hts, hrest1, ← h.2, ← hrr2]
          simp [hu]
        · have hu2 : ¬ u2.type = .RBRACE := by rw [← hu]; exact hb
          have ht2 : t2.type = .RBRACE := by rw [ht23, hty3]
          simp only [List.cons_append, List.append_assoc,
            List.singleton_append]
          simp [parseDictF, expectTok, hty0, hu2, hloc2 Y, ht2, ← h.1]
          have hloc2' : dictLoopF f [] (u2 :: (d2' ++ t2 :: Y)) =
              Except.ok (m2, t2 :: Y) := by simpa using hloc2 Y
          rw [hloc2']
          simp [ht2]
    · -- dictLoopF
      intro m ts m' r h
      rcases ts with _ | ⟨t, rest⟩
      · simp [dictLoopF] at h
      by_cases hb : t.type = .RBRACE
      · simp only [dictLoopF, hb, if_true, Except.ok.injEq,
          Prod.mk.injEq] at h
        refine ⟨[], t, rest, by simp, by rw [← h.2], fun Y => ?_⟩
        simp [dictLoopF, hb, ← h.1]
      · rcases hPK : parseDictKey (t :: rest) with e | ⟨k, ts1⟩
        · simp [dictLoopF, hb, hPK] at h
        obtain ⟨tk, htk, htkty, hkrep⟩ := parseDictKey_ok hPK
        injection htk with htk1 htk2
        rcases hE1 : expectTok .COLON ts1 with e | ⟨tc, ts2⟩
        · simp [dictLoopF, hb, hPK, hE1] at h
        obtain ⟨hts1, htc⟩ := expectTok_ok_iff.mp hE1
        rcases hPV : parseValueF f ts2 with e | ⟨v1, ts3⟩
        · simp [dictLoopF, hb, hPK, hE1, hPV] at h
        obtain ⟨dv, hdvne, hts2, hvloc⟩ := ihV _ _ _ hPV
        rcases ts3 with _ | ⟨t1, rest3⟩
        · simp [dictLoopF, hb, hPK, hE1, hPV] at h
        by_cases hcm : t1.type = .COMMA
        · simp only [dictLoopF, hb, if_false, hPK, hE1, hPV, hcm,
            if_true] at h
          obtain ⟨dr, tr, rrr, hrest3, hrr, hrloc⟩ := ihDL _ _ _ _ h
          refine ⟨t :: tc :: dv ++ t1 :: dr, tr, rrr, ?_, hrr, fun Y => ?_⟩
          · rw [htk2, hts1, hts2, hrest3]
            simp
          · have hv' : parseValueF f (dv ++ (t1 :: (dr ++ tr :: Y))) =
                .ok (v1, t1 :: (dr ++ tr :: Y)) := hvloc _
            have hr' : dictLoopF f (recordSet m k v1) (dr ++ tr :: Y) =
                .ok (m', tr :: Y) := by simpa using hrloc Y
            have hk' : parseDictKey
                (t :: (tc :: (dv ++ (t1 :: (dr ++ tr :: Y))))) =
                .ok (k, tc :: (dv ++ (t1 :: (dr ++ tr :: Y)))) := by
              rw [htk1]
              exact hkrep _
            simp [dictLoopF, hb, hk', expectTok, htc, hv', hcm, hr']
        · simp only [dictLoopF, hb, if_false, hPK, hE1, hPV, hcm,
            Except.ok.injEq, Prod.mk.injEq] at h
          refine ⟨t :: tc :: dv, t1, rest3, ?_, by rw [← h.2], fun Y => ?_⟩
          · rw [htk2, hts1, hts2]
            simp
          · have hv' : parseValueF f (dv ++ (t1 :: Y)) =
                .ok (v1, t1 :: Y) := hvloc _
            have hk' : parseDictKey (t :: (tc :: (dv ++ (t1 :: Y)))) =
                .ok (k, tc :: (dv ++ (t1 :: Y))) := by
              rw [htk1]
              exact hkrep _
            simp [dictLoopF, hb, hk', expectTok, htc, hv', hcm, ← h.1]
    · -- parseListF
      intro ts v r h
      rcases hE : expectTok .LBRACKET ts with e | ⟨t0, ts1⟩
      · simp [parseListF, hE] at h
      obtain ⟨hts, hty0⟩ := expectTok_ok_iff.mp hE
      rcases ts1 with _ | ⟨t1, rest1⟩
      · simp [parseListF, hE] at h
      by_cases hb : t1.type = .RBRACKET
      · simp only [parseListF, hE, hb, if_true, Except.ok.injEq,
          Prod.mk.injEq] at h
        refine ⟨[t0, t1], by simp, by simp [hts, h.2], fun Y => ?_⟩
        simp [parseListF, expectTok, hty0, hb, ← h.1]
      · rcases hDL : listLoopF f (t1 :: rest1) with e2 | ⟨vs2, ts2⟩
        · simp [parseListF, hE, hb, hDL] at h
        obtain ⟨d2, t2, rr2, hts1, hr2, hloc2⟩ := ihLL _ _ _ hDL
        rcases hE2 : expectTok .RBRACKET ts2 with e3 | ⟨t3, ts3⟩
        · simp [parseListF, hE, hb, hDL, hE2] at h
        obtain ⟨hts2, hty3⟩ := expectTok_ok_iff.mp hE2
        simp only [parseListF, hE, hb, if_false, hDL, hE2, Except.ok.injEq,
          Prod.mk.injEq] at h
        rw [hr2] at hts2
        injection hts2 with ht23 hrr2
        rcases d2 with _ | ⟨u2, d2'⟩
        · injection hts1 with hx
          exact absurd (hx ▸ hb) (by rw [ht23, hty3]; simp)
        injection hts1 with hu hrest1
        refine ⟨t0 :: (u2 :: d2') ++ [t2], by simp, ?_, fun Y => ?_⟩
        · rw [hts, hrest1, ← h.2, ← hrr2]
          simp [hu]
        · have hu2 : ¬ u2.type = .RBRACKET := by rw [← hu]; exact hb
          have ht2 : t2.type = .RBRACKET := by rw [ht23, hty3]
          simp only [List.cons_append, List.append_assoc,
            List.singleton_append]
          simp [parseListF, expectTok, hty0, hu2, ht2, ← h.1]
          have hloc2' : listLoopF f (u2 :: (d2' ++ t2 :: Y)) =
              Except.ok (vs2, t2 :: Y) := by simpa using hloc2 Y
          rw [hloc2']
          simp [ht2]
    · -- parseTupleF
      intro ts v r h
      rcases hE : expectTok .LPAREN ts with e | ⟨t0, ts1⟩
      · simp [parseTupleF, hE] at h
      obtain ⟨hts, hty0⟩ := expectTok_ok_iff.mp hE
      rcases ts1 with _ | ⟨t1, rest1⟩
      · simp [parseTupleF, hE] at h
      by_cases hb : t1.type = .RPAREN
      · simp only [parseTupleF, hE, hb, if_true, Except.ok.injEq,
          Prod.mk.injEq] at h
        refine ⟨[t0, t1], by simp, by simp [hts, h.2], fun Y => ?_⟩
        simp [parseTupleF, expectTok, hty0, hb, ← h.1]
      · rcases hDL : tupleLoopF f (t1 :: rest1) with e2 | ⟨vs2, ts2⟩
        · simp [parseTupleF, hE, hb, hDL] at h
        obtain ⟨d2, t2, rr2, hts1, hr2, hloc2⟩ := ihTL _ _ _ hDL
        rcases hE2 : expectTok .RPAREN ts2 with e3 | ⟨t3, ts3⟩
        · simp [parseTupleF, hE, hb, hDL, hE2] at h
        obtain ⟨hts2, hty3⟩ := expectTok_ok_iff.mp hE2
        simp only [parseTupleF, hE, hb, if_false, hDL, hE2, Except.ok.injEq,
          Prod.mk.injEq] at h
        rw [hr2] at hts2
        injection hts2 with ht23 hrr2
        rcases d2 with _ | ⟨u2, d2'⟩
        · injection hts1 with hx
          exact absurd (hx ▸ hb) (by rw [ht23, hty3]; simp)
        injection hts1 with hu hrest1
        refine ⟨t0 :: (u2 :: d2') ++ [t2], by simp, ?_, fun Y => ?_⟩
        · rw [hts, hrest1, ← h.2, ← hrr2]
          simp [hu]
        · have hu2 : ¬ u2.type = .RPAREN := by rw [← hu]; exact hb
          have ht2 : t2.type = .RPAREN := by rw [ht23, hty3]
          simp only [List.cons_append, List.append_assoc,
            List.singleton_append]
          simp [parseTupleF, expectTok, hty0, hu2, ht2, ← h.1]
          have hloc2' : tupleLoopF f (u2 :: (d2' ++ t2 :: Y)) =
              Except.ok (vs2, t2 :: Y) := by simpa using hloc2 Y
          rw [hloc2']
          simp [ht2]
    · -- listLoopF
      intro ts vs r h
      rcases ts with _ | ⟨t, rest⟩
      · simp [listLoopF] at h
      by_cases hb : t.type = .RBRACKET
      · simp only [listLoopF, hb, if_true, Except.ok.injEq,
          Prod.mk.injEq] at h
        refine ⟨[], t, rest, by simp, by rw [← h.2], fun Y => ?_⟩
        simp [listLoopF, hb, ← h.1]
      · rcases hPV : parseValueF f (t :: rest) with e | ⟨v1, ts1⟩
        · simp [listLoopF, hb, hPV] at h
        obtain ⟨dv, hdvne, hts, hvloc⟩ := ihV _ _ _ hPV
        rcases dv with _ | ⟨u, dv'⟩
        · exact absurd rfl hdvne
        injection hts with htu hrest
        rcases ts1 with _ | ⟨t1, rest1⟩
        · simp [listLoopF, hb, hPV] at h
        by_cases hcm : t1.type = .COMMA
        · rcases hLL : listLoopF f rest1 with e2 | ⟨vs2, ts2⟩
          · simp [listLoopF, hb, hPV, hcm, hLL] at h
          simp only [listLoopF, hb, if_false, hPV, hcm, if_true, hLL,
            Except.ok.injEq, Prod.mk.injEq] at h
          obtain ⟨dr, tr, rrr, hrest1, hrr, hrloc⟩ := ihLL _ _ _ hLL
          refine ⟨(u :: dv') ++ t1 :: dr, tr, rrr, ?_, ?_, fun Y => ?_⟩
          · rw [hrest1] at hrest
            rw [← htu, hrest]
            simp
          · rw [← h.2, hrr]
          · have hbu : ¬ u.type = .RBRACKET := by rw [← htu]; exact hb
            have hv' : parseValueF f
                (u :: (dv' ++ (t1 :: (dr ++ tr :: Y)))) =
                .ok (v1, t1 :: (dr ++ tr :: Y)) := by simpa using hvloc _
            have hr' : listLoopF f (dr ++ tr :: Y) =
                .ok (vs2, tr :: Y) := by simpa using hrloc Y
            simp only [List.cons_append, List.append_assoc]
            simp [listLoopF, hbu, hv', hcm, hr', ← h.1]
        · simp only [listLoopF, hb, if_false, hPV, hcm,
            Except.ok.injEq, Prod.mk.injEq] at h
          refine ⟨u :: dv', t1, rest1, ?_, by rw [← h.2], fun Y => ?_⟩
          · rw [← htu, hrest]
            simp
          · have hbu : ¬ u.type = .RBRACKET := by rw [← htu]; exact hb
            have hv' : parseValueF f (u :: (dv' ++ (t1 :: Y))) =
                .ok (v1, t1 :: Y) := by simpa using hvloc _
            simp only [List.cons_append, List.append_assoc]
            simp [listLoopF, hbu, hv', hcm, ← h.1]
    · -- tupleLoopF
      intro ts vs r h
      rcases ts with _ | ⟨t, rest⟩
      · simp [tupleLoopF] at h
      by_cases hb : t.type = .RPAREN
      · simp only [tupleLoopF, hb, if_true, Except.ok.injEq,
          Prod.mk.injEq] at h
        refine ⟨[], t, rest, by simp, by rw [← h.2], fun Y => ?_⟩
        simp [tupleLoopF, hb, ← h.1]
      · rcases hPV : parseValueF f (t :: rest) with e | ⟨v1, ts1⟩
        · simp [tupleLoopF, hb, hPV] at h
        obtain ⟨dv, hdvne, hts, hvloc⟩ := ihV _ _ _ hPV
        rcases dv with _ | ⟨u, dv'⟩
        · exact absurd rfl hdvne
        injection hts with htu hrest
        rcases ts1 with _ | ⟨t1, rest1⟩
        · simp [tupleLoopF, hb, hPV] at h
        by_cases hcm : t1.type = .COMMA
        · rcases hLL : tupleLoopF f rest1 with e2 | ⟨vs2, ts2⟩
          · simp [tupleLoopF, hb, hPV, hcm, hLL] at h
          simp only [tupleLoopF, hb, if_false, hPV, hcm, if_true, hLL,
            Except.ok.injEq, Prod.mk.injEq] at h
          obtain ⟨dr, tr, rrr, hrest1, hrr, hrloc⟩ := ihTL _ _ _ hLL
          refine ⟨(u :: dv') ++ t1 :: dr, tr, rrr, ?_, ?_, fun Y => ?_⟩
          · rw [hrest1] at hrest
            rw [← htu, hrest]
            simp
          · rw [← h.2, hrr]
          · have hbu : ¬ u.type = .RPAREN := by rw [← htu]; exact hb
            have hv' : parseValueF f
                (u :: (dv' ++ (t1 :: (dr ++ tr :: Y)))) =
                .ok (v1, t1 :: (dr ++ tr :: Y)) := by simpa using hvloc _
            have hr' : tupleLoopF f (dr ++ tr :: Y) =
                .ok (vs2, tr :: Y) := by simpa using hrloc Y
            simp only [List.cons_append, List.append_assoc]
            simp [tupleLoopF, hbu, hv', hcm, hr', ← h.1]
        · simp only [tupleLoopF, hb, if_false, hPV, hcm,
            Except.ok.injEq, Prod.mk.injEq] at h
          refine ⟨u :: dv', t1, rest1, ?_, by rw [← h.2], fun Y => ?_⟩
          · rw [← htu, hrest]
            simp
          · have hbu : ¬ u.type = .RPAREN := by rw [← htu]; exact hb
            have hv' : parseValueF f (u :: (dv' ++ (t1 :: Y))) =
                .ok (v1, t1 :: Y) := by simpa using hvloc _
            simp only [List.cons_append, List.append_assoc]
            simp [tupleLoopF, hbu, hv', hcm, ← h.1]

/-- A successful value parse used positive fuel. -/
theorem parseValueF_ok_pos {f : Nat} {ts : List Token}
    {p : Value × List Token} (h : parseValueF f ts = .ok p) : 0 < f := by
  cases f with
  | zero => simp [parseValueF] at h
  | succ f => exact Nat.succ_pos f

/-- The last element of an append with nonempty right part. -/
theorem getLast_append_ne {α : Type} (a b : List α) (h : b ≠ []) :
    (a ++ b).getLast? = b.getLast? := by
  rw [List.getLast?_append]
  rcases hb : b.getLast? with _ | x
  · exact absurd (List.getLast?_eq_none_iff.mp hb) h
  · rfl

/-- Inserting one trailing comma before the closing bracket of a list whose
element loop consumed at least one token, and whose last consumed token is
not already a comma, replays the loop to the same elements. -/
theorem listLoop_comma : ∀ (f : Nat) (d : List Token) (t : Token)
    (rr : List Token) (vs : List Value),
    listLoopF f (d ++ t :: rr) = .ok (vs, t :: rr) →
    t.type = .RBRACKET → d ≠ [] →
    (∀ u, d.getLast? = some u → ¬ u.type = .COMMA) →
    ∀ (tC : Token) (Y : List Token), tC.type = .COMMA →
    listLoopF f (d ++ tC :: t :: Y) = .ok (vs, t :: Y) := by
  intro f
  induction f with
  | zero =>
    intro d t rr vs h
    simp [listLoopF] at h
  | succ f ih =>
    intro d t rr vs h htR hdne hlast tC Y htC
    rcases d with _ | ⟨u, d2⟩
    · exact absurd rfl hdne
    by_cases hbu : u.type = .RBRACKET
    · simp only [List.cons_append, listLoopF, hbu, if_true,
        Except.ok.injEq, Prod.mk.injEq] at h
      have := congrArg List.length h.2
      simp at this
      omega
    simp only [List.cons_append, listLoopF, hbu, if_false] at h
    rcases hPV : parseValueF f (u :: (d2 ++ t :: rr)) with e | ⟨v1, ts1⟩
    · simp only [hPV] at h
      exact absurd h (by simp)
    have hfpos : 0 < f := parseValueF_ok_pos hPV
    obtain ⟨dv, hdvne, hsplit, hvloc⟩ := (parse_localize f).1 _ _ _ hPV
    rcases dv with _ | ⟨w, dv'⟩
    · exact absurd rfl hdvne
    injection hsplit with huw hsplit2
    rcases ts1 with _ | ⟨t1, rest1⟩
    · simp only [hPV] at h
      exact absurd h (by simp)
    by_cases hcm1 : t1.type = .COMMA
    · rcases hLL : listLoopF f rest1 with e2 | ⟨vs2, ts2⟩
      · simp only [hPV, hcm1, if_true, hLL] at h
        exact absurd h (by simp)
      simp only [hPV, hcm1, if_true, hLL, Except.ok.injEq,
        Prod.mk.injEq] at h
      obtain ⟨hvs, hts2⟩ := h
      obtain ⟨dr, tr, rrr, hrest1, hrr, _⟩ :=
        (parse_localize f).2.2.2.2.2.1 _ _ _ hLL
      rw [hts2] at hrr
      injection hrr with htr hrrr
      rw [← htr, ← hrrr] at hrest1
      have hd2 : d2 = dv' ++ t1 :: dr := by
        apply @List.append_cancel_right _ _ (t :: rr) _
        rw [hsplit2, hrest1]
        simp
      rcases dr with _ | ⟨x, dr'⟩
      · have hlt1 : (u :: d2).getLast? = some t1 := by
          rw [hd2]
          have h2 : u :: (dv' ++ t1 :: ([] : List Token)) =
              (u :: dv') ++ [t1] := by simp
          rw [h2]
          exact List.getLast?_concat _
        exact absurd hcm1 (hlast t1 hlt1)
      have hLL' : listLoopF f ((x :: dr') ++ t :: rr) = .ok (vs2, t :: rr) := by
        rw [← hrest1, hLL, hts2]
      have hlast' : ∀ u', (x :: dr').getLast? = some u' →
          ¬ u'.type = .COMMA := by
        intro u' hu'
        refine hlast u' ?_
        rw [hd2]
        have : u :: (dv' ++ t1 :: (x :: dr')) =
            (u :: dv' ++ [t1]) ++ (x :: dr') := by simp
        rw [this, getLast_append_ne _ _ (by simp), hu']
      have hRep := ih (x :: dr') t rr vs2 hLL' htR (by simp) hlast' tC Y htC
      have hv' : parseValueF f (u :: (d2 ++ (tC :: (t :: Y)))) =
          .ok (v1, t1 :: ((x :: dr') ++ tC :: t :: Y)) := by
        have := hvloc (t1 :: ((x :: dr') ++ tC :: t :: Y))
        rw [huw, hd2]
        simpa using this
      have hr' : listLoopF f (x :: (dr' ++ tC :: t :: Y)) =
          .ok (vs2, t :: Y) := by simpa using hRep
      simp only [List.cons_append, listLoopF, hbu, if_false]
      simp [hv', hcm1, hr', ← hvs]
    · simp only [hPV, hcm1, if_false, Except.ok.injEq, Prod.mk.injEq] at h
      obtain ⟨hvs, hts1⟩ := h
      injection hts1 with ht1 hrest1
      have hd2 : d2 = dv' := by
        apply @List.append_cancel_right _ _ (t :: rr) _
        rw [hsplit2, ht1, hrest1]
        rfl
      have hv' : parseValueF f (u :: (d2 ++ (tC :: (t :: Y)))) =
          .ok (v1, tC :: (t :: Y)) := by
        have := hvloc (tC :: (t :: Y))
        rw [huw, hd2]
        simpa using this
      have hstop : listLoopF f (t :: Y) = .ok ([], t :: Y) := by
        match f, hfpos with
        | f' + 1, _ => simp [listLoopF, htR]
      simp only [List.cons_append, listLoopF, hbu, if_false]
      simp [hv', htC, hstop, ← hvs]

/-- Inserting one trailing comma before the closing parenthesis of a tuple whose
element loop consumed at least one token, and whose last consumed token is
not already a comma, replays the loop to the same elements. -/
theorem tupleLoop_comma : ∀ (f : Nat) (d : List Token) (t : Token)
    (rr : List Token) (vs : List Value),
    tupleLoopF f (d ++ t :: rr) = .ok (vs, t :: rr) →
    t.type = .RPAREN → d ≠ [] →
    (∀ u, d.getLast? = some u → ¬ u.type = .COMMA) →
    ∀ (tC : Token) (Y : List Token), tC.type = .COMMA →
    tupleLoopF f (d ++ tC :: t :: Y) = .ok (vs, t :: Y) := by
  intro f
  induction f with
  | zero =>
    intro d t rr vs h
    simp [tupleLoopF] at h
  | succ f ih =>
    intro d t rr vs h htR hdne hlast tC Y htC
    rcases d with _ | ⟨u, d2⟩
    · exact absurd rfl hdne
    by_cases hbu : u.type = .RPAREN
    · simp only [List.cons_append, tupleLoopF, hbu, if_true,
        Except.ok.injEq, Prod.mk.injEq] at h
      have := congrArg List.length h.2
      simp at this
      omega
    simp only [List.cons_append, tupleLoopF, hbu, if_false] at h
    rcases hPV : parseValueF f (u :: (d2 ++ t :: rr)) with e | ⟨v1, ts1⟩
    · simp only [hPV] at h
      exact absurd h (by simp)
    have hfpos : 0 < f := parseValueF_ok_pos hPV
    obtain ⟨dv, hdvne, hsplit, hvloc⟩ := (parse_localize f).1 _ _ _ hPV
    rcases dv with _ | ⟨w, dv'⟩
    · exact absurd rfl hdvne
    injection hsplit with huw hsplit2
    rcases ts1 with _ | ⟨t1, rest1⟩
    · simp only [hPV] at h
      exact absurd h (by simp)
    by_cases hcm1 : t1.type = .COMMA
    · rcases hLL : tupleLoopF f rest1 with e2 | ⟨vs2, ts2⟩
      · simp only [hPV, hcm1, if_true, hLL] at h
        exact absurd h (by simp)
      simp only [hPV, hcm1, if_true, hLL, Except.ok.injEq,
        Prod.mk.injEq] at h
      obtain ⟨hvs, hts2⟩ := h
      obtain ⟨dr, tr, rrr, hrest1, hrr, _⟩ :=
        (parse_localize f).2.2.2.2.2.2 _ _ _ hLL
      rw [hts2] at hrr
      injection hrr with htr hrrr
      rw [← htr, ← hrrr] at hrest1
      have hd2 : d2 = dv' ++ t1 :: dr := by
        apply @List.append_cancel_right _ _ (t :: rr) _
        rw [hsplit2, hrest1]
        simp
      rcases dr with _ | ⟨x, dr'⟩
      · have hlt1 : (u :: d2).getLast? = some t1 := by
          rw [hd2]
          have h2 : u :: (dv' ++ t1 :: ([] : List Token)) =
              (u :: dv') ++ [t1] := by simp
          rw [h2]
          exact List.getLast?_concat _
        exact absurd hcm1 (hlast t1 hlt1)
      have hLL' : tupleLoopF f ((x :: dr') ++ t :: rr) = .ok (vs2, t :: rr) := by
        rw [← hrest1, hLL, hts2]
      have hlast' : ∀ u', (x :: dr').getLast? = some u' →
          ¬ u'.type = .COMMA := by
        intro u' hu'
        refine hlast u' ?_
        rw [hd2]
        have : u :: (dv' ++ t1 :: (x :: dr')) =
            (u :: dv' ++ [t1]) ++ (x :: dr') := by simp
        rw [this, getLast_append_ne _ _ (by simp), hu']
      have hRep := ih (x :: dr') t rr vs2 hLL' htR (by simp) hlast' tC Y htC
      have hv' : parseValueF f (u :: (d2 ++ (tC :: (t :: Y)))) =
          .ok (v1, t1 :: ((x :: dr') ++ tC :: t :: Y)) := by
        have := hvloc (t1 :: ((x :: dr') ++ tC :: t :: Y))
        rw [huw, hd2]
        simpa using this
      have hr' : tupleLoopF f (x :: (dr' ++ tC :: t :: Y)) =
          .ok (vs2, t :: Y) := by simpa using hRep
      simp only [List.cons_append, tupleLoopF, hbu, if_false]
      simp [hv', hcm1, hr', ← hvs]
    · simp only [hPV, hcm1, if_false, Except.ok.injEq, Prod.mk.injEq] at h
      obtain ⟨hvs, hts1⟩ := h
      injection hts1 with ht1 hrest1
      have hd2 : d2 = dv' := by
        apply @List.append_cancel_right _ _ (t :: rr) _
        rw [hsplit2, ht1, hrest1]
        rfl
      have hv' : parseValueF f (u :: (d2 ++ (tC :: (t :: Y)))) =
          .ok (v1, tC :: (t :: Y)) := by
        have := hvloc (tC :: (t :: Y))
        rw [huw, hd2]
        simpa using this
      have hstop : tupleLoopF f (t :: Y) = .ok ([], t :: Y) := by
        match f, hfpos with
        | f' + 1, _ => simp [tupleLoopF, htR]
      simp only [List.cons_append, tupleLoopF, hbu, if_false]
      simp [hv', htC, hstop, ← hvs]

/-- Inserting one trailing comma before the closing brace of a dict whose
key/value loop consumed at least one token, and whose last consumed token is
not already a comma, replays the loop to the same entries. -/
theorem dictLoop_comma : ∀ (f : Nat) (m : List (List Char × Value))
    (d : List Token) (t : Token) (rr : List Token)
    (m' : List (List Char × Value)),
    dictLoopF f m (d ++ t :: rr) = .ok (m', t :: rr) →
    t.type = .RBRACE → d ≠ [] →
    (∀ u, d.getLast? = some u → ¬ u.type = .COMMA) →
    ∀ (tC : Token) (Y : List Token), tC.type = .COMMA →
    dictLoopF f m (d ++ tC :: t :: Y) = .ok (m', t :: Y) := by
  intro f
  induction f with
  | zero =>
    intro m d t rr m' h
    simp [dictLoopF] at h
  | succ f ih =>
    intro m d t rr m' h htR hdne hlast tC Y htC
    rcases d with _ | ⟨u, d2⟩
    · exact absurd rfl hdne
    by_cases hbu : u.type = .RBRACE
    · simp only [List.cons_append, dictLoopF, hbu, if_true,
        Except.ok.injEq, Prod.mk.injEq] at h
      have := congrArg List.length h.2
      simp at this
      omega
    simp only [List.cons_append, dictLoopF, hbu, if_false] at h
    rcases hPK : parseDictKey (u :: (d2 ++ t :: rr)) with e | ⟨k, ts1⟩
    · simp only [hPK] at h
      exact absurd h (by simp)
    obtain ⟨tk, htk, htkty, hkrep⟩ := parseDictKey_ok hPK
    injection htk with htku hts1
    rcases hE1 : expectTok .COLON ts1 with e | ⟨tc, ts2⟩
    · simp only [hPK, hE1] at h
      exact absurd h (by simp)
    obtain ⟨hts1c, htc⟩ := expectTok_ok_iff.mp hE1
    rw [hts1c] at hts1
    rcases d2 with _ | ⟨c2, d3⟩
    · injection hts1 with he1 he2
      rw [← he1, htR] at htc
      exact absurd htc (by simp)
    injection hts1 with hc2 hts2
    rcases hPV : parseValueF f ts2 with e | ⟨v1, ts3⟩
    · simp only [hPK, hE1, hPV] at h
      exact absurd h (by simp)
    have hfpos : 0 < f := parseValueF_ok_pos hPV
    obtain ⟨dv, hdvne, hsplitv, hvloc⟩ := (parse_localize f).1 _ _ _ hPV
    rcases ts3 with _ | ⟨t1, rest3⟩
    · simp only [hPK, hE1, hPV] at h
      exact absurd h (by simp)
    rw [← hts2] at hsplitv
    by_cases hcm1 : t1.type = .COMMA
    · simp only [hPK, hE1, hPV, hcm1, if_true] at h
      obtain ⟨dr, tr, rrr, hrest3, hrem, _⟩ :=
        (parse_localize f).2.2.1 _ _ _ _ h
      injection hrem with htr hrrr
      rw [← htr, ← hrrr] at hrest3
      have hd3 : d3 = dv ++ t1 :: dr := by
        apply @List.append_cancel_right _ _ (t :: rr) _
        rw [show d3 ++ t :: rr = dv ++ t1 :: rest3 from hsplitv, hrest3]
        simp
      rcases dr with _ | ⟨x, dr'⟩
      · have hlt1 : (u :: c2 :: d3).getLast? = some t1 := by
          rw [hd3]
          have h2 : u :: c2 :: (dv ++ t1 :: ([] : List Token)) =
              (u :: c2 :: dv) ++ [t1] := by simp
          rw [h2]
          exact List.getLast?_concat _
        exact absurd hcm1 (hlast t1 hlt1)
      have hLL' : dictLoopF f (recordSet m k v1) ((x :: dr') ++ t :: rr) =
          .ok (m', t :: rr) := by
        rw [← hrest3, h]
      have hlast' : ∀ u', (x :: dr').getLast? = some u' →
          ¬ u'.type = .COMMA := by
        intro u' hu'
        refine hlast u' ?_
        rw [hd3]
        have h2 : u :: c2 :: (dv ++ t1 :: (x :: dr')) =
            (u :: c2 :: dv ++ [t1]) ++ (x :: dr') := by simp
        rw [h2, getLast_append_ne _ _ (by simp), hu']
      have hRep := ih (recordSet m k v1) (x :: dr') t rr m' hLL' htR
        (by simp) hlast' tC Y htC
      have hk' : parseDictKey
          (u :: (c2 :: (d3 ++ (tC :: (t :: Y))))) =
          .ok (k, c2 :: (d3 ++ (tC :: (t :: Y)))) := by
        rw [htku]
        exact hkrep _
      have hv' : parseValueF f (d3 ++ (tC :: (t :: Y))) =
          .ok (v1, t1 :: (x :: (dr' ++ tC :: t :: Y))) := by
        have := hvloc (t1 :: (x :: (dr' ++ tC :: t :: Y)))
        rw [hd3]
        simpa using this
      have hr' : dictLoopF f (recordSet m k v1)
          (x :: (dr' ++ tC :: t :: Y)) = .ok (m', t :: Y) := by
        simpa using hRep
      have hc2t : c2.type = .COLON := by rw [hc2]; exact htc
      simp only [List.cons_append, dictLoopF, hbu, if_false]
      simp [hk', expectTok, hc2t, hv', hcm1, hr']
    · simp only [hPK, hE1, hPV, hcm1, if_false, Except.ok.injEq,
        Prod.mk.injEq] at h
      obtain ⟨hm, hts3⟩ := h
      injection hts3 with ht1 hrest3
      have hd3 : d3 = dv := by
        apply @List.append_cancel_right _ _ (t :: rr) _
        rw [show d3 ++ t :: rr = dv ++ t1 :: rest3 from hsplitv, ht1,
          hrest3]
      have hk' : parseDictKey
          (u :: (c2 :: (d3 ++ (tC :: (t :: Y))))) =
          .ok (k, c2 :: (d3 ++ (tC :: (t :: Y)))) := by
        rw [htku]
        exact hkrep _
      have hv' : parseValueF f (d3 ++ (tC :: (t :: Y))) =
          .ok (v1, tC :: (t :: Y)) := by
        have := hvloc (tC :: (t :: Y))
        rw [hd3]
        simpa using this
      have hc2t : c2.type = .COLON := by rw [hc2]; exact htc
      have hstop : dictLoopF f (recordSet m k v1) (t :: Y) =
          .ok (recordSet m k v1, t :: Y) := by
        match f, hfpos with
        | f' + 1, _ => simp [dictLoopF, htR]
      simp only [List.cons_append, dictLoopF, hbu, if_false]
      simp [hk', expectTok, hc2t, hv', htC, hstop, ← hm]


/-- Trailing-comma insertion for a nonempty list literal, stated at the
`parseList` entry point. -/
theorem parseList_comma (f : Nat) (ts r : List Token) (vs : List Value)
    (h : parseListF f ts = .ok (.arr vs, r)) (hne : vs ≠ []) :
    ∃ d rb, rb.type = .RBRACKET ∧ ts = d ++ rb :: r ∧
      ((∀ u, d.getLast? = some u → ¬ u.type = .COMMA) →
        ∀ (tC : Token) (Y : List Token), tC.type = .COMMA →
          parseListF f (d ++ tC :: rb :: Y) = .ok (.arr vs, Y)) := by
  match f with
  | 0 => simp [parseListF] at h
  | f + 1 =>
  rcases hE : expectTok .LBRACKET ts with e | ⟨t0, ts1⟩
  · simp [parseListF, hE] at h
  obtain ⟨hts, hty0⟩ := expectTok_ok_iff.mp hE
  rcases ts1 with _ | ⟨t1, rest1⟩
  · simp [parseListF, hE] at h
  by_cases hb : t1.type = .RBRACKET
  · simp only [parseListF, hE, hb, if_true, Except.ok.injEq,
      Prod.mk.injEq, Value.arr.injEq] at h
    exact absurd h.1.symm hne
  rcases hLL : listLoopF f (t1 :: rest1) with e2 | ⟨vs2, ts2⟩
  · simp [parseListF, hE, hb, hLL] at h
  obtain ⟨d2, t2, rr2, hsplit, hr2, _⟩ :=
    (parse_localize f).2.2.2.2.2.1 _ _ _ hLL
  rcases hE2 : expectTok .RBRACKET ts2 with e3 | ⟨t3, ts3⟩
  · simp [parseListF, hE, hb, hLL, hE2] at h
  obtain ⟨hts2, hty3⟩ := expectTok_ok_iff.mp hE2
  simp only [parseListF, hE, hb, if_false, hLL, hE2, Except.ok.injEq,
    Prod.mk.injEq, Value.arr.injEq] at h
  rw [hr2] at hts2
  injection hts2 with ht23 hrr2
  rcases d2 with _ | ⟨u2, d2'⟩
  · injection hsplit with hx
    exact absurd (hx ▸ hb) (by rw [ht23, hty3]; simp)
  injection hsplit with hu hrest1
  refine ⟨t0 :: (u2 :: d2'), t2, by rw [ht23, hty3], ?_, ?_⟩
  · rw [hts, hrest1, ← h.2, ← hrr2]
    simp [hu]
  · intro hlast tC Y htC
    have hlast' : ∀ u, (u2 :: d2').getLast? = some u →
        ¬ u.type = .COMMA := by
      intro u hu
      refine hlast u ?_
      have h2 : t0 :: (u2 :: d2') = [t0] ++ (u2 :: d2') := by simp
      rw [h2, getLast_append_ne _ _ (by simp), hu]
    have hLL2 : listLoopF f ((u2 :: d2') ++ t2 :: rr2) =
        .ok (vs, t2 :: rr2) := by
      have hr1 : rest1 = d2' ++ t2 :: rr2 := hrest1
      rw [show (u2 :: d2') ++ t2 :: rr2 = t1 :: rest1 from by simp [hr1, hu]]
      rw [hLL, hr2, h.1]
    have hRep := listLoop_comma f (u2 :: d2') t2 rr2 vs hLL2
      (by rw [ht23, hty3]) (by simp) hlast' tC Y htC
    have hu2 : ¬ u2.type = .RBRACKET := by rw [← hu]; exact hb
    have hr' : listLoopF f (u2 :: (d2' ++ tC :: t2 :: Y)) =
        .ok (vs, t2 :: Y) := by simpa using hRep
    have ht2R : t2.type = .RBRACKET := by rw [ht23, hty3]
    simp only [List.cons_append, List.append_assoc]
    simp [parseListF, expectTok, hty0, hu2, hr', ht2R]

/-- Trailing-comma insertion for a nonempty tuple literal, stated at the
`parseTuple` entry point. -/
theorem parseTuple_comma (f : Nat) (ts r : List Token) (vs : List Value)
    (h : parseTupleF f ts = .ok (.arr vs, r)) (hne : vs ≠ []) :
    ∃ d rb, rb.type = .RPAREN ∧ ts = d ++ rb :: r ∧
      ((∀ u, d.getLast? = some u → ¬ u.type = .COMMA) →
        ∀ (tC : Token) (Y : List Token), tC.type = .COMMA →
          parseTupleF f (d ++ tC :: rb :: Y) = .ok (.arr vs, Y)) := by
  match f with
  | 0 => simp [parseTupleF] at h
  | f + 1 =>
  rcases hE : expectTok .LPAREN ts with e | ⟨t0, ts1⟩
  · simp [parseTupleF, hE] at h
  obtain ⟨hts, hty0⟩ := expectTok_ok_iff.mp hE
  rcases ts1 with _ | ⟨t1, rest1⟩
  · simp [parseTupleF, hE] at h
  by_cases hb : t1.type = .RPAREN
  · simp only [parseTupleF, hE, hb, if_true, Except.ok.injEq,
      Prod.mk.injEq, Value.arr.injEq] at h
    exact absurd h.1.symm hne
  rcases hLL : tupleLoopF f (t1 :: rest1) with e2 | ⟨vs2, ts2⟩
  · simp [parseTupleF, hE, hb, hLL] at h
  obtain ⟨d2, t2, rr2, hsplit, hr2, _⟩ :=
    (parse_localize f).2.2.2.2.2.2 _ _ _ hLL
  rcases hE2 : expectTok .RPAREN ts2 with e3 | ⟨t3, ts3⟩
  · simp [parseTupleF, hE, hb, hLL, hE2] at h
  obtain ⟨hts2, hty3⟩ := expectTok_ok_iff.mp hE2
  simp only [parseTupleF, hE, hb, if_false, hLL, hE2, Except.ok.injEq,
    Prod.mk.injEq, Value.arr.injEq] at h
  rw [hr2] at hts2
  injection hts2 with ht23 hrr2
  rcases d2 with _ | ⟨u2, d2'⟩
  · injection hsplit with hx
    exact absurd (hx ▸ hb) (by rw [ht23, hty3]; simp)
  injection hsplit with hu hrest1
  refine ⟨t0 :: (u2 :: d2'), t2, by rw [ht23, hty3], ?_, ?_⟩
  · rw [hts, hrest1, ← h.2, ← hrr2]
    simp [hu]
  · intro hlast tC Y htC
    have hlast' : ∀ u, (u2 :: d2').getLast? = some u →
        ¬ u.type = .COMMA := by
      intro u hu
      refine hlast u ?_
      have h2 : t0 :: (u2 :: d2') = [t0] ++ (u2 :: d2') := by simp
      rw [h2, getLast_append_ne _ _ (by simp), hu]
    have hLL2 : tupleLoopF f ((u2 :: d2') ++ t2 :: rr2) =
        .ok (vs, t2 :: rr2) := by
      have hr1 : rest1 = d2' ++ t2 :: rr2 := hrest1
      rw [show (u2 :: d2') ++ t2 :: rr2 = t1 :: rest1 from by simp [hr1, hu]]
      rw [hLL, hr2, h.1]
    have hRep := tupleLoop_comma f (u2 :: d2') t2 rr2 vs hLL2
      (by rw [ht23, hty3]) (by simp) hlast' tC Y htC
    have hu2 : ¬ u2.type = .RPAREN := by rw [← hu]; exact hb
    have hr' : tupleLoopF f (u2 :: (d2' ++ tC :: t2 :: Y)) =
        .ok (vs, t2 :: Y) := by simpa using hRep
    have ht2R : t2.type = .RPAREN := by rw [ht23, hty3]
    simp only [List.cons_append, List.append_assoc]
    simp [parseTupleF, expectTok, hty0, hu2, hr', ht2R]

/-- Trailing-comma insertion for a nonempty dict literal, stated at the
`parseDict` entry point. -/
theorem parseDict_comma (f : Nat) (ts r : List Token)
    (m : List (List Char × Value))
    (h : parseDictF f ts = .ok (.obj m, r)) (hne : m ≠ []) :
    ∃ d rb, rb.type = .RBRACE ∧ ts = d ++ rb :: r ∧
      ((∀ u, d.getLast? = some u → ¬ u.type = .COMMA) →
        ∀ (tC : Token) (Y : List Token), tC.type = .COMMA →
          parseDictF f (d ++ tC :: rb :: Y) = .ok (.obj m, Y)) := by
  match f with
  | 0 => simp [parseDictF] at h
  | f + 1 =>
  rcases hE : expectTok .LBRACE ts with e | ⟨t0, ts1⟩
  · simp [parseDictF, hE] at h
  obtain ⟨hts, hty0⟩ := expectTok_ok_iff.mp hE
  rcases ts1 with _ | ⟨t1, rest1⟩
  · simp [parseDictF, hE] at h
  by_cases hb : t1.type = .RBRACE
  · simp only [parseDictF, hE, hb, if_true, Except.ok.injEq,
      Prod.mk.injEq, Value.obj.injEq] at h
    exact absurd h.1.symm hne
  rcases hLL : dictLoopF f [] (t1 :: rest1) with e2 | ⟨m2, ts2⟩
  · simp [parseDictF, hE, hb, hLL] at h
  obtain ⟨d2, t2, rr2, hsplit, hr2, _⟩ :=
    (parse_localize f).2.2.1 _ _ _ _ hLL
  rcases hE2 : expectTok .RBRACE ts2 with e3 | ⟨t3, ts3⟩
  · simp [parseDictF, hE, hb, hLL, hE2] at h
  obtain ⟨hts2, hty3⟩ := expectTok_ok_iff.mp hE2
  simp only [parseDictF, hE, hb, if_false, hLL, hE2, Except.ok.injEq,
    Prod.mk.injEq, Value.obj.injEq] at h
  rw [hr2] at hts2
  injection hts2 with ht23 hrr2
  rcases d2 with _ | ⟨u2, d2'⟩
  · injection hsplit with hx
    exact absurd (hx ▸ hb) (by rw [ht23, hty3]; simp)
  injection hsplit with hu hrest1
  refine ⟨t0 :: (u2 :: d2'), t2, by rw [ht23, hty3], ?_, ?_⟩
  · rw [hts, hrest1, ← h.2, ← hrr2]
    simp [hu]
  · intro hlast tC Y htC
    have hlast' : ∀ u, (u2 :: d2').getLast? = some u →
        ¬ u.type = .COMMA := by
      intro u hu'
      refine hlast u ?_
      have h2 : t0 :: (u2 :: d2') = [t0] ++ (u2 :: d2') := by simp
      rw [h2, getLast_append_ne _ _ (by simp), hu']
    have hLL2 : dictLoopF f [] ((u2 :: d2') ++ t2 :: rr2) =
        .ok (m, t2 :: rr2) := by
      have hr1 : rest1 = d2' ++ t2 :: rr2 := hrest1
      rw [show (u2 :: d2') ++ t2 :: rr2 = t1 :: rest1 from by simp [hr1, hu]]
      rw [hLL, hr2, h.1]
    have hRep := dictLoop_comma f [] (u2 :: d2') t2 rr2 m hLL2
      (by rw [ht23, hty3]) (by simp) hlast' tC Y htC
    have hu2 : ¬ u2.type = .RBRACE := by rw [← hu]; exact hb
    have hr' : dictLoopF f [] (u2 :: (d2' ++ tC :: t2 :: Y)) =
        .ok (m, t2 :: Y) := by simpa using hRep
    have ht2R : t2.type = .RBRACE := by rw [ht23, hty3]
    simp only [List.cons_append, List.append_assoc]
    simp [parseDictF, expectTok, hty0, hu2, hr', ht2R]

/-- C6 counterexample: the empty list and empty dict literals are accepted,
but inserting a trailing comma before their closing delimiter is
rejected. -/
theorem trailing_comma_counterexample :
    pythonDictToJson "[]" 4 = .ok "[]" ∧
    pythonDictToJson "[,]" 4 =
      .error (.parse (.unexpectedToken ⟨.COMMA, [','], 1⟩)) ∧
    pythonDictToJson "\x7b\x7d" 4 = .ok "\x7b\x7d" ∧
    pythonDictToJson "\x7b,\x7d" 4 =
      .error (.parse (.invalidDictKey ⟨.COMMA, [','], 1⟩)) :=
  ⟨rfl, rfl, rfl, rfl⟩

/-- C6 (amended): for every nonempty dict, list, or tuple literal whose
last consumed token before the closing delimiter is not already a comma,
inserting a single trailing comma there leaves the parse result unchanged;
the concrete conversions with and without the trailing comma agree. -/
theorem trailing_comma_insensitive :
    (∀ f ts r m, parseDictF f ts = .ok (.obj m, r) → m ≠ [] →
      ∃ d rb, rb.type = .RBRACE ∧ ts = d ++ rb :: r ∧
        ((∀ u, d.getLast? = some u → ¬ u.type = .COMMA) →
          ∀ (tC : Token) (Y : List Token), tC.type = .COMMA →
            parseDictF f (d ++ tC :: rb :: Y) = .ok (.obj m, Y))) ∧
    (∀ f ts r vs, parseListF f ts = .ok (.arr vs, r) → vs ≠ [] →
      ∃ d rb, rb.type = .RBRACKET ∧ ts = d ++ rb :: r ∧
        ((∀ u, d.getLast? = some u → ¬ u.type = .COMMA) →
          ∀ (tC : Token) (Y : List Token), tC.type = .COMMA →
            parseListF f (d ++ tC :: rb :: Y) = .ok (.arr vs, Y))) ∧
    (∀ f ts r vs, parseTupleF f ts = .ok (.arr vs, r) → vs ≠ [] →
      ∃ d rb, rb.type = .RPAREN ∧ ts = d ++ rb :: r ∧
        ((∀ u, d.getLast? = some u → ¬ u.type = .COMMA) →
          ∀ (tC : Token) (Y : List Token), tC.type = .COMMA →
            parseTupleF f (d ++ tC :: rb :: Y) = .ok (.arr vs, Y))) ∧
    pythonDictToJson "\x7b'a': 1,\x7d" 4 =
      pythonDictToJson "\x7b'a': 1\x7d" 4 ∧
    pythonDictToJson "[1, 2,]" 4 = pythonDictToJson "[1, 2]" 4 ∧
    pythonDictToJson "(1, 2,)" 4 = pythonDictToJson "(1, 2)" 4 := by
  refine ⟨?_, ?_, ?_, rfl, rfl, rfl⟩
  · intro f ts r m h hne
    exact parseDict_comma f ts r m h hne
  · intro f ts r vs h hne
    exact parseList_comma f ts r vs h hne
  · intro f ts r vs h hne
    exact parseTuple_comma f ts r vs h hne

/-- Witness for C6 (amended) at a concrete one-element list token
stream. -/
theorem trailing_comma_insensitive_witness :
    ∃ d rb, rb.type = .RBRACKET ∧
      ([⟨.LBRACKET, ['['], 0⟩, ⟨.NUMBER, ['1'], 1⟩, ⟨.RBRACKET, [']'], 2⟩] :
        List Token) = d ++ rb :: [] ∧
      ((∀ u, d.getLast? = some u → ¬ u.type = .COMMA) →
        ∀ (tC : Token) (Y : List Token), tC.type = .COMMA →
          parseListF 3 (d ++ tC :: rb :: Y) =
            .ok (.arr [.num (.fin 1)], Y)) :=
  trailing_comma_insensitive.2.1 3
    [⟨.LBRACKET, ['['], 0⟩, ⟨.NUMBER, ['1'], 1⟩, ⟨.RBRACKET, [']'], 2⟩]
    [] [.num (.fin 1)] rfl (by simp)

/-- Overwriting an existing key keeps the key list (and hence every key's
creation position) unchanged. -/
theorem recordSet_keys_mem (m : List (List Char × Value)) (k : List Char)
    (v : Value) (h : k ∈ m.map Prod.fst) :
    (recordSet m k v).map Prod.fst = m.map Prod.fst := by
  induction m with
  | nil => simp at h
  | cons e rest ih =>
    rcases e with ⟨k', v'⟩
    by_cases hk : k' = k
    · simp [recordSet, hk]
    · simp only [List.map_cons, List.mem_cons] at h
      rcases h with h | h
    -- the head key differs, so membership comes from the tail
      · exact absurd h.symm hk
      · simp [recordSet, hk, ih h]

/-- Setting a fresh key appends it after all existing keys. -/
theorem recordSet_keys_new (m : List (List Char × Value)) (k : List Char)
    (v : Value) (h : ¬ k ∈ m.map Prod.fst) :
    (recordSet m k v).map Prod.fst = m.map Prod.fst ++ [k] := by
  induction m with
  | nil => simp [recordSet]
  | cons e rest ih =>
    rcases e with ⟨k', v'⟩
    simp only [List.map_cons, List.mem_cons] at h
    push_neg at h
    have hne : ¬ k' = k := fun hc => h.1 hc.symm
    simp [recordSet, hne, ih h.2]

/-- After `recordSet`, looking the key up yields the new value. -/
theorem recordSet_lookup (m : List (List Char × Value)) (k : List Char)
    (v : Value) : (recordSet m k v).lookup k = some v := by
  induction m with
  | nil => simp [recordSet, List.lookup]
  | cons e rest ih =>
    rcases e with ⟨k', v'⟩
    by_cases hk : k' = k
    · simp [recordSet, hk, List.lookup]
    · simp only [recordSet, hk, if_false]
      have hbe : (k == k') = false :=
        beq_eq_false_iff_ne.mpr (fun hc => hk hc.symm)
      simp [List.lookup, hbe, ih]

/-- Enumeration order is a permutation of creation order. -/
theorem jsOwnKeys_perm {α : Type} (m : List (List Char × α)) :
    List.Perm (jsOwnKeys m) m := by
  have h1 : List.Perm
      (List.insertionSort (fun a b => keyIdxVal a ≤ keyIdxVal b)
        (m.filter (fun e => (isArrayIndexKey e.1).isSome)))
      (m.filter (fun e => (isArrayIndexKey e.1).isSome)) :=
    List.perm_insertionSort _ _
  have h2 : m.filter (fun e => (isArrayIndexKey e.1).isNone) =
      m.filter (fun e => !(isArrayIndexKey e.1).isSome) := by
    apply List.filter_congr
    intro x _
    cases isArrayIndexKey x.1 <;> rfl
  have h3 := List.filter_append_perm
    (fun e => (isArrayIndexKey e.1).isSome) m
  rw [← h2] at h3
  exact (h1.append (List.Perm.refl _)).trans h3

/-- Enumeration order splits into a sorted array-index block followed by the
non-index keys in creation order. -/
theorem jsOwnKeys_split {α : Type} (m : List (List Char × α)) :
    ∃ idx rest, jsOwnKeys m = idx ++ rest ∧
      List.Perm idx (m.filter (fun e => (isArrayIndexKey e.1).isSome)) ∧
      rest = m.filter (fun e => (isArrayIndexKey e.1).isNone) ∧
      List.Sorted (fun a b => keyIdxVal a ≤ keyIdxVal b) idx := by
  refine ⟨List.insertionSort (fun a b => keyIdxVal a ≤ keyIdxVal b)
      (m.filter (fun e => (isArrayIndexKey e.1).isSome)),
    m.filter (fun e => (isArrayIndexKey e.1).isNone), rfl,
    List.perm_insertionSort _ _, rfl, ?_⟩
  haveI : IsTotal (List Char × α)
      (fun a b => keyIdxVal a ≤ keyIdxVal b) :=
    ⟨fun a b => Nat.le_total _ _⟩
  haveI : IsTrans (List Char × α)
      (fun a b => keyIdxVal a ≤ keyIdxVal b) :=
    ⟨fun a b c => Nat.le_trans⟩
  exact List.sorted_insertionSort _ _

/-- Without array-index keys, enumeration order is exactly creation
order. -/
theorem jsOwnKeys_no_index {α : Type} (m : List (List Char × α))
    (h : ∀ e ∈ m, (isArrayIndexKey e.1).isNone = true) :
    jsOwnKeys m = m := by
  have h1 : m.filter (fun e => (isArrayIndexKey e.1).isSome) = [] := by
    rw [List.filter_eq_nil_iff]
    intro e he
    have := h e he
    cases hx : isArrayIndexKey e.1
    · simp [hx]
    · rw [hx] at this
      simp at this
  have h2 : m.filter (fun e => (isArrayIndexKey e.1).isNone) = m :=
    List.filter_eq_self.mpr h
  unfold jsOwnKeys
  rw [h1, h2]
  rfl

/-- C2 counterexample: with a numeric-string key and a non-numeric key, the
emitted JSON orders the numeric key first, not in insertion order. -/
theorem insertion_order_counterexample :
    pythonDictToJson "\x7b'b': 0, '1': 0\x7d" 4 =
      .ok "\x7b\n    \"1\": 0,\n    \"b\": 0\n\x7d" ∧
    pythonDictToJson "\x7b'b': 0, '1': 0\x7d" 4 ≠
      .ok "\x7b\n    \"b\": 0,\n    \"1\": 0\n\x7d" := by
  refine ⟨rfl, ?_⟩
  intro hc
  rw [show pythonDictToJson "\x7b'b': 0, '1': 0\x7d" 4 =
    .ok "\x7b\n    \"1\": 0,\n    \"b\": 0\n\x7d" from rfl] at hc
  simp at hc

/-- C2 (amended): later duplicate keys overwrite the earlier entry in
place, but the emitted key order is the JavaScript own-property order:
array-index keys first in ascending numeric order, then the remaining keys
in insertion order (so pure insertion order holds exactly when no key is an
array index). -/
theorem object_key_order :
    (∀ (m : List (List Char × Value)), List.Perm (jsOwnKeys m) m) ∧
    (∀ (m : List (List Char × Value)), ∃ idx rest,
      jsOwnKeys m = idx ++ rest ∧
      List.Perm idx (m.filter (fun e => (isArrayIndexKey e.1).isSome)) ∧
      rest = m.filter (fun e => (isArrayIndexKey e.1).isNone) ∧
      List.Sorted (fun a b => keyIdxVal a ≤ keyIdxVal b) idx) ∧
    (∀ (m : List (List Char × Value)),
      (∀ e ∈ m, (isArrayIndexKey e.1).isNone = true) → jsOwnKeys m = m) ∧
    (∀ m (k : List Char) (v : Value), k ∈ m.map Prod.fst →
      (recordSet m k v).map Prod.fst = m.map Prod.fst) ∧
    (∀ m (k : List Char) (v : Value), ¬ k ∈ m.map Prod.fst →
      (recordSet m k v).map Prod.fst = m.map Prod.fst ++ [k]) ∧
    (∀ m (k : List Char) (v : Value),
      (recordSet m k v).lookup k = some v) ∧
    pythonDictToJson "\x7b'x': 1, '10': 2, 'y': 3, '2': 4\x7d" 4 =
      .ok "\x7b\n    \"2\": 4,\n    \"10\": 2,\n    \"x\": 1,\n    \"y\": 3\n\x7d" ∧
    pythonDictToJson "\x7b'a': 1, 'a': 2\x7d" 4 =
      .ok "\x7b\n    \"a\": 2\n\x7d" :=
  ⟨jsOwnKeys_perm, jsOwnKeys_split, jsOwnKeys_no_index,
    recordSet_keys_mem, recordSet_keys_new, recordSet_lookup, rfl, rfl⟩

/-- Witness for C2 (amended) at concrete inputs. -/
theorem object_key_order_witness :
    jsOwnKeys [((['b'] : List Char), Value.null)] = [(['b'], Value.null)] ∧
    (recordSet [((['a'] : List Char), Value.null)] ['a']
      (Value.bool true)).map Prod.fst = [['a']] :=
  ⟨object_key_order.2.2.1 [((['b'] : List Char), Value.null)] (by decide),
    object_key_order.2.2.2.1 [((['a'] : List Char), Value.null)] ['a']
      (Value.bool true) (by decide)⟩

/-- `digitsVal`'s fold from an arbitrary accumulator. -/
theorem digitsVal_acc (b : Nat) (l : List Char) (acc : Nat) :
    List.foldl (fun a c => a * b + hexDigitVal c) acc l =
      acc * b ^ l.length + digitsVal b l := by
  induction l generalizing acc with
  | nil => simp [digitsVal]
  | cons c rest ih =>
    have hr : digitsVal b (c :: rest) =
        hexDigitVal c * b ^ rest.length + digitsVal b rest := by
      simp only [digitsVal, List.foldl_cons]
      rw [ih]
      simp [digitsVal]
    simp only [List.foldl_cons]
    rw [ih, hr, List.length_cons]
    ring

/-- Positional value of an appended digit string. -/
theorem digitsVal_append (b : Nat) (l1 l2 : List Char) :
    digitsVal b (l1 ++ l2) =
      digitsVal b l1 * b ^ l2.length + digitsVal b l2 := by
  simp only [digitsVal, List.foldl_append]
  exact digitsVal_acc b l2 _

/-- The decimal digit character of `d < 10` evaluates back to `d` and is a
digit. -/
theorem decDigitChar_spec (d : Nat) (h : d < 10) :
    hexDigitVal (Char.ofNat (48 + d)) = d ∧
    isDigitChar (Char.ofNat (48 + d)) = true := by
  interval_cases d <;> exact ⟨by decide, by decide⟩

/-- Little-endian digit expansion: value, digit class, and canonical form
(most significant digit nonzero). -/
theorem natDigitsAux_spec : ∀ (f n : Nat), n ≤ f →
    digitsVal 10 (natDigitsAux f n).reverse = n ∧
    (∀ c ∈ natDigitsAux f n, isDigitChar c = true) ∧
    (n ≠ 0 → ∃ d l, (natDigitsAux f n).reverse = d :: l ∧ d ≠ '0' ∧
      (natDigitsAux f n).reverse.length ≤ f) ∧
    (n = 0 → natDigitsAux f n = []) := by
  intro f
  induction f with
  | zero =>
    intro n hn
    have : n = 0 := Nat.le_zero.mp hn
    subst this
    exact ⟨rfl, by simp [natDigitsAux], fun hc => absurd rfl hc,
      fun _ => rfl⟩
  | succ f ih =>
    intro n hn
    by_cases h0 : n = 0
    · subst h0
      exact ⟨rfl, by simp [natDigitsAux], fun hc => absurd rfl hc,
        fun _ => rfl⟩
    have hlt : n / 10 ≤ f := by omega
    obtain ⟨ihv, ihd, ihm, ihz⟩ := ih (n / 10) hlt
    have hmod : n % 10 < 10 := Nat.mod_lt _ (by omega)
    obtain ⟨hde, hdc⟩ := decDigitChar_spec (n % 10) hmod
    have haux : natDigitsAux (f + 1) n =
        Char.ofNat (48 + n % 10) :: natDigitsAux f (n / 10) := by
      simp [natDigitsAux, h0]
    refine ⟨?_, ?_, ?_, fun hc => absurd hc h0⟩
    · rw [haux]
      simp only [List.reverse_cons]
      rw [digitsVal_append, ihv]
      have hone : digitsVal 10 [Char.ofNat (48 + n % 10)] = n % 10 := by
        simp [digitsVal, hde]
      rw [hone]
      simp only [List.length_cons, List.length_nil, pow_one]
      omega
    · rw [haux]
      intro c hc
      rcases List.mem_cons.mp hc with h | h
      · rw [h]; exact hdc
      · exact ihd c h
    · intro _
      rw [haux]
      simp only [List.reverse_cons]
      by_cases hq : n / 10 = 0
      · rw [ihz hq]
        refine ⟨Char.ofNat (48 + n % 10), [], by simp, ?_, by simp⟩
        intro hc
        have : hexDigitVal (Char.ofNat (48 + n % 10)) =
            hexDigitVal '0' := by rw [hc]
        rw [hde] at this
        simp [hexDigitVal, isDigitChar] at this
        omega
      · obtain ⟨d, l, hdl, hd0, hlen⟩ := ihm hq
        rw [hdl]
        refine ⟨d, l ++ [Char.ofNat (48 + n % 10)], by simp, hd0, ?_⟩
        have h2 := hlen
        rw [hdl] at h2
        simp only [List.length_cons] at h2
        simp only [List.cons_append, List.length_cons, List.length_append,
          List.length_nil]
        omega

/-- The canonical decimal string of `n`: value, nonemptiness, digit class
and no leading zero. -/
theorem natToDecChars_spec (n : Nat) :
    digitsVal 10 (natToDecChars n) = n ∧
    natToDecChars n ≠ [] ∧
    (∀ c ∈ natToDecChars n, isDigitChar c = true) ∧
    (natToDecChars n = ['0'] ∨ (natToDecChars n).head? ≠ some '0') := by
  by_cases h0 : n = 0
  · subst h0
    exact ⟨rfl, by simp [natToDecChars], by decide, Or.inl rfl⟩
  obtain ⟨hv, hd, hm, _⟩ := natDigitsAux_spec n n (Nat.le_refl n)
  obtain ⟨d, l, hdl, hd0, _⟩ := hm h0
  have he : natToDecChars n = (natDigitsAux n n).reverse := by
    simp [natToDecChars, h0]
  refine ⟨by rw [he]; exact hv, by rw [he, hdl]; simp, ?_, ?_⟩
  · intro c hc
    rw [he] at hc
    exact hd c (List.mem_reverse.mp hc)
  · refine Or.inr ?_
    rw [he, hdl]
    simp [hd0]

/-- `fcStripAux` factors out all powers of `p`. -/
theorem fcStripAux_spec (p : Nat) (hp : 2 ≤ p) : ∀ f n, n ≤ f → 1 ≤ n →
    n = p ^ (fcStripAux p f n).1 * (fcStripAux p f n).2 ∧
    ¬ p ∣ (fcStripAux p f n).2 ∧ 1 ≤ (fcStripAux p f n).2 := by
  intro f
  induction f with
  | zero =>
    intro n hn h1
    omega
  | succ f ih =>
    intro n hn h1
    by_cases hc : 2 ≤ p ∧ n ≠ 0 ∧ n % p = 0
    · have hdvd : p ∣ n := Nat.dvd_of_mod_eq_zero hc.2.2
      have hq1 : 1 ≤ n / p :=
        (Nat.one_le_div_iff (by omega)).mpr (Nat.le_of_dvd (by omega) hdvd)
      have hqf : n / p ≤ f := by
        have : n / p < n := Nat.div_lt_self (by omega) (by omega)
        omega
      obtain ⟨ih1, ih2, ih3⟩ := ih (n / p) hqf hq1
      rcases hfa : fcStripAux p f (n / p) with ⟨a, m⟩
      rw [hfa] at ih1 ih2 ih3
      have hres : fcStripAux p (f + 1) n = (a + 1, m) := by
        simp [fcStripAux, hc, hfa]
      rw [hres]
      refine ⟨?_, ih2, ih3⟩
      have hnp : n = p * (n / p) := (Nat.mul_div_cancel' hdvd).symm
      calc n = p * (n / p) := hnp
        _ = p * (p ^ a * m) := by rw [← ih1]
        _ = p ^ (a + 1) * m := by ring
    · have hres : fcStripAux p (f + 1) n = (0, n) := by
        simp only [fcStripAux, if_neg hc]
      rw [hres]
      refine ⟨by simp, ?_, h1⟩
      intro hdvd
      exact hc ⟨hp, by omega, Nat.mod_eq_zero_of_dvd hdvd⟩

/-- `fcStrip` factors out all powers of `p`. -/
theorem fcStrip_spec (p n : Nat) (hp : 2 ≤ p) (h1 : 1 ≤ n) :
    n = p ^ (fcStrip p n).1 * (fcStrip p n).2 ∧
    ¬ p ∣ (fcStrip p n).2 ∧ 1 ≤ (fcStrip p n).2 :=
  fcStripAux_spec p hp n n (Nat.le_refl n) h1

/-- A denominator passing `isDecDen` divides `10 ^ pow10Exp`. -/
theorem isDecDen_dvd (d : Nat) (h1 : 1 ≤ d) (h : isDecDen d = true) :
    d ∣ 10 ^ pow10Exp d := by
  obtain ⟨h2eq, h2nd, h2pos⟩ := fcStrip_spec 2 d (by norm_num) h1
  rcases hf2 : fcStrip 2 d with ⟨a, m⟩
  rw [hf2] at h2eq h2nd h2pos
  obtain ⟨h5eq, h5nd, h5pos⟩ := fcStrip_spec 5 m (by norm_num) h2pos
  rcases hf5 : fcStrip 5 m with ⟨b, r⟩
  rw [hf5] at h5eq h5nd h5pos
  have hr1 : r = 1 := by
    simpa [isDecDen, hf2, hf5] using h
  have hd : d = 2 ^ a * 5 ^ b := by
    simp only [] at h2eq h5eq
    rw [h2eq, h5eq, hr1]
    ring
  have hk : pow10Exp d = max a b := by
    simp [pow10Exp, hf2, hf5]
  rw [hk, hd]
  have h10 : (10 : Nat) ^ max a b = 2 ^ max a b * 5 ^ max a b := by
    rw [← Nat.mul_pow]
  rw [h10]
  exact Nat.mul_dvd_mul (Nat.pow_dvd_pow 2 (Nat.le_max_left a b))
    (Nat.pow_dvd_pow 5 (Nat.le_max_right a b))

/-- A divisor of a power of ten passes `isDecDen`. -/
theorem dvd_pow10_isDecDen (d k : Nat) (h1 : 1 ≤ d) (h : d ∣ 10 ^ k) :
    isDecDen d = true := by
  obtain ⟨h2eq, h2nd, h2pos⟩ := fcStrip_spec 2 d (by norm_num) h1
  rcases hf2 : fcStrip 2 d with ⟨a, m⟩
  rw [hf2] at h2eq h2nd h2pos
  obtain ⟨h5eq, h5nd, h5pos⟩ := fcStrip_spec 5 m (by norm_num) h2pos
  rcases hf5 : fcStrip 5 m with ⟨b, r⟩
  rw [hf5] at h5eq h5nd h5pos
  simp only [] at h2eq h5eq
  have hrd : r ∣ d := ⟨2 ^ a * 5 ^ b, by rw [h2eq, h5eq]; ring⟩
  have hr10 : r ∣ 10 ^ k := hrd.trans h
  have hr2 : ¬ 2 ∣ r := fun hc => h2nd (by rw [h5eq]; exact hc.mul_left _)
  have hc2 : Nat.Coprime 2 r := (Nat.Prime.coprime_iff_not_dvd (by norm_num)).mpr hr2
  have hc5 : Nat.Coprime 5 r := (Nat.Prime.coprime_iff_not_dvd (by norm_num)).mpr h5nd
  have hc10 : Nat.Coprime 10 r := by
    have := Nat.Coprime.mul hc2 hc5
    simpa using this
  have hc10k : Nat.Coprime r (10 ^ k) := (hc10.pow_left k).symm
  have hr1 : r = 1 := Nat.Coprime.eq_one_of_dvd hc10k hr10
  simp [isDecDen, hf2, hf5, hr1]

/-- A decimal digit's value is below ten. -/
theorem hexDigitVal_lt_ten {c : Char} (h : isDigitChar c = true) :
    hexDigitVal c < 10 := by
  simp only [isDigitChar, Bool.and_eq_true, decide_eq_true_eq] at h
  simp only [hexDigitVal, isDigitChar]
  rw [if_pos (by simp [h.1, h.2])]
  omega

/-- A run of zeros has value zero. -/
theorem digitsVal_zeros (m : Nat) :
    digitsVal 10 (List.replicate m '0') = 0 := by
  induction m with
  | zero => rfl
  | succ m ih =>
    rw [List.replicate_succ']
    rw [digitsVal_append, ih]
    simp [digitsVal, hexDigitVal]

/-- A digit string's value is below `10 ^ length`. -/
theorem digitsVal_lt (l : List Char) (h : ∀ c ∈ l, isDigitChar c = true) :
    digitsVal 10 l < 10 ^ l.length := by
  induction l with
  | nil => simp [digitsVal]
  | cons c rest ih =>
    have hc : isDigitChar c = true := h c (by simp)
    have hrest := ih (fun x hx => h x (List.mem_cons_of_mem _ hx))
    have hv : hexDigitVal c < 10 := hexDigitVal_lt_ten hc
    have hcons : digitsVal 10 (c :: rest) =
        hexDigitVal c * 10 ^ rest.length + digitsVal 10 rest := by
      have := digitsVal_append 10 [c] rest
      simpa [digitsVal] using this
    rw [hcons, List.length_cons, pow_succ]
    nlinarith

/-- `takeWhile`/`dropWhile` split of a digit run followed by a
non-digit-led remainder. -/
theorem digit_split (l r : List Char)
    (hl : ∀ c ∈ l, isDigitChar c = true)
    (hr : r = [] ∨ ∃ c rs, r = c :: rs ∧ isDigitChar c = false) :
    (l ++ r).takeWhile isDigitChar = l ∧
    (l ++ r).dropWhile isDigitChar = r := by
  induction l with
  | nil =>
    rcases hr with h | ⟨c, rs, hcr, hcd⟩
    · subst h
      exact ⟨rfl, rfl⟩
    · subst hcr
      simp [List.takeWhile, List.dropWhile, hcd]
  | cons c rest ih =>
    have hc : isDigitChar c = true := hl c (by simp)
    obtain ⟨iht, ihd⟩ := ih (fun x hx => hl x (List.mem_cons_of_mem _ hx))
    simp only [List.cons_append, List.takeWhile, List.dropWhile, hc,
      List.append_eq]
    rw [iht, ihd]
    exact ⟨rfl, rfl⟩

/-- The sign of a negative exact rational factors out of `decimalRepr`. -/
theorem decimalRepr_neg (q : ℚ) (hq : q.num < 0) :
    decimalRepr q = '-' :: decimalRepr (-q) := by
  have hnum : (-q).num = -q.num := Rat.neg_num q
  have hden : (-q).den = q.den := Rat.neg_den q
  have habs : (-q).num.natAbs = q.num.natAbs := by
    rw [hnum]
    exact Int.natAbs_neg q.num
  have hneg : ¬ (-q).num < 0 := by rw [hnum]; omega
  simp only [decimalRepr, hden, habs]
  rw [if_pos hq, if_neg hneg]

/-- An exact rational with power-of-ten-dividing denominator equals its
printed digits over `10 ^ k`. -/
theorem decimalRepr_val (q : ℚ) (hq : 0 ≤ q.num)
    (hdec : isDecDen q.den = true) :
    q = mkRat (↑(q.num.natAbs * 10 ^ pow10Exp q.den / q.den) : Int)
      (10 ^ pow10Exp q.den) := by
  have hden_pos : 0 < q.den := q.pos
  have hdvd : q.den ∣ 10 ^ pow10Exp q.den :=
    isDecDen_dvd _ (by omega) hdec
  have hdvd2 : q.den ∣ q.num.natAbs * 10 ^ pow10Exp q.den :=
    Dvd.dvd.mul_left hdvd _
  have hDd : q.num.natAbs * 10 ^ pow10Exp q.den / q.den * q.den =
      q.num.natAbs * 10 ^ pow10Exp q.den := Nat.div_mul_cancel hdvd2
  have key : ((q.num.natAbs * 10 ^ pow10Exp q.den / q.den : ℕ) : ℚ) *
      (q.den : ℚ) = (q.num : ℚ) * (10 : ℚ) ^ pow10Exp q.den := by
    have h1 : ((q.num.natAbs * 10 ^ pow10Exp q.den / q.den * q.den : ℕ) : ℚ)
        = ((q.num.natAbs * 10 ^ pow10Exp q.den : ℕ) : ℚ) := by rw [hDd]
    push_cast at h1
    rw [h1]
    have h4 : (q.num.natAbs : ℤ) = q.num := Int.natAbs_of_nonneg hq
    rw [show ((q.num.natAbs : ℕ) : ℚ) = (q.num : ℚ) from by
      rw [← h4]
      exact Int.cast_natCast _]
  have hden_ne : (q.den : ℚ) ≠ 0 := Nat.cast_ne_zero.mpr (by omega)
  have hpow_ne : ((10 : ℚ) ^ pow10Exp q.den) ≠ 0 := by positivity
  have hqq : (q.num : ℚ) = q * (q.den : ℚ) :=
    (div_eq_iff hden_ne).mp (Rat.num_div_den q)
  rw [hqq] at key
  have key2 : ((q.num.natAbs * 10 ^ pow10Exp q.den / q.den : ℕ) : ℚ) *
      (q.den : ℚ) = (q * 10 ^ pow10Exp q.den) * (q.den : ℚ) := by
    rw [key]
    ring
  have key3 := mul_right_cancel₀ hden_ne key2
  rw [Rat.mkRat_eq_div, Int.cast_natCast, Nat.cast_pow, Nat.cast_ofNat,
    eq_div_iff hpow_ne]
  exact key3.symm

/-- `decValue` with no exponent is the digits over `10 ^ flen`. -/
theorem decValue_zero_exp (i f flen : Nat) :
    decValue i f flen 0 = mkRat ((i * 10 ^ flen + f : Nat) : Int)
      (10 ^ flen) := by
  simp [decValue]

/-- The decoder reads a digit string with fraction part back to its
`decValue`, for any continuation that does not begin with a digit, a dot or
an exponent letter. -/
theorem jsonNumberBody_frac (q : ℚ) (T B rest : List Char)
    (hTne : T ≠ []) (hTlead : T = ['0'] ∨ T.head? ≠ some '0')
    (hTdig : ∀ c ∈ T, isDigitChar c = true)
    (hBdig : ∀ c ∈ B, isDigitChar c = true) (hBne : B ≠ [])
    (hval : decValue (digitsVal 10 T) (digitsVal 10 B) B.length 0 = q)
    (hrest : rest = [] ∨ ∃ c rs, rest = c :: rs ∧ isDigitChar c = false ∧
      c ≠ '.' ∧ c ≠ 'e' ∧ c ≠ 'E') :
    jsonNumberBody ((T ++ '.' :: B) ++ rest) = some (q, rest) := by
  obtain ⟨hs1T, hs1D⟩ := digit_split T ('.' :: (B ++ rest)) hTdig
    (Or.inr ⟨'.', B ++ rest, rfl, by decide⟩)
  obtain ⟨hs2T, hs2D⟩ := digit_split B rest hBdig
    (by
      rcases hrest with h | ⟨c, rs, hcr, hcd, _⟩
      · exact Or.inl h
      · exact Or.inr ⟨c, rs, hcr, hcd⟩)
  have hok : ¬ (T = [] ∨ (T.length > 1 ∧ T.head? = some '0')) := by
    push_neg
    refine ⟨hTne, fun hlen => ?_⟩
    rcases hTlead with h | h
    · rw [h] at hlen
      simp at hlen
    · exact h
  have hassoc : (T ++ '.' :: B) ++ rest = T ++ '.' :: (B ++ rest) := by
    simp
  rw [hassoc]
  simp only [jsonNumberBody, hs1T, hs1D, if_neg hok]
  have hcond : ¬ ((B ++ rest).takeWhile isDigitChar = []) := by
    rw [hs2T]
    exact hBne
  conv_lhs => whnf
  rw [if_neg hcond, hs2T, hs2D]
  rcases hrest with h | ⟨c, rs, hcr, hcd, hcdot, hce, hcE⟩
  · subst h
    conv_lhs => whnf
    rw [hval]
  · subst hcr
    have hee : ¬ ((c = 'e' || c = 'E') = true) := by
      simp [hce, hcE]
    split
    · rename_i heq
      simp at heq
    · rename_i F r3 heq
      injection heq with heq2
      injection heq2 with hF hr3
      subst hF
      subst hr3
      split
      · rename_i c2 r4 heq3
        injection heq3 with hc2 hr4
        subst hc2
        subst hr4
        split
        · rename_i h
          exact absurd h hee
        · rw [hval]
      · rename_i heq3
        exact absurd heq3 (by simp)

/-- The decoder reads back `decimalRepr` of a nonnegative exact rational
whose denominator divides a power of ten, for any continuation that does
not begin with a digit, a dot or an exponent letter. -/
theorem decimalRepr_decode (q : ℚ) (hq : 0 ≤ q.num)
    (hdec : isDecDen q.den = true) (rest : List Char)
    (hrest : rest = [] ∨ ∃ c rs, rest = c :: rs ∧ isDigitChar c = false ∧
      c ≠ '.' ∧ c ≠ 'e' ∧ c ≠ 'E') :
    jsonNumberBody (decimalRepr q ++ rest) = some (q, rest) := by
  have hsign : ¬ q.num < 0 := by omega
  obtain ⟨hval, hne, hdig, hlead⟩ :=
    natToDecChars_spec (q.num.natAbs * 10 ^ pow10Exp q.den / q.den)
  have hqD := decimalRepr_val q hq hdec
  by_cases hk0 : pow10Exp q.den = 0
  · have htext : decimalRepr q =
        natToDecChars (q.num.natAbs * 10 ^ pow10Exp q.den / q.den) := by
      simp only [decimalRepr, hk0, if_neg hsign]
      simp
    rw [htext]
    obtain ⟨hT, hDrop⟩ := digit_split _ rest hdig
      (by
        rcases hrest with h | ⟨c, rs, hcr, hcd, _⟩
        · exact Or.inl h
        · exact Or.inr ⟨c, rs, hcr, hcd⟩)
    have hok : ¬ (natToDecChars (q.num.natAbs * 10 ^ pow10Exp q.den /
        q.den) = [] ∨
        ((natToDecChars (q.num.natAbs * 10 ^ pow10Exp q.den /
          q.den)).length > 1 ∧
         (natToDecChars (q.num.natAbs * 10 ^ pow10Exp q.den /
          q.den)).head? = some '0')) := by
      push_neg
      refine ⟨hne, fun hlen => ?_⟩
      rcases hlead with h | h
      · rw [h] at hlen
        simp at hlen
      · exact h
    have hv : q = decValue (digitsVal 10 (natToDecChars
        (q.num.natAbs * 10 ^ pow10Exp q.den / q.den))) 0 0 0 := by
      rw [hval, decValue_zero_exp]
      simpa [hk0] using hqD
    simp only [jsonNumberBody, hT, hDrop, if_neg hok]
    rcases hrest with h | ⟨c, rs, hcr, hcd, hcdot, hce, hcE⟩
    · subst h
      conv_lhs => whnf
      conv_rhs => rw [hv]
      simp [digitsVal]
    · subst hcr
      conv_rhs => rw [hv]
      split
      · rename_i heq
        split at heq
        · rename_i r2 heq2
          injection heq2 with h1 _
          exact absurd h1 hcdot
        · exact absurd heq (by simp)
      · rename_i F r3 heq
        split at heq
        · rename_i r2 heq2
          injection heq2 with h1 _
          exact absurd h1 hcdot
        · injection heq with heq3
          injection heq3 with hF hr3
          subst hF
          subst hr3
          have hee : (c = 'e' || c = 'E') = false := by
            simp [hce, hcE]
          simp [hee, digitsVal]
  · have hk1 : 1 ≤ pow10Exp q.den := by omega
    have hfacts : ∀ (pad : List Char), (∀ c ∈ pad, isDigitChar c = true) →
        digitsVal 10 pad = q.num.natAbs * 10 ^ pow10Exp q.den / q.den →
        pow10Exp q.den + 1 ≤ pad.length →
        (pad.take (pad.length - pow10Exp q.den) = ['0'] ∨
          (pad.take (pad.length - pow10Exp q.den)).head? ≠ some '0') →
        jsonNumberBody ((pad.take (pad.length - pow10Exp q.den) ++
          '.' :: pad.drop (pad.length - pow10Exp q.den)) ++ rest) = some (q, rest) := by
      intro pad hpdig hpval hplen hplead
      have hTlen : (pad.take (pad.length - pow10Exp q.den)).length =
          pad.length - pow10Exp q.den := by
        rw [List.length_take]
        omega
      have hBlen : (pad.drop (pad.length - pow10Exp q.den)).length = pow10Exp q.den := by
        rw [List.length_drop]
        omega
      have hTD := List.take_append_drop (pad.length - pow10Exp q.den) pad
      have hsum : digitsVal 10 (pad.take (pad.length - pow10Exp q.den)) *
          10 ^ pow10Exp q.den + digitsVal 10 (pad.drop (pad.length - pow10Exp q.den)) =
          q.num.natAbs * 10 ^ pow10Exp q.den / q.den := by
        have happ := digitsVal_append 10 (pad.take (pad.length - pow10Exp q.den))
          (pad.drop (pad.length - pow10Exp q.den))
        rw [hTD, hpval, hBlen] at happ
        omega
      refine jsonNumberBody_frac q _ _ rest ?_ hplead ?_ ?_ ?_ ?_ hrest
      · intro hc
        rw [hc] at hTlen
        simp at hTlen
        omega
      · intro c hc
        exact hpdig c (List.mem_of_mem_take hc)
      · intro c hc
        exact hpdig c (List.mem_of_mem_drop hc)
      · intro hc
        rw [hc] at hBlen
        simp at hBlen
        omega
      · rw [decValue_zero_exp, hBlen]
        rw [show ((digitsVal 10 (pad.take (pad.length - pow10Exp q.den)) *
            10 ^ pow10Exp q.den +
            digitsVal 10 (pad.drop (pad.length - pow10Exp q.den)) : ℕ) : ℤ) =
          ((q.num.natAbs * 10 ^ pow10Exp q.den / q.den : ℕ) : ℤ) from by rw [hsum]]
        exact hqD.symm
    obtain ⟨hdsval, hdsne, hdsdig, hdslead⟩ :=
      natToDecChars_spec (q.num.natAbs * 10 ^ pow10Exp q.den / q.den)
    by_cases hpadc : (natToDecChars (q.num.natAbs * 10 ^ pow10Exp q.den / q.den)).length < pow10Exp q.den + 1
    · have htext : decimalRepr q =
          ((List.replicate (pow10Exp q.den + 1 - (natToDecChars (q.num.natAbs * 10 ^ pow10Exp q.den / q.den)).length) '0' ++ natToDecChars (q.num.natAbs * 10 ^ pow10Exp q.den / q.den)).take
            ((List.replicate (pow10Exp q.den + 1 - (natToDecChars (q.num.natAbs * 10 ^ pow10Exp q.den / q.den)).length) '0' ++
              natToDecChars (q.num.natAbs * 10 ^ pow10Exp q.den / q.den)).length - pow10Exp q.den) ++
          '.' :: (List.replicate (pow10Exp q.den + 1 - (natToDecChars (q.num.natAbs * 10 ^ pow10Exp q.den / q.den)).length) '0' ++
            natToDecChars (q.num.natAbs * 10 ^ pow10Exp q.den / q.den)).drop
            ((List.replicate (pow10Exp q.den + 1 - (natToDecChars (q.num.natAbs * 10 ^ pow10Exp q.den / q.den)).length) '0' ++
              natToDecChars (q.num.natAbs * 10 ^ pow10Exp q.den / q.den)).length - pow10Exp q.den)) := by
        simp only [decimalRepr, if_neg hsign, if_neg hk0, if_pos hpadc]
      rw [htext]
      have hdsl1 : 1 ≤ (natToDecChars (q.num.natAbs * 10 ^ pow10Exp q.den / q.den)).length := by
        rcases hx : natToDecChars (q.num.natAbs * 10 ^ pow10Exp q.den / q.den) with _ | ⟨a, b⟩
        · exact absurd hx hdsne
        · simp
      refine hfacts _ ?_ ?_ ?_ ?_
      · intro c hc
        rcases List.mem_append.mp hc with h | h
        · rw [List.eq_of_mem_replicate h]
          decide
        · exact hdsdig c h
      · rw [digitsVal_append, digitsVal_zeros, hdsval]
        simp
      · simp only [List.length_append, List.length_replicate]
        omega
      · refine Or.inl ?_
        have hlen2 : (List.replicate (pow10Exp q.den + 1 - (natToDecChars (q.num.natAbs * 10 ^ pow10Exp q.den / q.den)).length) '0' ++
            natToDecChars (q.num.natAbs * 10 ^ pow10Exp q.den / q.den)).length = pow10Exp q.den + 1 := by
          simp only [List.length_append, List.length_replicate]
          omega
        rw [hlen2]
        simp only [Nat.add_sub_cancel_left]
        rcases hrep : List.replicate (pow10Exp q.den + 1 - (natToDecChars (q.num.natAbs * 10 ^ pow10Exp q.den / q.den)).length) '0' with
          _ | ⟨z, zs⟩
        · have := congrArg List.length hrep
          simp only [List.length_replicate, List.length_nil] at this
          omega
        · have hz : z = '0' := by
            have := List.eq_of_mem_replicate
              (hrep ▸ (List.mem_cons_self z zs))
            exact this
          simp [hz]
    · have htext : decimalRepr q =
          ((natToDecChars (q.num.natAbs * 10 ^ pow10Exp q.den / q.den)).take ((natToDecChars (q.num.natAbs * 10 ^ pow10Exp q.den / q.den)).length - pow10Exp q.den) ++
          '.' :: (natToDecChars (q.num.natAbs * 10 ^ pow10Exp q.den / q.den)).drop ((natToDecChars (q.num.natAbs * 10 ^ pow10Exp q.den / q.den)).length - pow10Exp q.den)) := by
        simp only [decimalRepr, if_neg hsign, if_neg hk0, if_neg hpadc]
      rw [htext]
      refine hfacts _ hdsdig hdsval (by omega) ?_
      refine Or.inr ?_
      have hlead2 : (natToDecChars (q.num.natAbs * 10 ^ pow10Exp q.den / q.den)).head? ≠ some '0' := by
        rcases hdslead with h | h
        · have := congrArg List.length h
          simp at this
          omega
        · exact h
      rcases hx : natToDecChars (q.num.natAbs * 10 ^ pow10Exp q.den / q.den) with _ | ⟨a, b⟩
      · exact absurd hx hdsne
      · rw [hx] at hlead2
        have hxtake : (a :: b).take ((a :: b).length - pow10Exp q.den) =
            a :: b.take ((a :: b).length - pow10Exp q.den - 1) := by
          rcases hY : (a :: b).length - pow10Exp q.den with _ | m
          · rw [hx] at hpadc
            simp only [List.length_cons] at hY hpadc
            omega
          · simp [List.take]
        rw [hxtake]
        simpa using hlead2

/-- Lowercase hex digit characters decode to their value. -/
theorem hexDigitChar_spec (d : Nat) (h : d < 16) :
    hexDigitVal (hexDigitChar d) = d ∧
    isHexDigitChar (hexDigitChar d) = true := by
  interval_cases d <;> exact ⟨by decide, by decide⟩

/-- Four-digit lowercase hex decodes back to the encoded value. -/
theorem hex4Lower_spec (n : Nat) (h : n < 65536) :
    digitsVal 16 (hex4Lower n) = n ∧
    (∀ c ∈ hex4Lower n, isHexDigitChar c = true) := by
  obtain ⟨e1, i1⟩ := hexDigitChar_spec (n / 4096 % 16)
    (Nat.mod_lt _ (by norm_num))
  obtain ⟨e2, i2⟩ := hexDigitChar_spec (n / 256 % 16)
    (Nat.mod_lt _ (by norm_num))
  obtain ⟨e3, i3⟩ := hexDigitChar_spec (n / 16 % 16)
    (Nat.mod_lt _ (by norm_num))
  obtain ⟨e4, i4⟩ := hexDigitChar_spec (n % 16)
    (Nat.mod_lt _ (by norm_num))
  constructor
  · simp only [hex4Lower, digitsVal, List.foldl_cons, List.foldl_nil,
      e1, e2, e3, e4]
    omega
  · intro c hc
    simp only [hex4Lower, List.mem_cons, List.not_mem_nil, or_false] at hc
    rcases hc with h | h | h | h <;> subst h <;> assumption

/-- One decoding step of the string body: closing quote. -/
theorem jsonStringBody_close (f : Nat) (r : List Char) :
    jsonStringBody (f + 1) (quoteD :: r) = some ([], r) := by
  simp [jsonStringBody]

/-- One decoding step of the string body: an escape sequence. -/
theorem jsonStringBody_escape_step (f : Nat) (r rI r' : List Char)
    (d : Char) (s : List Char) (hx : jsonUnescape r = some (d, rI))
    (hbody : jsonStringBody f rI = some (s, r')) :
    jsonStringBody (f + 1) ('\\' :: r) = some (d :: s, r') := by
  have h1 : ¬ ('\\' : Char) = quoteD := by decide
  simp [jsonStringBody, h1, hx, hbody]

/-- One decoding step of the string body: a plain character. -/
theorem jsonStringBody_plain_step (f : Nat) (c : Char) (r r' : List Char)
    (s : List Char) (h1 : ¬ c = quoteD) (h2 : ¬ c = '\\')
    (h3 : ¬ c.toNat < 32) (hbody : jsonStringBody f r = some (s, r')) :
    jsonStringBody (f + 1) (c :: r) = some (c :: s, r') := by
  simp [jsonStringBody, h1, h2, h3, hbody]

/-- The JSON string-body decoder reads back `QuoteJSONString`'s escaped
body, consuming the closing quote. -/
theorem quote_body_decode : ∀ (s : List Char) (f : Nat) (tail : List Char),
    s.length < f →
    jsonStringBody f
      (s.foldr (fun c acc => escapeJSONChar c ++ acc) [quoteD] ++ tail) =
      some (s, tail) := by
  intro s
  induction s with
  | nil =>
    intro f tail hf
    match f, hf with
    | f + 1, _ => simp [jsonStringBody]
  | cons c s' ih =>
    intro f tail hf
    match f, hf with
    | f + 1, hf =>
    have hf' : s'.length < f := by
      simp only [List.length_cons] at hf
      omega
    have hrec := ih f tail hf'
    simp only [List.foldr_cons, List.append_assoc]
    by_cases h1 : c = quoteD
    · subst h1
      rw [show escapeJSONChar quoteD = ['\\', quoteD] from by decide]
      simp only [List.cons_append, List.nil_append]
      exact jsonStringBody_escape_step f _ _ _ _ _
        (by simp [jsonUnescape]) hrec
    by_cases h2 : c = '\\'
    · subst h2
      rw [show escapeJSONChar '\\' = ['\\', '\\'] from by decide]
      simp only [List.cons_append, List.nil_append]
      exact jsonStringBody_escape_step f _ _ _ _ _
        (by simp [jsonUnescape, quoteD]) hrec
    by_cases h3 : c = Char.ofNat 8
    · subst h3
      rw [show escapeJSONChar (Char.ofNat 8) = ['\\', 'b'] from by decide]
      simp only [List.cons_append, List.nil_append]
      exact jsonStringBody_escape_step f _ _ _ _ _
        (by simp [jsonUnescape, quoteD]) hrec
    by_cases h4 : c = Char.ofNat 12
    · subst h4
      rw [show escapeJSONChar (Char.ofNat 12) = ['\\', 'f'] from by decide]
      simp only [List.cons_append, List.nil_append]
      exact jsonStringBody_escape_step f _ _ _ _ _
        (by simp [jsonUnescape, quoteD]) hrec
    by_cases h5 : c = '\n'
    · subst h5
      rw [show escapeJSONChar '\n' = ['\\', 'n'] from by decide]
      simp only [List.cons_append, List.nil_append]
      exact jsonStringBody_escape_step f _ _ _ _ _
        (by simp [jsonUnescape, quoteD]) hrec
    by_cases h6 : c = '\r'
    · subst h6
      rw [show escapeJSONChar '\r' = ['\\', 'r'] from by decide]
      simp only [List.cons_append, List.nil_append]
      exact jsonStringBody_escape_step f _ _ _ _ _
        (by simp [jsonUnescape, quoteD]) hrec
    by_cases h7 : c = '\t'
    · subst h7
      rw [show escapeJSONChar '\t' = ['\\', 't'] from by decide]
      simp only [List.cons_append, List.nil_append]
      exact jsonStringBody_escape_step f _ _ _ _ _
        (by simp [jsonUnescape, quoteD]) hrec
    by_cases h8 : c.toNat < 32
    · have hesc : escapeJSONChar c = '\\' :: 'u' :: hex4Lower c.toNat := by
        simp only [escapeJSONChar, if_neg h1, if_neg h2, if_neg h3,
          if_neg h4, if_neg h5, if_neg h6, if_neg h7, if_pos h8]
      obtain ⟨hv, hd⟩ := hex4Lower_spec c.toNat (by omega)
      have hd1 : isHexDigitChar (hexDigitChar (c.toNat / 4096 % 16)) =
          true := hd _ (by simp [hex4Lower])
      have hd2 : isHexDigitChar (hexDigitChar (c.toNat / 256 % 16)) =
          true := hd _ (by simp [hex4Lower])
      have hd3 : isHexDigitChar (hexDigitChar (c.toNat / 16 % 16)) =
          true := hd _ (by simp [hex4Lower])
      have hd4 : isHexDigitChar (hexDigitChar (c.toNat % 16)) = true :=
        hd _ (by simp [hex4Lower])
      rw [hesc]
      simp only [hex4Lower, List.cons_append, List.nil_append]
      refine jsonStringBody_escape_step f _ _ _ _ _ ?_ hrec
      have hu : ∀ X, jsonUnescape ('u' :: X) =
          (match X with
          | e1 :: e2 :: e3 :: e4 :: r =>
            if isHexDigitChar e1 && isHexDigitChar e2 && isHexDigitChar e3
                && isHexDigitChar e4 then
              some (Char.ofNat (digitsVal 16 [e1, e2, e3, e4]), r)
            else none
          | _ => none) := by
        intro X
        simp [jsonUnescape, quoteD]
      rw [hu]
      simp only [hd1, hd2, hd3, hd4, Bool.and_self, if_true]
      rw [show digitsVal 16 [hexDigitChar (c.toNat / 4096 % 16),
        hexDigitChar (c.toNat / 256 % 16), hexDigitChar (c.toNat / 16 % 16),
        hexDigitChar (c.toNat % 16)] = c.toNat from by
          simpa [hex4Lower] using hv]
      rw [Char.ofNat_toNat]
    · have hesc : escapeJSONChar c = [c] := by
        simp only [escapeJSONChar, if_neg h1, if_neg h2, if_neg h3,
          if_neg h4, if_neg h5, if_neg h6, if_neg h7, if_neg h8]
      rw [hesc]
      simp only [List.cons_append, List.nil_append]
      exact jsonStringBody_plain_step f c _ _ _ h1 h2 h8 hrec

/-- The reduced denominator of `mkRat n d` divides `d`. -/
theorem mkRat_den_dvd (n : ℤ) (d : ℕ) : (mkRat n d).den ∣ d := by
  rcases Nat.eq_zero_or_pos d with h | h
  · subst h
    simp [mkRat]
  · rw [Rat.mkRat_eq_divInt]
    have := Rat.den_dvd n (d : ℤ)
    zify
    exact this

/-- Every `decValue` denominator divides a power of ten. -/
theorem decValue_den (i f flen : Nat) (e : Int) :
    isDecDen (decValue i f flen e).den = true := by
  have hpos : ∀ (q : ℚ), 0 < q.den := fun q => q.pos
  unfold decValue
  split
  · refine dvd_pow10_isDecDen _ flen ?_ (mkRat_den_dvd _ _)
    have := hpos (mkRat ((i * 10 ^ flen + f) * 10 ^ (Int.toNat e) : Int)
      (10 ^ flen))
    omega
  · refine dvd_pow10_isDecDen _ (flen + (Int.toNat (-e))) ?_
      (mkRat_den_dvd _ _)
    have := hpos (mkRat ((i * 10 ^ flen + f : Nat) : Int)
      (10 ^ (flen + Int.toNat (-e))))
    omega

/-- Every rational produced by the decimal-literal parser has a
power-of-ten denominator. -/
theorem parseUnsignedDec_den (s : List Char) (q : ℚ)
    (h : parseUnsignedDec s = some q) : isDecDen q.den = true := by
  simp only [parseUnsignedDec] at h
  split at h
  · split at h
    · exact absurd h (by simp)
    · split at h
      · exact absurd h (by simp)
      · injection h with h2
        rw [← h2]
        exact decValue_den _ _ _ _
  · split at h
    · exact absurd h (by simp)
    · split at h
      · exact absurd h (by simp)
      · injection h with h2
        rw [← h2]
        exact decValue_den _ _ _ _

/-- Every finite number `Number(...)` can produce has a power-of-ten
denominator. -/
theorem jsToNumber_ok (s : List Char) (n : JNum)
    (h : jsToNumber s = some n) : numOkB n = true := by
  rcases n with q | _ | _
  · simp only [numOkB]
    simp only [jsToNumber] at h
    split at h
    · injection h with h2
      injection h2 with h3
      rw [← h3]
      decide
    · split at h
      · split at h <;> exact absurd h (by simp)
      · split at h
        · exact absurd h (by simp)
        · rename_i q0 hP
          split at h
          · split at h <;> exact absurd h (by simp)
          · injection h with h2
            injection h2 with h3
            rw [← h3]
            have hd := parseUnsignedDec_den _ _ hP
            split
            · exact hd
            · rw [Rat.neg_den]
              exact hd
  · rfl
  · rfl

/-- `recordSet` preserves key distinctness. -/
theorem recordSet_nodup (m : List (List Char × Value)) (k : List Char)
    (v : Value) (h : (m.map Prod.fst).Nodup) :
    ((recordSet m k v).map Prod.fst).Nodup := by
  by_cases hk : k ∈ m.map Prod.fst
  · rw [recordSet_keys_mem m k v hk]
    exact h
  · rw [recordSet_keys_new m k v hk]
    simp [List.nodup_append, h, hk]

/-- `recordSet` preserves the value invariant of every entry. -/
theorem recordSet_okOB (m : List (List Char × Value)) (k : List Char)
    (v : Value) (hm : valueOkOB m = true) (hv : valueOkB v = true) :
    valueOkOB (recordSet m k v) = true := by
  induction m with
  | nil => simp [recordSet, valueOkOB, hv]
  | cons e rest ih =>
    rcases e with ⟨k', v'⟩
    simp only [valueOkOB, Bool.and_eq_true] at hm
    by_cases hk : k' = k
    · simp [recordSet, hk, valueOkOB, hv, hm.2]
    · simp [recordSet, hk, valueOkOB, hm.1, ih hm.2]

/-- Every value the parser builds satisfies the structural invariant:
finite numbers have power-of-ten denominators and object keys are
distinct. -/
theorem parse_ok : ∀ f : Nat,
    (∀ ts v r, parseValueF f ts = .ok (v, r) → valueOkB v = true) ∧
    (∀ ts v r, parseDictF f ts = .ok (v, r) → valueOkB v = true) ∧
    (∀ m ts m' r, dictLoopF f m ts = .ok (m', r) →
      (m.map Prod.fst).Nodup → valueOkOB m = true →
      ((m'.map Prod.fst).Nodup ∧ valueOkOB m' = true)) ∧
    (∀ ts v r, parseListF f ts = .ok (v, r) → valueOkB v = true) ∧
    (∀ ts v r, parseTupleF f ts = .ok (v, r) → valueOkB v = true) ∧
    (∀ ts vs r, listLoopF f ts = .ok (vs, r) → valueOkLB vs = true) ∧
    (∀ ts vs r, tupleLoopF f ts = .ok (vs, r) → valueOkLB vs = true) := by
  intro f
  induction f with
  | zero =>
    refine ⟨fun ts v r h => ?_, fun ts v r h => ?_, fun m ts m' r h => ?_,
      fun ts v r h => ?_, fun ts v r h => ?_, fun ts vs r h => ?_,
      fun ts vs r h => ?_⟩ <;> simp [parseValueF, parseDictF, dictLoopF,
      parseListF, parseTupleF, listLoopF, tupleLoopF] at h
  | succ f ih =>
    obtain ⟨ihV, ihD, ihDL, ihL, ihT, ihLL, ihTL⟩ := ih
    refine ⟨?_, ?_, ?_, ?_, ?_, ?_, ?_⟩
    · -- parseValueF
      intro ts v r h
      rcases ts with _ | ⟨t, rest⟩
      · simp [parseValueF] at h
      rcases t with ⟨ty, tv, tp⟩
      cases ty
      · simp only [parseValueF] at h
        obtain ⟨t', hts, hty', hv⟩ := parseStringTok_ok h
        rw [hv]
        rfl
      · simp only [parseValueF] at h
        obtain ⟨t', n, hts, hty', hn, hv⟩ := parseNumberTok_ok h
        rw [hv]
        simpa [valueOkB] using jsToNumber_ok _ _ hn
      · simp only [parseValueF, Except.ok.injEq, Prod.mk.injEq] at h
        rw [← h.1]
        rfl
      · simp only [parseValueF, Except.ok.injEq, Prod.mk.injEq] at h
        rw [← h.1]
        rfl
      · simp only [parseValueF, Except.ok.injEq, Prod.mk.injEq] at h
        rw [← h.1]
        rfl
      · simp only [parseValueF] at h
        exact ihD _ _ _ h
      · simp [parseValueF] at h
      · simp only [parseValueF] at h
        exact ihL _ _ _ h
      · simp [parseValueF] at h
      · simp only [parseValueF] at h
        exact ihT _ _ _ h
      · simp [parseValueF] at h
      · simp [parseValueF] at h
      · simp [parseValueF] at h
      · simp [parseValueF] at h
    · -- parseDictF
      intro ts v r h
      rcases hE : expectTok .LBRACE ts with e | ⟨t0, ts1⟩
      · simp [parseDictF, hE] at h
      rcases ts1 with _ | ⟨t1, rest1⟩
      · simp [parseDictF, hE] at h
      by_cases hb : t1.type = .RBRACE
      · simp only [parseDictF, hE, hb, if_true, Except.ok.injEq,
          Prod.mk.injEq] at h
        rw [← h.1]
        rfl
      · rcases hDL : dictLoopF f [] (t1 :: rest1) with e2 | ⟨m2, ts2⟩
        · simp [parseDictF, hE, hb, hDL] at h
        rcases hE2 : expectTok .RBRACE ts2 with e3 | ⟨t3, ts3⟩
        · simp [parseDictF, hE, hb, hDL, hE2] at h
        simp only [parseDictF, hE, hb, if_false, hDL, hE2,
          Except.ok.injEq, Prod.mk.injEq] at h
        obtain ⟨hnd, hok⟩ := ihDL _ _ _ _ hDL (by simp) rfl
        rw [← h.1]
        simp [valueOkB, hnd, hok]
    · -- dictLoopF
      intro m ts m' r h hnd hok
      rcases ts with _ | ⟨t, rest⟩
      · simp [dictLoopF] at h
      by_cases hb : t.type = .RBRACE
      · simp only [dictLoopF, hb, if_true, Except.ok.injEq,
          Prod.mk.injEq] at h
        rw [← h.1]
        exact ⟨hnd, hok⟩
      · rcases hPK : parseDictKey (t :: rest) with e | ⟨k, ts1⟩
        · simp [dictLoopF, hb, hPK] at h
        rcases hE1 : expectTok .COLON ts1 with e | ⟨tc, ts2⟩
        · simp [dictLoopF, hb, hPK, hE1] at h
        rcases hPV : parseValueF f ts2 with e | ⟨v1, ts3⟩
        · simp [dictLoopF, hb, hPK, hE1, hPV] at h
        have hv1 := ihV _ _ _ hPV
        rcases ts3 with _ | ⟨t1, rest3⟩
        · simp [dictLoopF, hb, hPK, hE1, hPV] at h
        by_cases hcm : t1.type = .COMMA
        · simp only [dictLoopF, hb, if_false, hPK, hE1, hPV, hcm,
            if_true] at h
          exact ihDL _ _ _ _ h (recordSet_nodup m k v1 hnd)
            (recordSet_okOB m k v1 hok hv1)
        · simp only [dictLoopF, hb, if_false, hPK, hE1, hPV, hcm,
            Except.ok.injEq, Prod.mk.injEq] at h
          rw [← h.1]
          exact ⟨recordSet_nodup m k v1 hnd, recordSet_okOB m k v1 hok hv1⟩
    · -- parseListF
      intro ts v r h
      rcases hE : expectTok .LBRACKET ts with e | ⟨t0, ts1⟩
      · simp [parseListF, hE] at h
      rcases ts1 with _ | ⟨t1, rest1⟩
      · simp [parseListF, hE] at h
      by_cases hb : t1.type = .RBRACKET
      · simp only [parseListF, hE, hb, if_true, Except.ok.injEq,
          Prod.mk.injEq] at h
        rw [← h.1]
        rfl
      · rcases hLL : listLoopF f (t1 :: rest1) with e2 | ⟨vs2, ts2⟩
        · simp [parseListF, hE, hb, hLL] at h
        rcases hE2 : expectTok .RBRACKET ts2 with e3 | ⟨t3, ts3⟩
        · simp [parseListF, hE, hb, hLL, hE2] at h
        simp only [parseListF, hE, hb, if_false, hLL, hE2,
          Except.ok.injEq, Prod.mk.injEq] at h
        rw [← h.1]
        simpa [valueOkB] using ihLL _ _ _ hLL
    · -- parseTupleF
      intro ts v r h
      rcases hE : expectTok .LPAREN ts with e | ⟨t0, ts1⟩
      · simp [parseTupleF, hE] at h
      rcases ts1 with _ | ⟨t1, rest1⟩
      · simp [parseTupleF, hE] at h
      by_cases hb : t1.type = .RPAREN
      · simp only [parseTupleF, hE, hb, if_true, Except.ok.injEq,
          Prod.mk.injEq] at h
        rw [← h.1]
        rfl
      · rcases hLL : tupleLoopF f (t1 :: rest1) with e2 | ⟨vs2, ts2⟩
        · simp [parseTupleF, hE, hb, hLL] at h
        rcases hE2 : expectTok .RPAREN ts2 with e3 | ⟨t3, ts3⟩
        · simp [parseTupleF, hE, hb, hLL, hE2] at h
        simp only [parseTupleF, hE, hb, if_false, hLL, hE2,
          Except.ok.injEq, Prod.mk.injEq] at h
        rw [← h.1]
        simpa [valueOkB] using ihTL _ _ _ hLL
    · -- listLoopF
      intro ts vs r h
      rcases ts with _ | ⟨t, rest⟩
      · simp [listLoopF] at h
      by_cases hb : t.type = .RBRACKET
      · simp only [listLoopF, hb, if_true, Except.ok.injEq,
          Prod.mk.injEq] at h
        rw [← h.1]
        rfl
      · rcases hPV : parseValueF f (t :: rest) with e | ⟨v1, ts1⟩
        · simp [listLoopF, hb, hPV] at h
        have hv1 := ihV _ _ _ hPV
        rcases ts1 with _ | ⟨t1, rest1⟩
        · simp [listLoopF, hb, hPV] at h
        by_cases hcm : t1.type = .COMMA
        · rcases hLL : listLoopF f rest1 with e2 | ⟨vs2, ts2⟩
          · simp [listLoopF, hb, hPV, hcm, hLL] at h
          simp only [listLoopF, hb, if_false, hPV, hcm, if_true, hLL,
            Except.ok.injEq, Prod.mk.injEq] at h
          rw [← h.1]
          simp [valueOkLB, hv1, ihLL _ _ _ hLL]
        · simp only [listLoopF, hb, if_false, hPV, hcm,
            Except.ok.injEq, Prod.mk.injEq] at h
          rw [← h.1]
          simp [valueOkLB, hv1]
    · -- tupleLoopF
      intro ts vs r h
      rcases ts with _ | ⟨t, rest⟩
      · simp [tupleLoopF] at h
      by_cases hb : t.type = .RPAREN
      · simp only [tupleLoopF, hb, if_true, Except.ok.injEq,
          Prod.mk.injEq] at h
        rw [← h.1]
        rfl
      · rcases hPV : parseValueF f (t :: rest) with e | ⟨v1, ts1⟩
        · simp [tupleLoopF, hb, hPV] at h
        have hv1 := ihV _ _ _ hPV
        rcases ts1 with _ | ⟨t1, rest1⟩
        · simp [tupleLoopF, hb, hPV] at h
        by_cases hcm : t1.type = .COMMA
        · rcases hLL : tupleLoopF f rest1 with e2 | ⟨vs2, ts2⟩
          · simp [tupleLoopF, hb, hPV, hcm, hLL] at h
          simp only [tupleLoopF, hb, if_false, hPV, hcm, if_true, hLL,
            Except.ok.injEq, Prod.mk.injEq] at h
          rw [← h.1]
          simp [valueOkLB, hv1, ihTL _ _ _ hLL]
        · simp only [tupleLoopF, hb, if_false, hPV, hcm,
            Except.ok.injEq, Prod.mk.injEq] at h
          rw [← h.1]
          simp [valueOkLB, hv1]

/-- `orderedInsert` commutes with a key-preserving payload map. -/
theorem orderedInsert_keymap {α β : Type} (g : List Char → α → β)
    (a : List Char × α) (l : List (List Char × α)) :
    List.orderedInsert (fun x y => keyIdxVal x ≤ keyIdxVal y)
        ((fun e => (e.1, g e.1 e.2)) a)
        (l.map (fun e => (e.1, g e.1 e.2))) =
      (List.orderedInsert (fun x y => keyIdxVal x ≤ keyIdxVal y) a l).map
        (fun e => (e.1, g e.1 e.2)) := by
  induction l with
  | nil => rfl
  | cons b bs ih =>
    simp only [List.map_cons, List.orderedInsert]
    have hk : keyIdxVal ((fun e => (e.1, g e.1 e.2)) a) = keyIdxVal a := rfl
    have hk2 : keyIdxVal ((fun e => (e.1, g e.1 e.2)) b) = keyIdxVal b := rfl
    by_cases hle : keyIdxVal a ≤ keyIdxVal b
    · rw [if_pos (by rw [hk, hk2]; exact hle), if_pos hle]
      simp
    · rw [if_neg (by rw [hk, hk2]; exact hle), if_neg hle]
      simp only [List.map_cons, ih]

/-- `insertionSort` commutes with a key-preserving payload map. -/
theorem insertionSort_keymap {α β : Type} (g : List Char → α → β)
    (l : List (List Char × α)) :
    List.insertionSort (fun x y => keyIdxVal x ≤ keyIdxVal y)
        (l.map (fun e => (e.1, g e.1 e.2))) =
      (List.insertionSort (fun x y => keyIdxVal x ≤ keyIdxVal y) l).map
        (fun e => (e.1, g e.1 e.2)) := by
  induction l with
  | nil => rfl
  | cons a l ih =>
    simp only [List.map_cons, List.insertionSort, ih]
    exact orderedInsert_keymap g a _

/-- `jsOwnKeys` commutes with a key-preserving payload map. -/
theorem jsOwnKeys_keymap {α β : Type} (g : List Char → α → β)
    (m : List (List Char × α)) :
    jsOwnKeys (m.map (fun e => (e.1, g e.1 e.2))) =
      (jsOwnKeys m).map (fun e => (e.1, g e.1 e.2)) := by
  unfold jsOwnKeys
  have hf1 : (m.map (fun e => (e.1, g e.1 e.2))).filter
      (fun e => (isArrayIndexKey e.1).isSome) =
      (m.filter (fun e => (isArrayIndexKey e.1).isSome)).map
        (fun e => (e.1, g e.1 e.2)) := by
    rw [List.filter_map]
    rfl
  have hf2 : (m.map (fun e => (e.1, g e.1 e.2))).filter
      (fun e => (isArrayIndexKey e.1).isNone) =
      (m.filter (fun e => (isArrayIndexKey e.1).isNone)).map
        (fun e => (e.1, g e.1 e.2)) := by
    rw [List.filter_map]
    rfl
  rw [hf1, hf2, insertionSort_keymap, List.map_append]

/-- Dropping JSON whitespace skips a whitespace-only prefix. -/
theorem dropWhile_ws_append (w X : List Char)
    (hw : ∀ c ∈ w, isJsonWs c = true) :
    (w ++ X).dropWhile isJsonWs = X.dropWhile isJsonWs := by
  induction w with
  | nil => rfl
  | cons c cs ih =>
    simp only [List.cons_append, List.dropWhile, hw c (by simp)]
    exact ih (fun x hx => hw x (List.mem_cons_of_mem _ hx))

/-- The JSON value decoder ignores a whitespace-only prefix. -/
theorem jsonParseValue_ws (f : Nat) (w X : List Char)
    (hw : ∀ c ∈ w, isJsonWs c = true) :
    jsonParseValue f (w ++ X) = jsonParseValue f X := by
  cases f with
  | zero => rfl
  | succ f =>
    simp only [jsonParseValue, dropWhile_ws_append w X hw]

/-- `stringifyObjItems` is the key-preserving map building each entry's
serialized text. -/
theorem stringifyObjItems_eq_map (gap ind1 : List Char)
    (m : List (List Char × Value)) :
    stringifyObjItems gap ind1 m =
      m.map (fun e => (e.1, quoteJSONString e.1 ++ ':' ::
        (if gap = [] then [] else [' ']) ++ stringifyV gap ind1 e.2)) := by
  induction m with
  | nil => rfl
  | cons e es ih =>
    rcases e with ⟨k, v⟩
    simp only [stringifyObjItems, List.map_cons, ih]

/-- `canonO` is the key-preserving map canonicalizing each entry's
value. -/
theorem canonO_eq_map (m : List (List Char × Value)) :
    canonO m = m.map (fun e => (e.1, canonV e.2)) := by
  induction m with
  | nil => rfl
  | cons e es ih =>
    rcases e with ⟨k, v⟩
    simp only [canonO, List.map_cons, ih]

/-- The head character of a `decimalRepr` output of a nonnegative rational
is a decimal digit (and the output is nonempty). -/
theorem decimalRepr_head_nonneg (q : ℚ) (hs : ¬ q.num < 0) :
    ∃ c cs, decimalRepr q = c :: cs ∧ isDigitChar c = true := by
  obtain ⟨hval, hne, hdig, hlead⟩ :=
    natToDecChars_spec (q.num.natAbs * 10 ^ pow10Exp q.den / q.den)
  by_cases hk0 : pow10Exp q.den = 0
  · have htext : decimalRepr q =
        natToDecChars (q.num.natAbs * 10 ^ pow10Exp q.den / q.den) := by
      simp only [decimalRepr, hk0, if_neg hs]
      simp
    rcases hx : natToDecChars (q.num.natAbs * 10 ^ pow10Exp q.den / q.den)
      with _ | ⟨c, cs⟩
    · exact absurd hx hne
    · exact ⟨c, cs ++ [], by rw [htext, hx]; simp,
        hdig c (by rw [hx]; simp)⟩
  · by_cases hpadc : (natToDecChars (q.num.natAbs * 10 ^ pow10Exp q.den / q.den)).length < pow10Exp q.den + 1
    · have htext : decimalRepr q =
          ((List.replicate (pow10Exp q.den + 1 - (natToDecChars (q.num.natAbs * 10 ^ pow10Exp q.den / q.den)).length) '0' ++ natToDecChars (q.num.natAbs * 10 ^ pow10Exp q.den / q.den)).take
            ((List.replicate (pow10Exp q.den + 1 - (natToDecChars (q.num.natAbs * 10 ^ pow10Exp q.den / q.den)).length) '0' ++
              natToDecChars (q.num.natAbs * 10 ^ pow10Exp q.den / q.den)).length - pow10Exp q.den) ++
          '.' :: (List.replicate (pow10Exp q.den + 1 - (natToDecChars (q.num.natAbs * 10 ^ pow10Exp q.den / q.den)).length) '0' ++
            natToDecChars (q.num.natAbs * 10 ^ pow10Exp q.den / q.den)).drop
            ((List.replicate (pow10Exp q.den + 1 - (natToDecChars (q.num.natAbs * 10 ^ pow10Exp q.den / q.den)).length) '0' ++
              natToDecChars (q.num.natAbs * 10 ^ pow10Exp q.den / q.den)).length - pow10Exp q.den)) := by
        simp only [decimalRepr, if_neg hs, if_neg hk0, if_pos hpadc]
      rw [htext]
      have hdsl1 : 1 ≤ (natToDecChars (q.num.natAbs * 10 ^ pow10Exp q.den / q.den)).length := by
        rcases hx : natToDecChars (q.num.natAbs * 10 ^ pow10Exp q.den / q.den) with _ | ⟨a, b⟩
        · exact absurd hx hne
        · simp
      rcases hrep : List.replicate (pow10Exp q.den + 1 - (natToDecChars (q.num.natAbs * 10 ^ pow10Exp q.den / q.den)).length) '0' with
        _ | ⟨z, zs⟩
      · exfalso
        have := congrArg List.length hrep
        simp only [List.length_replicate, List.length_nil] at this
        omega
      · have hz : z = '0' :=
          List.eq_of_mem_replicate (hrep ▸ (List.mem_cons_self z zs))
        have hlen1 : 1 ≤ (z :: (zs ++ natToDecChars (q.num.natAbs * 10 ^ pow10Exp q.den / q.den))).length - pow10Exp q.den := by
          have h2 := congrArg List.length hrep
          simp only [List.length_replicate, List.length_cons] at h2
          simp only [List.length_append, List.length_cons]
          omega
        have htake : (z :: (zs ++ natToDecChars (q.num.natAbs * 10 ^ pow10Exp q.den / q.den))).take
            ((z :: (zs ++ natToDecChars (q.num.natAbs * 10 ^ pow10Exp q.den / q.den))).length - pow10Exp q.den) =
            z :: (zs ++ natToDecChars (q.num.natAbs * 10 ^ pow10Exp q.den / q.den)).take
              ((z :: (zs ++ natToDecChars (q.num.natAbs * 10 ^ pow10Exp q.den / q.den))).length - pow10Exp q.den - 1) := by
          rcases hY : (z :: (zs ++ natToDecChars (q.num.natAbs * 10 ^ pow10Exp q.den / q.den))).length - pow10Exp q.den with _ | m
          · omega
          · simp [List.take]
        refine ⟨z, (zs ++ natToDecChars (q.num.natAbs * 10 ^ pow10Exp q.den / q.den)).take
            ((z :: (zs ++ natToDecChars (q.num.natAbs * 10 ^ pow10Exp q.den / q.den))).length - pow10Exp q.den - 1) ++
            '.' :: (z :: (zs ++ natToDecChars (q.num.natAbs * 10 ^ pow10Exp q.den / q.den))).drop
              ((z :: (zs ++ natToDecChars (q.num.natAbs * 10 ^ pow10Exp q.den / q.den))).length - pow10Exp q.den), ?_, ?_⟩
        · simp only [List.cons_append]
          rw [htake]
          simp
        · rw [hz]
          decide
    · have htext : decimalRepr q =
          ((natToDecChars (q.num.natAbs * 10 ^ pow10Exp q.den / q.den)).take ((natToDecChars (q.num.natAbs * 10 ^ pow10Exp q.den / q.den)).length - pow10Exp q.den) ++
          '.' :: (natToDecChars (q.num.natAbs * 10 ^ pow10Exp q.den / q.den)).drop ((natToDecChars (q.num.natAbs * 10 ^ pow10Exp q.den / q.den)).length - pow10Exp q.den)) := by
        simp only [decimalRepr, if_neg hs, if_neg hk0, if_neg hpadc]
      rw [htext]
      rcases hx : natToDecChars (q.num.natAbs * 10 ^ pow10Exp q.den / q.den) with _ | ⟨a, b⟩
      · exact absurd hx hne
      · have hadig : isDigitChar a = true := hdig a (by rw [hx]; simp)
        have hlen1 : 1 ≤ (a :: b).length - pow10Exp q.den := by
          rw [hx] at hpadc
          simp only [List.length_cons] at hpadc ⊢
          omega
        have htake : (a :: b).take ((a :: b).length - pow10Exp q.den) =
            a :: b.take ((a :: b).length - pow10Exp q.den - 1) := by
          rcases hY : (a :: b).length - pow10Exp q.den with _ | m
          · omega
          · simp [List.take]
        refine ⟨a, b.take ((a :: b).length - pow10Exp q.den - 1) ++
            '.' :: (a :: b).drop ((a :: b).length - pow10Exp q.den), ?_, hadig⟩
        rw [htake]
        simp


/-- The head character of a nonnegative `decimalRepr` output is a digit,
and the output is nonempty; a negative one starts with a minus sign. -/
theorem decimalRepr_head (q : ℚ) :
    ∃ c cs, decimalRepr q = c :: cs ∧
      (c = '-' ∨ isDigitChar c = true) := by
  by_cases hs : q.num < 0
  · rw [decimalRepr_neg q hs]
    exact ⟨'-', _, rfl, Or.inl rfl⟩
  · obtain ⟨c, cs, heq, hdig⟩ := decimalRepr_head_nonneg q hs
    exact ⟨c, cs, heq, Or.inr hdig⟩

/-- A digit character is not whitespace, a closer, or a comma. -/
theorem digit_head_props {c : Char} (h : isDigitChar c = true) :
    isJsonWs c = false ∧ c ≠ ']' ∧ c ≠ rbraceC ∧ c ≠ ',' := by
  refine ⟨?_, ?_, ?_, ?_⟩
  · rcases hb : isJsonWs c with _ | _
    · rfl
    · exfalso
      simp only [isJsonWs, Bool.or_eq_true, decide_eq_true_eq] at hb
      rcases hb with ((h1 | h1) | h1) | h1 <;> subst h1 <;>
        exact absurd h (by decide)
  · intro hc
    subst hc
    exact absurd h (by decide)
  · intro hc
    subst hc
    exact absurd h (by decide)
  · intro hc
    subst hc
    exact absurd h (by decide)

/-- The first character of any serialized value is not whitespace, not a
closing delimiter, and not a comma — so the decoder's look-ahead checks
never misfire. -/
theorem stringifyV_head (gap ind : List Char) (v : Value) :
    ∃ c cs, stringifyV gap ind v = c :: cs ∧ isJsonWs c = false ∧
      c ≠ ']' ∧ c ≠ rbraceC ∧ c ≠ ',' := by
  rcases v with _ | b | n | s | vs | m
  · exact ⟨'n', _, rfl, by decide, by decide, by decide, by decide⟩
  · rcases b with _ | _
    · exact ⟨'f', _, rfl, by decide, by decide, by decide, by decide⟩
    · exact ⟨'t', _, rfl, by decide, by decide, by decide, by decide⟩
  · rcases n with q | _ | _
    · obtain ⟨c, cs, hrepr, hc⟩ := decimalRepr_head q
      refine ⟨c, cs, by simp only [stringifyV, jnumRepr]; exact hrepr, ?_⟩
      rcases hc with h | h
      · subst h
        exact ⟨by decide, by decide, by decide, by decide⟩
      · exact digit_head_props h
    · exact ⟨'n', _, rfl, by decide, by decide, by decide, by decide⟩
    · exact ⟨'n', _, rfl, by decide, by decide, by decide, by decide⟩
  · exact ⟨quoteD, _, rfl, by decide, by decide, by decide, by decide⟩
  · rcases vs with _ | ⟨v0, vs'⟩
    · exact ⟨'[', _, rfl, by decide, by decide, by decide, by decide⟩
    · by_cases hg : gap = []
      · have hh : ∃ cs, stringifyV gap ind (.arr (v0 :: vs')) =
            '[' :: cs := by
          simp only [stringifyV, if_pos hg]
          exact ⟨_, rfl⟩
        obtain ⟨cs, hcs⟩ := hh
        exact ⟨'[', cs, hcs, by decide, by decide, by decide, by decide⟩
      · have hh : ∃ cs, stringifyV gap ind (.arr (v0 :: vs')) =
            '[' :: cs := by
          simp only [stringifyV, if_neg hg]
          exact ⟨_, rfl⟩
        obtain ⟨cs, hcs⟩ := hh
        exact ⟨'[', cs, hcs, by decide, by decide, by decide, by decide⟩
  · rcases m with _ | ⟨e0, m'⟩
    · exact ⟨lbraceC, _, rfl, by decide, by decide, by decide, by decide⟩
    · by_cases hg : gap = []
      · have hh : ∃ cs, stringifyV gap ind (.obj (e0 :: m')) =
            lbraceC :: cs := by
          simp only [stringifyV, if_pos hg]
          exact ⟨_, rfl⟩
        obtain ⟨cs, hcs⟩ := hh
        exact ⟨lbraceC, cs, hcs, by decide, by decide, by decide,
          by decide⟩
      · have hh : ∃ cs, stringifyV gap ind (.obj (e0 :: m')) =
            lbraceC :: cs := by
          simp only [stringifyV, if_neg hg]
          exact ⟨_, rfl⟩
        obtain ⟨cs, hcs⟩ := hh
        exact ⟨lbraceC, cs, hcs, by decide, by decide, by decide,
          by decide⟩

/-- Setting a fresh key appends the whole entry at the end. -/
theorem recordSet_fresh (m : List (List Char × Value)) (k : List Char)
    (v : Value) (h : ¬ k ∈ m.map Prod.fst) :
    recordSet m k v = m ++ [(k, v)] := by
  induction m with
  | nil => rfl
  | cons e rest ih =>
    rcases e with ⟨k', v'⟩
    simp only [List.map_cons, List.mem_cons] at h
    push_neg at h
    have hne : ¬ k' = k := fun hc => h.1 hc.symm
    simp [recordSet, hne, ih h.2]

/-- Escaping a character yields at least one character. -/
theorem escapeJSONChar_len (c : Char) : 1 ≤ (escapeJSONChar c).length := by
  unfold escapeJSONChar
  split_ifs <;> simp [hex4Lower]

/-- The escaped body (with closing quote) is longer than the string. -/
theorem quoteBody_len (s : List Char) :
    s.length <
      (s.foldr (fun c acc => escapeJSONChar c ++ acc) [quoteD]).length := by
  induction s with
  | nil => simp
  | cons c s' ih =>
    simp only [List.foldr_cons, List.length_append, List.length_cons]
    have := escapeJSONChar_len c
    omega

/-- Every value has positive size. -/
theorem vSize_pos (v : Value) : 1 ≤ vSize v := by
  cases v <;> simp [vSize] <;> omega

/-- `valueOkOB` is the conjunction of `valueOkB` over the entry values. -/
theorem valueOkOB_eq_all (m : List (List Char × Value)) :
    valueOkOB m = m.all (fun e => valueOkB e.2) := by
  induction m with
  | nil => rfl
  | cons e rest ih =>
    rcases e with ⟨k, v⟩
    simp [valueOkOB, ih]

/-- `finiteVOB` is the conjunction of `finiteVB` over the entry values. -/
theorem finiteVOB_eq_all (m : List (List Char × Value)) :
    finiteVOB m = m.all (fun e => finiteVB e.2) := by
  induction m with
  | nil => rfl
  | cons e rest ih =>
    rcases e with ⟨k, v⟩
    simp [finiteVOB, ih]

/-- `oSize` as a sum over the entries. -/
theorem oSize_eq_sum (m : List (List Char × Value)) :
    oSize m = (m.map (fun e => 1 + vSize e.2)).sum := by
  induction m with
  | nil => rfl
  | cons e rest ih =>
    rcases e with ⟨k, v⟩
    simp only [oSize, ih, List.map_cons, List.sum_cons]

/-- `valueOkOB` is invariant under permutation of the entries. -/
theorem valueOkOB_perm {m m' : List (List Char × Value)} (h : m.Perm m') :
    valueOkOB m = valueOkOB m' := by
  rw [valueOkOB_eq_all, valueOkOB_eq_all]
  rcases hx : m'.all (fun e => valueOkB e.2) with _ | _
  · rw [List.all_eq_false] at hx ⊢
    obtain ⟨x, hx1, hx2⟩ := hx
    exact ⟨x, h.mem_iff.mpr hx1, hx2⟩
  · rw [List.all_eq_true] at hx ⊢
    exact fun x hxm => hx x (h.mem_iff.mp hxm)

/-- `finiteVOB` is invariant under permutation of the entries. -/
theorem finiteVOB_perm {m m' : List (List Char × Value)} (h : m.Perm m') :
    finiteVOB m = finiteVOB m' := by
  rw [finiteVOB_eq_all, finiteVOB_eq_all]
  rcases hx : m'.all (fun e => finiteVB e.2) with _ | _
  · rw [List.all_eq_false] at hx ⊢
    obtain ⟨x, hx1, hx2⟩ := hx
    exact ⟨x, h.mem_iff.mpr hx1, hx2⟩
  · rw [List.all_eq_true] at hx ⊢
    exact fun x hxm => hx x (h.mem_iff.mp hxm)

/-- `oSize` is invariant under permutation of the entries. -/
theorem oSize_perm {m m' : List (List Char × Value)} (h : m.Perm m') :
    oSize m = oSize m' := by
  rw [oSize_eq_sum, oSize_eq_sum]
  exact (h.map _).sum_eq

/-- Length of a joined item list: the item lengths plus one separator
between consecutive items. -/
theorem joinItems_length (gap ind1 : List Char) (ts : List (List Char))
    (h : ts ≠ []) :
    (joinItems gap ind1 ts).length =
      (ts.map List.length).sum +
        (ts.length - 1) * (itemSep gap ind1).length := by
  induction ts with
  | nil => exact absurd rfl h
  | cons x ts' ih =>
    rcases ts' with _ | ⟨y, xs⟩
    · simp [joinItems]
    · have ih' := ih (by simp)
      simp only [joinItems, List.length_append, List.map_cons,
        List.sum_cons, List.length_cons, Nat.add_sub_cancel] at ih' ⊢
      rw [ih']
      ring

/-- Joined length is invariant under permutation of the items. -/
theorem joinItems_perm_length (gap ind1 : List Char)
    {ts ts' : List (List Char)} (h : ts.Perm ts') (hne : ts ≠ []) :
    (joinItems gap ind1 ts).length = (joinItems gap ind1 ts').length := by
  have hne' : ts' ≠ [] := by
    intro hc
    subst hc
    exact hne h.eq_nil
  rw [joinItems_length gap ind1 ts hne, joinItems_length gap ind1 ts' hne',
    h.length_eq, (h.map List.length).sum_eq]

/-- A joined item list begins with its first item. -/
theorem joinItems_cons (gap ind1 : List Char) (x : List Char)
    (xs : List (List Char)) :
    ∃ t, joinItems gap ind1 (x :: xs) = x ++ t := by
  rcases xs with _ | ⟨y, ys⟩
  · exact ⟨[], by simp [joinItems]⟩
  · exact ⟨itemSep gap ind1 ++ joinItems gap ind1 (y :: ys),
      by simp [joinItems, List.append_assoc]⟩

/-- A whitespace character cannot extend a number literal. -/
theorem ws_char_props {c : Char} (h : isJsonWs c = true) :
    isDigitChar c = false ∧ c ≠ '.' ∧ c ≠ 'e' ∧ c ≠ 'E' := by
  simp only [isJsonWs, Bool.or_eq_true, decide_eq_true_eq] at h
  rcases h with ((h1 | h1) | h1) | h1 <;> subst h1 <;>
    exact ⟨by decide, by decide, by decide, by decide⟩

/-- A digit character is none of the decoder's keyword or punctuation
look-ahead characters. -/
theorem digit_not_kw {c : Char} (h : isDigitChar c = true) :
    c ≠ 'n' ∧ c ≠ 't' ∧ c ≠ 'f' ∧ c ≠ quoteD ∧ c ≠ '-' := by
  refine ⟨?_, ?_, ?_, ?_, ?_⟩ <;> intro hc <;> subst hc <;>
    exact absurd h (by decide)

/-- A member's size bounds each member of the list total. -/
theorem lSize_mem {v : Value} {vs : List Value} (h : v ∈ vs) :
    vSize v ≤ lSize vs := by
  induction vs with
  | nil => simp at h
  | cons w ws ih =>
    rcases List.mem_cons.mp h with h | h
    · subst h
      simp only [lSize]
      omega
    · have h2 := ih h
      simp only [lSize]
      omega

/-- An entry value's size bounds the entry list total. -/
theorem oSize_mem {e : List Char × Value} {m : List (List Char × Value)}
    (h : e ∈ m) : vSize e.2 ≤ oSize m := by
  induction m with
  | nil => simp at h
  | cons e' m' ih =>
    rcases e' with ⟨k', v'⟩
    rcases List.mem_cons.mp h with h | h
    · subst h
      simp only [oSize]
      omega
    · have h2 := ih h
      simp only [oSize]
      omega

/-- Sizes of array elements are bounded by the joined serialized items. -/
theorem arr_join_size (gap ind1 : List Char) (vs : List Value)
    (hne : vs ≠ [])
    (hb : ∀ v ∈ vs, vSize v ≤ (stringifyV gap ind1 v).length) :
    lSize vs ≤
      1 + (joinItems gap ind1 (stringifyArrItems gap ind1 vs)).length := by
  induction vs with
  | nil => exact absurd rfl hne
  | cons v vs' ih =>
    rcases vs' with _ | ⟨w, ws⟩
    · have h0 := hb v (by simp)
      simp only [stringifyArrItems, joinItems, lSize]
      omega
    · have h0 := hb v (by simp)
      have ih' := ih (by simp) (fun x hx => hb x (List.mem_cons_of_mem _ hx))
      have hsep : 1 ≤ (itemSep gap ind1).length := by
        unfold itemSep
        split <;> simp
      simp only [stringifyArrItems, joinItems, lSize,
        List.length_append] at ih' ⊢
      omega

/-- Sizes of object entries are bounded by the joined serialized
entries. -/
theorem obj_join_size (gap ind1 : List Char)
    (m : List (List Char × Value)) (hne : m ≠ [])
    (hb : ∀ e ∈ m, vSize e.2 ≤ (stringifyV gap ind1 e.2).length) :
    oSize m ≤ 1 + (joinItems gap ind1
      ((stringifyObjItems gap ind1 m).map Prod.snd)).length := by
  induction m with
  | nil => exact absurd rfl hne
  | cons e m' ih =>
    rcases e with ⟨k, v⟩
    rcases m' with _ | ⟨e1, m''⟩
    · have h0 := hb (k, v) (by simp)
      simp only [stringifyObjItems, List.map_cons, List.map_nil, joinItems,
        oSize, List.length_append, List.length_cons]
      simp only at h0
      omega
    · have h0 := hb (k, v) (by simp)
      have ih' := ih (by simp) (fun x hx => hb x (List.mem_cons_of_mem _ hx))
      have hsep : 1 ≤ (itemSep gap ind1).length := by
        unfold itemSep
        split <;> simp
      simp only at h0
      simp only [stringifyObjItems, List.map_cons, joinItems, oSize,
        List.length_append, List.length_cons] at ih' ⊢
      omega

/-- A value's size is bounded by the length of its serialization (bounded
recursion on the size). -/
theorem stringify_size_aux : ∀ n : Nat, ∀ v : Value, vSize v ≤ n →
    ∀ gap ind : List Char, vSize v ≤ (stringifyV gap ind v).length := by
  intro n
  induction n with
  | zero =>
    intro v hv
    have := vSize_pos v
    omega
  | succ n ih =>
    intro v hv gap ind
    rcases v with _ | b | nm | s | vs | m
    · simp [vSize, stringifyV]
    · rcases b with _ | _ <;> simp [vSize, stringifyV]
    · rcases nm with q | _ | _
      · obtain ⟨c, cs, heq, _⟩ := decimalRepr_head q
        simp [vSize, stringifyV, jnumRepr, heq]
      · simp [vSize, stringifyV, jnumRepr]
      · simp [vSize, stringifyV, jnumRepr]
    · have hb := quoteBody_len s
      simp only [vSize, stringifyV, quoteJSONString, List.length_cons]
      omega
    · rcases vs with _ | ⟨v0, vs'⟩
      · simp [vSize, stringifyV, lSize]
      · have hvv : vSize (.arr (v0 :: vs')) = 1 + lSize (v0 :: vs') := rfl
        have hb : ∀ x ∈ v0 :: vs',
            vSize x ≤ (stringifyV gap (ind ++ gap) x).length := by
          intro x hx
          have hlt := lSize_mem hx
          exact ih x (by omega) gap (ind ++ gap)
        have hj := arr_join_size gap (ind ++ gap) (v0 :: vs') (by simp) hb
        by_cases hg : gap = []
        · simp only [stringifyV, if_pos hg, List.length_append,
            List.length_cons, List.length_nil]
          rw [hvv]
          omega
        · simp only [stringifyV, if_neg hg, List.length_append,
            List.length_cons, List.length_nil]
          rw [hvv]
          omega
    · rcases m with _ | ⟨e0, m'⟩
      · simp [vSize, stringifyV, oSize]
      · have hvv : vSize (.obj (e0 :: m')) = 1 + oSize (e0 :: m') := rfl
        have hb : ∀ e ∈ e0 :: m',
            vSize e.2 ≤ (stringifyV gap (ind ++ gap) e.2).length := by
          intro e he
          have hlt := oSize_mem he
          exact ih e.2 (by omega) gap (ind ++ gap)
        have hj := obj_join_size gap (ind ++ gap) (e0 :: m') (by simp) hb
        have hperm :
            ((jsOwnKeys (stringifyObjItems gap (ind ++ gap)
              (e0 :: m'))).map Prod.snd).Perm
            ((stringifyObjItems gap (ind ++ gap) (e0 :: m')).map
              Prod.snd) :=
          (jsOwnKeys_perm _).map _
        have hlen := joinItems_perm_length gap (ind ++ gap) hperm
          (by
            intro hc
            have h1 := congrArg List.length hc
            rw [List.length_map,
              (jsOwnKeys_perm (stringifyObjItems gap (ind ++ gap)
                (e0 :: m'))).length_eq, stringifyObjItems_eq_map,
              List.length_map] at h1
            simp at h1)
        by_cases hg : gap = []
        · simp only [stringifyV, if_pos hg, List.length_append,
            List.length_cons, List.length_nil]
          rw [hvv, hlen]
          omega
        · simp only [stringifyV, if_neg hg, List.length_append,
            List.length_cons, List.length_nil]
          rw [hvv, hlen]
          omega

/-- A value's size is bounded by the length of its serialization. -/
theorem stringify_size (v : Value) (gap ind : List Char) :
    vSize v ≤ (stringifyV gap ind v).length :=
  stringify_size_aux (vSize v) v (Nat.le_refl _) gap ind

/-- Dropping whitespace stops at a non-whitespace head. -/
theorem dropWhile_not_ws {c : Char} (h : isJsonWs c = false)
    (l : List Char) : (c :: l).dropWhile isJsonWs = c :: l := by
  simp [List.dropWhile_cons, h]

/-- Whitespace-only lists are closed under append. -/
theorem wsOnly_append {a b : List Char} (ha : wsOnly a) (hb : wsOnly b) :
    wsOnly (a ++ b) := by
  intro c hc
  rcases List.mem_append.mp hc with h | h
  · exact ha c h
  · exact hb c h

/-- A whitespace prefix followed by a safe boundary character is a safe
number boundary. -/
theorem goodNumBoundary_ws_cons {w : List Char} (hw : wsOnly w) {c : Char}
    (h : isDigitChar c = false ∧ c ≠ '.' ∧ c ≠ 'e' ∧ c ≠ 'E')
    (r : List Char) : goodNumBoundary (w ++ c :: r) := by
  rcases w with _ | ⟨c0, w'⟩
  · exact Or.inr ⟨c, r, by simp, h.1, h.2.1, h.2.2.1, h.2.2.2⟩
  · refine Or.inr ⟨c0, w' ++ c :: r, by simp, ?_⟩
    exact ws_char_props (hw c0 (by simp))


set_option maxHeartbeats 1000000 in
/-- Decoding a serialized value returns its canonical form: mutual fuel
induction over the value, array-elements, and object-members decoders. -/
theorem stringify_decode : ∀ f : Nat,
    (∀ gap ind v rest, vSize v ≤ f → valueOkB v = true →
      finiteVB v = true → wsOnly gap → wsOnly ind → goodNumBoundary rest →
      jsonParseValue f (stringifyV gap ind v ++ rest) =
        some (canonV v, rest)) ∧
    (∀ gap ind1 vs w0 w1 rest, vs ≠ [] → lSize vs ≤ f →
      valueOkLB vs = true → finiteVLB vs = true →
      wsOnly gap → wsOnly ind1 → wsOnly w0 → wsOnly w1 →
      jsonParseElems f (w0 ++ joinItems gap ind1
          (stringifyArrItems gap ind1 vs) ++ w1 ++ ']' :: rest) =
        some (canonL vs, rest)) ∧
    (∀ gap ind1 es acc w0 w1 rest, es ≠ [] → oSize es ≤ f →
      valueOkOB es = true → finiteVOB es = true →
      ((es.map Prod.fst).Nodup) →
      (∀ k ∈ es.map Prod.fst, ¬ k ∈ acc.map Prod.fst) →
      wsOnly gap → wsOnly ind1 → wsOnly w0 → wsOnly w1 →
      jsonParseMembers f acc (w0 ++ joinItems gap ind1
          ((stringifyObjItems gap ind1 es).map Prod.snd) ++ w1 ++
          rbraceC :: rest) =
        some (acc ++ canonO es, rest)) := by
  intro f
  induction f with
  | zero =>
    refine ⟨?_, ?_, ?_⟩
    · intro gap ind v rest hsz _ _ _ _ _
      have := vSize_pos v
      omega
    · intro gap ind1 vs w0 w1 rest hne hsz _ _ _ _ _ _
      rcases vs with _ | ⟨v0, vs'⟩
      · exact absurd rfl hne
      · simp only [lSize] at hsz
        have := vSize_pos v0
        omega
    · intro gap ind1 es acc w0 w1 rest hne hsz _ _ _ _ _ _ _ _
      rcases es with _ | ⟨⟨k, v⟩, es'⟩
      · exact absurd rfl hne
      · simp only [oSize] at hsz
        have := vSize_pos v
        omega
  | succ f ih =>
    obtain ⟨ihV, ihE, ihM⟩ := ih
    refine ⟨?_, ?_, ?_⟩
    · -- the value decoder
      intro gap ind v rest hsz hok hfin hg hi hrest
      rcases v with _ | b | nm | s | vs | m
      · -- null
        rfl
      · -- booleans
        cases b <;> rfl
      · -- numbers
        rcases nm with q | _ | _
        · have hden : isDecDen q.den = true := by
            simpa [valueOkB, numOkB] using hok
          by_cases hneg : q.num < 0
          · have hS : stringifyV gap ind (Value.num (JNum.fin q)) ++ rest =
                '-' :: (decimalRepr (-q) ++ rest) := by
              simp [stringifyV, jnumRepr, decimalRepr_neg q hneg]
            rw [hS]
            simp only [jsonParseValue,
              dropWhile_not_ws (by decide : isJsonWs '-' = false)]
            simp +decide only [ite_true, ite_false]
            have hq' : 0 ≤ (-q).num := by
              rw [Rat.neg_num]
              omega
            have hden' : isDecDen (-q).den = true := by
              rw [Rat.neg_den]
              exact hden
            rw [decimalRepr_decode (-q) hq' hden' rest hrest]
            simp [canonV]
          · obtain ⟨c, cs, heq, hcdig⟩ := decimalRepr_head_nonneg q hneg
            obtain ⟨hn, ht, hf2, hq2, hm2⟩ := digit_not_kw hcdig
            have hprops := digit_head_props hcdig
            have hS : stringifyV gap ind (Value.num (JNum.fin q)) ++ rest =
                c :: (cs ++ rest) := by
              simp [stringifyV, jnumRepr, heq]
            rw [hS]
            simp only [jsonParseValue, dropWhile_not_ws hprops.1]
            rw [if_neg hn, if_neg ht, if_neg hf2, if_neg hq2, if_neg hm2,
              if_pos hcdig]
            have hback : c :: (cs ++ rest) = decimalRepr q ++ rest := by
              rw [heq]
              simp
            rw [hback, decimalRepr_decode q (by omega) hden rest hrest]
            simp [canonV]
        · simp [finiteVB, finiteNumB] at hfin
        · simp [finiteVB, finiteNumB] at hfin
      · -- strings
        have hS : stringifyV gap ind (Value.str s) ++ rest =
            quoteD :: (s.foldr (fun c acc => escapeJSONChar c ++ acc)
              [quoteD] ++ rest) := by
          simp [stringifyV, quoteJSONString]
        rw [hS]
        simp only [jsonParseValue,
          dropWhile_not_ws (by decide : isJsonWs quoteD = false)]
        simp +decide only [ite_true, ite_false]
        have hlen : s.length <
            (s.foldr (fun c acc => escapeJSONChar c ++ acc) [quoteD] ++
              rest).length.succ := by
          have := quoteBody_len s
          simp only [List.length_append]
          omega
        rw [quote_body_decode s _ rest hlen]
        rfl
      · -- arrays
        rcases vs with _ | ⟨v0, vs'⟩
        · rfl
        · have hvv : vSize (Value.arr (v0 :: vs')) =
              1 + lSize (v0 :: vs') := rfl
          have hokL : valueOkLB (v0 :: vs') = true := by
            simpa [valueOkB] using hok
          have hfinL : finiteVLB (v0 :: vs') = true := by
            simpa [finiteVB] using hfin
          obtain ⟨c0, cs0, hs0, hws0, hrb0, hbr0, hcm0⟩ :=
            stringifyV_head gap (ind ++ gap) v0
          obtain ⟨t0, hjoin⟩ := joinItems_cons gap (ind ++ gap)
            (stringifyV gap (ind ++ gap) v0)
            (stringifyArrItems gap (ind ++ gap) vs')
          have hha : stringifyArrItems gap (ind ++ gap) (v0 :: vs') =
              stringifyV gap (ind ++ gap) v0 ::
                stringifyArrItems gap (ind ++ gap) vs' := rfl
          by_cases hg0 : gap = []
          · have hS : stringifyV gap ind (Value.arr (v0 :: vs')) ++ rest =
                '[' :: (joinItems gap (ind ++ gap)
                  (stringifyArrItems gap (ind ++ gap) (v0 :: vs')) ++
                  (']' :: rest)) := by
              simp [stringifyV, if_pos hg0, List.append_assoc]
            rw [hS]
            simp only [jsonParseValue,
              dropWhile_not_ws (by decide : isJsonWs '[' = false)]
            simp +decide only [ite_true, ite_false]
            have hdw : (joinItems gap (ind ++ gap)
                (stringifyArrItems gap (ind ++ gap) (v0 :: vs')) ++
                (']' :: rest)).dropWhile isJsonWs =
                c0 :: (cs0 ++ (t0 ++ (']' :: rest))) := by
              rw [hha, hjoin, hs0]
              simp only [List.cons_append, List.append_assoc]
              exact dropWhile_not_ws hws0 _
            rw [hdw]
            split
            · rename_i r heqm
              injection heqm with h1 h2
              exact absurd h1 hrb0
            · have hE := ihE gap (ind ++ gap) (v0 :: vs') [] [] rest
                (by simp) (by omega) hokL hfinL hg (wsOnly_append hi hg)
                (by intro c hc; simp at hc) (by intro c hc; simp at hc)
              simp only [List.append_assoc, List.cons_append,
                List.nil_append, List.append_nil] at hE ⊢
              rw [hE]
              simp [canonV]
          · have hS : stringifyV gap ind (Value.arr (v0 :: vs')) ++ rest =
                '[' :: (('\n' :: (ind ++ gap)) ++ (joinItems gap (ind ++ gap)
                  (stringifyArrItems gap (ind ++ gap) (v0 :: vs')) ++
                  (('\n' :: ind) ++ (']' :: rest)))) := by
              simp [stringifyV, if_neg hg0, List.append_assoc]
            rw [hS]
            simp only [jsonParseValue,
              dropWhile_not_ws (by decide : isJsonWs '[' = false)]
            simp +decide only [ite_true, ite_false]
            have hw0' : wsOnly ('\n' :: (ind ++ gap)) := by
              intro c hc
              rcases List.mem_cons.mp hc with h | h
              · subst h
                decide
              · exact wsOnly_append hi hg c h
            have hw1' : wsOnly ('\n' :: ind) := by
              intro c hc
              rcases List.mem_cons.mp hc with h | h
              · subst h
                decide
              · exact hi c h
            have hdw : (('\n' :: (ind ++ gap)) ++ (joinItems gap (ind ++ gap)
                (stringifyArrItems gap (ind ++ gap) (v0 :: vs')) ++
                (('\n' :: ind) ++ (']' :: rest)))).dropWhile isJsonWs =
                c0 :: (cs0 ++ (t0 ++ (('\n' :: ind) ++ (']' :: rest)))) := by
              rw [dropWhile_ws_append _ _ hw0', hha, hjoin, hs0]
              simp only [List.cons_append, List.append_assoc]
              exact dropWhile_not_ws hws0 _
            rw [hdw]
            split
            · rename_i r heqm
              injection heqm with h1 h2
              exact absurd h1 hrb0
            · have hE := ihE gap (ind ++ gap) (v0 :: vs')
                ('\n' :: (ind ++ gap)) ('\n' :: ind) rest (by simp)
                (by omega) hokL hfinL hg (wsOnly_append hi hg) hw0' hw1'
              simp only [List.append_assoc, List.cons_append,
                List.nil_append, List.append_nil] at hE ⊢
              rw [hE]
              simp [canonV]
      · -- objects
        rcases m with _ | ⟨e0, m'⟩
        · rfl
        · have hvv : vSize (Value.obj (e0 :: m')) =
              1 + oSize (e0 :: m') := rfl
          have hok' := hok
          rw [show valueOkB (Value.obj (e0 :: m')) =
            (decide (((e0 :: m').map Prod.fst).Nodup) &&
              valueOkOB (e0 :: m')) from rfl, Bool.and_eq_true] at hok'
          have hok2 : ((e0 :: m').map Prod.fst).Nodup ∧
              valueOkOB (e0 :: m') = true :=
            ⟨of_decide_eq_true hok'.1, hok'.2⟩
          have hfinm : finiteVOB (e0 :: m') = true := by
            simpa [finiteVB] using hfin
          have hperm := jsOwnKeys_perm (e0 :: m')
          have hkm := jsOwnKeys_keymap
            (fun k v => quoteJSONString k ++ ':' ::
              (if gap = [] then [] else [' ']) ++
              stringifyV gap (ind ++ gap) v) (e0 :: m')
          simp only [] at hkm
          have hcomm : jsOwnKeys (stringifyObjItems gap (ind ++ gap)
              (e0 :: m')) = stringifyObjItems gap (ind ++ gap)
              (jsOwnKeys (e0 :: m')) := by
            rw [stringifyObjItems_eq_map, stringifyObjItems_eq_map]
            exact hkm
          have hkm2 := jsOwnKeys_keymap (fun k v => canonV v) (e0 :: m')
          simp only [] at hkm2
          have hcanon : canonO (jsOwnKeys (e0 :: m')) =
              jsOwnKeys (canonO (e0 :: m')) := by
            rw [canonO_eq_map, canonO_eq_map]
            exact hkm2.symm
          rcases hes : jsOwnKeys (e0 :: m') with _ | ⟨⟨k1, v1⟩, es'⟩
          · exfalso
            have hlen := congrArg List.length hes
            rw [hperm.length_eq] at hlen
            simp at hlen
          · obtain ⟨t1, hjoin1⟩ := joinItems_cons gap (ind ++ gap)
              (quoteJSONString k1 ++ ':' ::
                (if gap = [] then [] else [' ']) ++
                stringifyV gap (ind ++ gap) v1)
              ((stringifyObjItems gap (ind ++ gap) es').map Prod.snd)
            have htexts : (stringifyObjItems gap (ind ++ gap)
                (jsOwnKeys (e0 :: m'))).map Prod.snd =
                (quoteJSONString k1 ++ ':' ::
                  (if gap = [] then [] else [' ']) ++
                  stringifyV gap (ind ++ gap) v1) ::
                (stringifyObjItems gap (ind ++ gap) es').map Prod.snd := by
              rw [hes]
              simp only [stringifyObjItems, List.map_cons]
            have hMpre := ihM gap (ind ++ gap) (jsOwnKeys (e0 :: m'))
            have hsz' : oSize (jsOwnKeys (e0 :: m')) ≤ f := by
              rw [oSize_perm hperm]
              omega
            have hok' : valueOkOB (jsOwnKeys (e0 :: m')) = true := by
              rw [valueOkOB_perm hperm]
              exact hok2.2
            have hfin' : finiteVOB (jsOwnKeys (e0 :: m')) = true := by
              rw [finiteVOB_perm hperm]
              exact hfinm
            have hnd' : ((jsOwnKeys (e0 :: m')).map Prod.fst).Nodup :=
              ((hperm.map Prod.fst).nodup_iff).mpr hok2.1
            have hne' : jsOwnKeys (e0 :: m') ≠ [] := by
              rw [hes]
              simp
            by_cases hg0 : gap = []
            · have hS : stringifyV gap ind (Value.obj (e0 :: m')) ++ rest =
                  lbraceC :: (joinItems gap (ind ++ gap)
                    ((stringifyObjItems gap (ind ++ gap)
                      (jsOwnKeys (e0 :: m'))).map Prod.snd) ++
                    (rbraceC :: rest)) := by
                simp [stringifyV, if_pos hg0, hcomm, List.append_assoc]
              rw [hS]
              simp only [jsonParseValue,
                dropWhile_not_ws (by decide : isJsonWs lbraceC = false)]
              simp +decide only [ite_true, ite_false]
              have hdw : ∃ Y, (joinItems gap (ind ++ gap)
                  ((stringifyObjItems gap (ind ++ gap)
                    (jsOwnKeys (e0 :: m'))).map Prod.snd) ++
                  (rbraceC :: rest)).dropWhile isJsonWs =
                  quoteD :: Y := by
                rw [htexts, hjoin1,
                  show quoteJSONString k1 = quoteD :: k1.foldr
                    (fun c acc => escapeJSONChar c ++ acc) [quoteD] from rfl]
                simp only [List.cons_append, List.append_assoc]
                exact ⟨_, dropWhile_not_ws (by decide) _⟩
              obtain ⟨Y, hdwY⟩ := hdw
              rw [hdwY]
              simp +decide only [ite_true, ite_false]
              have hM := hMpre [] [] [] rest hne' hsz' hok' hfin' hnd'
                (by intro k hk; simp) hg (wsOnly_append hi hg)
                (by intro c hc; simp at hc) (by intro c hc; simp at hc)
              simp only [List.append_assoc, List.cons_append,
                List.nil_append, List.append_nil] at hM ⊢
              rw [hM]
              simp [canonV, hcanon]
            · have hS : stringifyV gap ind (Value.obj (e0 :: m')) ++ rest =
                  lbraceC :: (('\n' :: (ind ++ gap)) ++
                    (joinItems gap (ind ++ gap)
                      ((stringifyObjItems gap (ind ++ gap)
                        (jsOwnKeys (e0 :: m'))).map Prod.snd) ++
                      (('\n' :: ind) ++ (rbraceC :: rest)))) := by
                simp [stringifyV, if_neg hg0, hcomm, List.append_assoc]
              rw [hS]
              simp only [jsonParseValue,
                dropWhile_not_ws (by decide : isJsonWs lbraceC = false)]
              simp +decide only [ite_true, ite_false]
              have hw0' : wsOnly ('\n' :: (ind ++ gap)) := by
                intro c hc
                rcases List.mem_cons.mp hc with h | h
                · subst h
                  decide
                · exact wsOnly_append hi hg c h
              have hw1' : wsOnly ('\n' :: ind) := by
                intro c hc
                rcases List.mem_cons.mp hc with h | h
                · subst h
                  decide
                · exact hi c h
              have hdw : ∃ Y, (('\n' :: (ind ++ gap)) ++
                  (joinItems gap (ind ++ gap)
                    ((stringifyObjItems gap (ind ++ gap)
                      (jsOwnKeys (e0 :: m'))).map Prod.snd) ++
                    (('\n' :: ind) ++ (rbraceC :: rest)))).dropWhile
                  isJsonWs = quoteD :: Y := by
                rw [dropWhile_ws_append _ _ hw0', htexts, hjoin1,
                  show quoteJSONString k1 = quoteD :: k1.foldr
                    (fun c acc => escapeJSONChar c ++ acc) [quoteD] from rfl]
                simp only [List.cons_append, List.append_assoc]
                exact ⟨_, dropWhile_not_ws (by decide) _⟩
              obtain ⟨Y, hdwY⟩ := hdw
              rw [hdwY]
              simp +decide only [ite_true, ite_false]
              have hM := hMpre [] ('\n' :: (ind ++ gap)) ('\n' :: ind) rest
                hne' hsz' hok' hfin' hnd' (by intro k hk; simp) hg
                (wsOnly_append hi hg) hw0' hw1'
              simp only [List.append_assoc, List.cons_append,
                List.nil_append, List.append_nil] at hM ⊢
              rw [hM]
              simp [canonV, hcanon]
    · -- the array-elements decoder
      intro gap ind1 vs w0 w1 rest hne hsz hokL hfinL hg hi hw0 hw1
      rcases vs with _ | ⟨v0, vs'⟩
      · exact absurd rfl hne
      have hok0 : valueOkB v0 = true := by
        simp only [valueOkLB, Bool.and_eq_true] at hokL
        exact hokL.1
      have hokT : valueOkLB vs' = true := by
        simp only [valueOkLB, Bool.and_eq_true] at hokL
        exact hokL.2
      have hfin0 : finiteVB v0 = true := by
        simp only [finiteVLB, Bool.and_eq_true] at hfinL
        exact hfinL.1
      have hfinT : finiteVLB vs' = true := by
        simp only [finiteVLB, Bool.and_eq_true] at hfinL
        exact hfinL.2
      have hszs : lSize (v0 :: vs') = 1 + vSize v0 + lSize vs' := rfl
      rcases vs' with _ | ⟨v1, vs''⟩
      · -- a single element
        have hval : jsonParseValue f (w0 ++ joinItems gap ind1
            (stringifyArrItems gap ind1 [v0]) ++ w1 ++ ']' :: rest) =
            some (canonV v0, w1 ++ (']' :: rest)) := by
          have h1 : w0 ++ joinItems gap ind1
              (stringifyArrItems gap ind1 [v0]) ++ w1 ++ ']' :: rest =
              w0 ++ (stringifyV gap ind1 v0 ++ (w1 ++ (']' :: rest))) := by
            simp only [stringifyArrItems, joinItems, List.append_assoc]
          rw [h1, jsonParseValue_ws f w0 _ hw0]
          exact ihV gap ind1 v0 (w1 ++ (']' :: rest)) (by omega) hok0 hfin0
            hg hi (goodNumBoundary_ws_cons hw1
              ⟨by decide, by decide, by decide, by decide⟩ rest)
        simp only [jsonParseElems]
        rw [hval]
        simp only []
        rw [dropWhile_ws_append _ _ hw1,
          dropWhile_not_ws (by decide : isJsonWs ']' = false)]
        simp +decide [canonL]
      · -- at least two elements
        have hsep : itemSep gap ind1 = ',' ::
            (if gap = [] then [] else '\n' :: ind1) := by
          unfold itemSep
          split <;> rfl
        have hsepws : wsOnly (if gap = [] then ([] : List Char)
            else '\n' :: ind1) := by
          split
          · intro c hc
            simp at hc
          · intro c hc
            rcases List.mem_cons.mp hc with h | h
            · subst h
              decide
            · exact hi c h
        have hszT : lSize (v1 :: vs'') ≤ f := by
          rw [hszs] at hsz
          have := vSize_pos v0
          omega
        have hval : jsonParseValue f (w0 ++ joinItems gap ind1
            (stringifyArrItems gap ind1 (v0 :: v1 :: vs'')) ++ w1 ++
            ']' :: rest) = some (canonV v0, itemSep gap ind1 ++
            (joinItems gap ind1 (stringifyArrItems gap ind1 (v1 :: vs'')) ++
              (w1 ++ (']' :: rest)))) := by
          have h1 : w0 ++ joinItems gap ind1
              (stringifyArrItems gap ind1 (v0 :: v1 :: vs'')) ++ w1 ++
              ']' :: rest = w0 ++ (stringifyV gap ind1 v0 ++
              (itemSep gap ind1 ++ (joinItems gap ind1
                (stringifyArrItems gap ind1 (v1 :: vs'')) ++
                (w1 ++ (']' :: rest))))) := by
            simp only [stringifyArrItems, joinItems, List.append_assoc]
          rw [h1, jsonParseValue_ws f w0 _ hw0]
          refine ihV gap ind1 v0 _ (by rw [hszs] at hsz; omega) hok0 hfin0
            hg hi ?_
          rw [hsep]
          exact Or.inr ⟨',', (if gap = [] then [] else '\n' :: ind1) ++
            (joinItems gap ind1 (stringifyArrItems gap ind1 (v1 :: vs'')) ++
              (w1 ++ (']' :: rest))), by simp, by decide, by decide,
            by decide, by decide⟩
        simp only [jsonParseElems]
        rw [hval]
        simp only []
        rw [hsep]
        simp only [List.cons_append]
        rw [dropWhile_not_ws (by decide : isJsonWs ',' = false)]
        have hE := ihE gap ind1 (v1 :: vs'')
          (if gap = [] then [] else '\n' :: ind1) w1 rest (by simp) hszT
          hokT hfinT hg hi hsepws hw1
        simp only [List.append_assoc, List.cons_append,
          List.nil_append, List.append_nil] at hE ⊢
        rw [hE]
        simp [canonL]
    · -- the object-members decoder
      intro gap ind1 es acc w0 w1 rest hne hsz hokO hfinO hnd hdisj hg hi
        hw0 hw1
      rcases es with _ | ⟨⟨k, v⟩, es'⟩
      · exact absurd rfl hne
      have hok0 : valueOkB v = true := by
        simp only [valueOkOB, Bool.and_eq_true] at hokO
        exact hokO.1
      have hokT : valueOkOB es' = true := by
        simp only [valueOkOB, Bool.and_eq_true] at hokO
        exact hokO.2
      have hfin0 : finiteVB v = true := by
        simp only [finiteVOB, Bool.and_eq_true] at hfinO
        exact hfinO.1
      have hfinT : finiteVOB es' = true := by
        simp only [finiteVOB, Bool.and_eq_true] at hfinO
        exact hfinO.2
      have hszs : oSize ((k, v) :: es') = 1 + vSize v + oSize es' := rfl
      have hkfresh : ¬ k ∈ acc.map Prod.fst :=
        hdisj k (by rw [List.map_cons]; exact List.mem_cons_self _ _)
      have hpadws : wsOnly (if gap = [] then ([] : List Char)
          else [' ']) := by
        split
        · intro c hc
          simp at hc
        · intro c hc
          rcases List.mem_cons.mp hc with h | h
          · subst h
            decide
          · simp at h
      rcases es' with _ | ⟨⟨k1, v1⟩, es''⟩
      · -- the final member
        have hS : w0 ++ joinItems gap ind1
            ((stringifyObjItems gap ind1 [(k, v)]).map Prod.snd) ++ w1 ++
            rbraceC :: rest = w0 ++ (quoteD ::
            ((k.foldr (fun c acc => escapeJSONChar c ++ acc) [quoteD]) ++
            (':' :: ((if gap = [] then [] else [' ']) ++
              (stringifyV gap ind1 v ++ (w1 ++ (rbraceC :: rest))))))) := by
          simp only [stringifyObjItems, List.map_cons, List.map_nil,
            joinItems, quoteJSONString, List.cons_append,
            List.append_assoc]
        rw [hS]
        simp only [jsonParseMembers]
        rw [dropWhile_ws_append _ _ hw0,
          dropWhile_not_ws (by decide : isJsonWs quoteD = false)]
        simp +decide only [ite_true, ite_false]
        have hfuel : k.length < ((k.foldr
            (fun c acc => escapeJSONChar c ++ acc) [quoteD]) ++
            (':' :: ((if gap = [] then [] else [' ']) ++
              (stringifyV gap ind1 v ++
                (w1 ++ (rbraceC :: rest)))))).length.succ := by
          have := quoteBody_len k
          simp only [List.length_append]
          omega
        rw [quote_body_decode k _ _ hfuel]
        simp only []
        rw [dropWhile_not_ws (by decide : isJsonWs ':' = false)]
        simp +decide only [ite_true, ite_false]
        have hv2 : jsonParseValue f ((if gap = [] then [] else [' ']) ++
            (stringifyV gap ind1 v ++ (w1 ++ (rbraceC :: rest)))) =
            some (canonV v, w1 ++ (rbraceC :: rest)) := by
          rw [jsonParseValue_ws f _ _ hpadws]
          exact ihV gap ind1 v (w1 ++ (rbraceC :: rest))
            (by rw [hszs] at hsz; omega) hok0 hfin0 hg hi
            (goodNumBoundary_ws_cons hw1
              ⟨by decide, by decide, by decide, by decide⟩ rest)
        rw [hv2]
        simp only []
        rw [dropWhile_ws_append _ _ hw1,
          dropWhile_not_ws (by decide : isJsonWs rbraceC = false)]
        simp +decide only [ite_true, ite_false]
        rw [recordSet_fresh acc k (canonV v) hkfresh]
        simp [canonO]
      · -- a member followed by more members
        have hsep : itemSep gap ind1 = ',' ::
            (if gap = [] then [] else '\n' :: ind1) := by
          unfold itemSep
          split <;> rfl
        have hsepws : wsOnly (if gap = [] then ([] : List Char)
            else '\n' :: ind1) := by
          split
          · intro c hc
            simp at hc
          · intro c hc
            rcases List.mem_cons.mp hc with h | h
            · subst h
              decide
            · exact hi c h
        have hS : w0 ++ joinItems gap ind1
            ((stringifyObjItems gap ind1
              ((k, v) :: (k1, v1) :: es'')).map Prod.snd) ++ w1 ++
            rbraceC :: rest = w0 ++ (quoteD ::
            ((k.foldr (fun c acc => escapeJSONChar c ++ acc) [quoteD]) ++
            (':' :: ((if gap = [] then [] else [' ']) ++
              (stringifyV gap ind1 v ++ (itemSep gap ind1 ++
                (joinItems gap ind1 ((stringifyObjItems gap ind1
                  ((k1, v1) :: es'')).map Prod.snd) ++
                  (w1 ++ (rbraceC :: rest))))))))) := by
          simp only [stringifyObjItems, List.map_cons, joinItems,
            quoteJSONString, List.cons_append, List.append_assoc]
        rw [hS]
        simp only [jsonParseMembers]
        rw [dropWhile_ws_append _ _ hw0,
          dropWhile_not_ws (by decide : isJsonWs quoteD = false)]
        simp +decide only [ite_true, ite_false]
        have hfuel : k.length < ((k.foldr
            (fun c acc => escapeJSONChar c ++ acc) [quoteD]) ++
            (':' :: ((if gap = [] then [] else [' ']) ++
              (stringifyV gap ind1 v ++ (itemSep gap ind1 ++
                (joinItems gap ind1 ((stringifyObjItems gap ind1
                  ((k1, v1) :: es'')).map Prod.snd) ++
                  (w1 ++ (rbraceC :: rest)))))))).length.succ := by
          have := quoteBody_len k
          simp only [List.length_append]
          omega
        rw [quote_body_decode k _ _ hfuel]
        simp only []
        rw [dropWhile_not_ws (by decide : isJsonWs ':' = false)]
        simp +decide only [ite_true, ite_false]
        have hv2 : jsonParseValue f ((if gap = [] then [] else [' ']) ++
            (stringifyV gap ind1 v ++ (itemSep gap ind1 ++
              (joinItems gap ind1 ((stringifyObjItems gap ind1
                ((k1, v1) :: es'')).map Prod.snd) ++
                (w1 ++ (rbraceC :: rest)))))) =
            some (canonV v, itemSep gap ind1 ++
              (joinItems gap ind1 ((stringifyObjItems gap ind1
                ((k1, v1) :: es'')).map Prod.snd) ++
                (w1 ++ (rbraceC :: rest)))) := by
          rw [jsonParseValue_ws f _ _ hpadws]
          refine ihV gap ind1 v _ (by rw [hszs] at hsz; omega) hok0 hfin0
            hg hi ?_
          rw [hsep]
          exact Or.inr ⟨',', (if gap = [] then [] else '\n' :: ind1) ++
            (joinItems gap ind1 ((stringifyObjItems gap ind1
              ((k1, v1) :: es'')).map Prod.snd) ++
              (w1 ++ (rbraceC :: rest))), by simp, by decide, by decide,
            by decide, by decide⟩
        rw [hv2]
        simp only []
        rw [hsep]
        simp only [List.cons_append]
        rw [dropWhile_not_ws (by decide : isJsonWs ',' = false)]
        simp +decide only [ite_true, ite_false]
        rw [recordSet_fresh acc k (canonV v) hkfresh]
        have hndT : (((k1, v1) :: es'').map Prod.fst).Nodup :=
          (List.nodup_cons.mp hnd).2
        have hkne : ¬ k ∈ ((k1, v1) :: es'').map Prod.fst :=
          (List.nodup_cons.mp hnd).1
        have hdisj2 : ∀ k2 ∈ ((k1, v1) :: es'').map Prod.fst,
            ¬ k2 ∈ (acc ++ [(k, canonV v)]).map Prod.fst := by
          intro k2 hk2
          rw [List.map_append]
          intro hmem
          rcases List.mem_append.mp hmem with h | h
          · exact hdisj k2
              (by rw [List.map_cons]; exact List.mem_cons_of_mem _ hk2) h
          · simp only [List.map_cons, List.map_nil, List.mem_cons] at h
            rcases h with h | h
            · subst h
              exact hkne hk2
            · simp at h
        have hM := ihM gap ind1 ((k1, v1) :: es'') (acc ++ [(k, canonV v)])
          (if gap = [] then [] else '\n' :: ind1) w1 rest (by simp)
          (by rw [hszs] at hsz; have := vSize_pos v; omega) hokT hfinT
          hndT hdisj2 hg hi hsepws hw1
        simp only [List.append_assoc, List.cons_append,
          List.nil_append, List.append_nil] at hM ⊢
        rw [hM]
        simp [canonO]

/-- The serialization of any invariant-satisfying value tree with only
finite numbers is a complete JSON text decoding to the tree's canonical
form. -/
theorem jsonStringify_roundtrip (v : Value) (indent : Nat)
    (hok : valueOkB v = true) (hfin : finiteVB v = true) :
    jsonParse (jsonStringify v indent) = some (canonV v) := by
  unfold jsonParse jsonStringify
  have hgap : wsOnly (gapOf indent) := by
    intro c hc
    unfold gapOf at hc
    have := List.eq_of_mem_replicate hc
    subst this
    decide
  have hmain := (stringify_decode
      ((stringifyV (gapOf indent) [] v).length + 1)).1
    (gapOf indent) [] v []
    (by have := stringify_size v (gapOf indent) []; omega)
    hok hfin hgap (by intro c hc; simp at hc) (Or.inl rfl)
  rw [List.append_nil] at hmain
  rw [hmain]
  rfl

/-- Every value the whole pipeline accepts satisfies the parser
invariant. -/
theorem pyParseTree_ok {input : List Char} {v : Value}
    (h : pyParseTree input = .ok v) : valueOkB v = true := by
  simp only [pyParseTree] at h
  split at h
  · exact absurd h (by simp)
  · split at h
    · exact absurd h (by simp)
    · unfold parseTokens at h
      rename_i ts hts
      rcases hp : parseValueF (4 * ts.length + 4) ts with e | ⟨v1, ts1⟩
      · rw [hp] at h
        simp at h
      · rw [hp] at h
        rcases ts1 with _ | ⟨t, ts2⟩
        · simp at h
        · simp only [] at h
          by_cases he : t.type = TokType.EOF
          · rw [if_pos he] at h
            simp only [] at h
            injection h with h1
            subst h1
            exact (parse_ok (4 * ts.length + 4)).1 ts v1 (t :: ts2) hp
          · rw [if_neg he] at h
            simp at h

/-- C1 (amended): for every input accepted by the grammar whose parsed
value tree contains only finite numbers, `pythonDictToJson` succeeds and
returns text that is valid JSON and that a standard JSON decoder decodes to
the canonical form of the value tree the parser built.  (The original claim
fails for number literals that overflow to Infinity: see the
counterexample.) -/
theorem converted_output_decodes (input : String) (indent : Nat)
    (v : Value) (hparse : pyParseTree input.data = .ok v)
    (hfin : finiteVB v = true) :
    ∃ out : String, pythonDictToJson input indent = .ok out ∧
      jsonParse out.data = some (canonV v) := by
  refine ⟨(jsonStringify v indent).asString, ?_, ?_⟩
  · unfold pythonDictToJson
    rw [hparse]
  · show jsonParse (jsonStringify v indent) = some (canonV v)
    exact jsonStringify_roundtrip v indent (pyParseTree_ok hparse) hfin

set_option maxRecDepth 8000 in
/-- C1 counterexample: the input `1e309` is accepted by the grammar and
parses to the Infinity number slot, but the emitted text `null` decodes to
JSON null, which is not structurally equal to the value tree the parser
built. -/
theorem convert_roundtrip_counterexample :
    pyParseTree "1e309".data = .ok (.num .inf) ∧
    pythonDictToJson "1e309" 4 = .ok "null" ∧
    jsonParse "null".data = some .null ∧
    some Value.null ≠ some (canonV (.num .inf)) := by
  refine ⟨rfl, rfl, rfl, ?_⟩
  intro h
  injection h with h1
  exact Value.noConfusion h1

set_option maxRecDepth 8000 in
/-- Witness for C1 (amended) at a concrete dict input. -/
theorem converted_output_decodes_witness :
    ∃ out : String,
      pythonDictToJson "\x7b'a': [1, True], 'b': 'x'\x7d" 4 = .ok out ∧
      jsonParse out.data = some (canonV (.obj [("a".data,
        .arr [.num (.fin 1), .bool true]), ("b".data, .str "x".data)])) :=
  converted_output_decodes "\x7b'a': [1, True], 'b': 'x'\x7d" 4 _ rfl rfl
